import Mathlib

/-!
ldcache: a loading cache over an LRU / LFU store

Shallow embedding of `ldcache.go` and `ifaces.go`.

* The wrapper functions (`NewCache`, `GetIfPresent`, `Put`, `Invalidate`,
  `InvalidateAll`, `Close`, `Get`, `SetLoader`, `Refresh`) are translated from the
  Go source. In them the reader/writer lock `mu` is not represented: every
  operation is one atomic step of a sequential execution. The lock steps of
  `Refresh` and `Get` are translated separately (`RWMutex`, `RefreshBegin`,
  `RefreshEnd`, `GetBegin`).
* The store `c` the wrapper delegates to (the eviction policies and the
  expiring key-value store on top of them) is a library that is not part of the
  source tree; it is modelled from the specification (sections 3, 4.1, 4.2, 4.3).
* The clock is explicit: every operation that reads the clock takes the reading
  `now` as an argument.
* A Go run-time panic (nil store) is the result `none`.
* The eviction-order statements are relative to the access history of a run
  (`History`, `Op.access`, `runTraced`), which records for every key its most
  recent access and its number of accesses since its insertion.
-/

namespace ldcache

/-- Clock readings (`time.Time`) and durations (`time.Duration`) in one integer unit. -/
abbrev Time := Int

/-- Go `error` values: the package sentinel `ErrNotFound`, or any other error. -/
inductive Error where
  | ErrNotFound
  | other (msg : String)
deriving DecidableEq

/-- Modelled from the spec: the stored unit of the library store (section 3, Entry):
key, value, optional absolute expiry instant. -/
structure Entry (K V : Type) where
  key : K
  value : V
  expiresAt : Option Time
deriving DecidableEq

/-- Modelled from the spec: an entry is expired at `now` when its expiry instant has
passed; an entry without expiry instant never expires. -/
def Entry.expired {K V : Type} (e : Entry K V) (now : Time) : Bool :=
  match e.expiresAt with
  | none => false
  | some t => decide (t < now)

/-! ## LRU policy (spec 4.1) -/

/-- Modelled from the spec: the LRU policy of the library store (section 4.1). The
recency list is `list`, most recently used first; the key-to-node mapping is the
lookup by key in that list. -/
structure LRUPolicy (K V : Type) where
  cap : Int
  list : List (Entry K V)
deriving DecidableEq

namespace LRUPolicy

variable {K V : Type} [DecidableEq K]

/-- Modelled from the spec: `lru.WithCapacity`, an empty LRU policy of the given capacity. -/
def WithCapacity (cap : Int) : LRUPolicy K V :=
  { cap := cap, list := [] }

/-- Modelled from the spec: the node the mapping holds for `k`, without touching it. -/
def peek (p : LRUPolicy K V) (k : K) : Option (Entry K V) :=
  p.list.find? (fun e => decide (e.key = k))

/-- Modelled from the spec: `get(key)`, a miss if absent; if present the entry moves to
the head of the recency list and is returned. -/
def get (p : LRUPolicy K V) (k : K) : Option (Entry K V) × LRUPolicy K V :=
  match p.peek k with
  | none => (none, p)
  | some e => (some e, { p with list := e :: p.list.filter (fun x => decide (x.key ≠ k)) })

/-- Modelled from the spec: `set(key,value)`. If the key exists its value is updated and
the node moves to the head. Otherwise a new node is inserted at the head and, if the
resulting size exceeds the capacity, the tail node is removed. -/
def set (p : LRUPolicy K V) (e : Entry K V) : LRUPolicy K V :=
  match p.peek e.key with
  | some _ => { p with list := e :: p.list.filter (fun x => decide (x.key ≠ e.key)) }
  | none =>
    if p.cap < ((e :: p.list).length : Int) then { p with list := (e :: p.list).dropLast }
    else { p with list := e :: p.list }

/-- Modelled from the spec: `delete(key)`, removes the node; no-op if absent. -/
def delete (p : LRUPolicy K V) (k : K) : LRUPolicy K V :=
  { p with list := p.list.filter (fun x => decide (x.key ≠ k)) }

/-- Modelled from the spec: `keys()`, all keys. -/
def keys (p : LRUPolicy K V) : List K :=
  p.list.map Entry.key

end LRUPolicy

/-! ## LFU policy (spec 4.2) -/

/-- Modelled from the spec: what the LFU key map holds for a key, the entry and its
frequency. -/
structure LFUNode (K V : Type) where
  entry : Entry K V
  freq : Nat
deriving DecidableEq

/-- Modelled from the spec: the LFU policy of the library store (sections 3 and 4.2):
the key map `items`, the frequency buckets `buckets` (frequency to the keys at that
frequency, in insertion order) and the tracked `minFreq` (`none` is undefined). -/
structure LFUPolicy (K V : Type) where
  cap : Int
  items : List (LFUNode K V)
  buckets : List (Nat × List K)
  minFreq : Option Nat
deriving DecidableEq

/-- Modelled from the spec: the bucket of frequency `f` (empty when there is none). -/
def bucketAt {K : Type} (bs : List (Nat × List K)) (f : Nat) : List K :=
  match bs.find? (fun b => decide (b.1 = f)) with
  | some b => b.2
  | none => []

/-- Modelled from the spec: replace the bucket of frequency `f`. -/
def bucketPut {K : Type} (bs : List (Nat × List K)) (f : Nat) (ks : List K) :
    List (Nat × List K) :=
  (f, ks) :: bs.filter (fun b => decide (b.1 ≠ f))

namespace LFUPolicy

variable {K V : Type} [DecidableEq K]

/-- Modelled from the spec: `lfu.WithCapacity`, an empty LFU policy of the given capacity. -/
def WithCapacity (cap : Int) : LFUPolicy K V :=
  { cap := cap, items := [], buckets := [], minFreq := none }

/-- Modelled from the spec: the node the key map holds for `k`, without touching it. -/
def node (p : LFUPolicy K V) (k : K) : Option (LFUNode K V) :=
  p.items.find? (fun n => decide (n.entry.key = k))

/-- Modelled from the spec: the entry stored for `k`, without touching it. -/
def peek (p : LFUPolicy K V) (k : K) : Option (Entry K V) :=
  (p.node k).map LFUNode.entry

/-- Modelled from the spec: the frequency-increment step of `get` and of `set` on an
existing key. The key, held by node `n`, leaves its bucket and is appended to the bucket
of `freq + 1`; it now stores entry `e`; if the old bucket becomes empty and was
`minFreq`, `minFreq` is incremented. -/
def touch (p : LFUPolicy K V) (k : K) (n : LFUNode K V) (e : Entry K V) : LFUPolicy K V :=
  let old := (bucketAt p.buckets n.freq).filter (fun x => decide (x ≠ k))
  let bs := bucketPut p.buckets n.freq old
  { p with
    items := p.items.map
      (fun x => if x.entry.key = k then { entry := e, freq := n.freq + 1 } else x)
    buckets := bucketPut bs (n.freq + 1) (bucketAt bs (n.freq + 1) ++ [k])
    minFreq := if old.isEmpty && decide (p.minFreq = some n.freq) then some (n.freq + 1)
      else p.minFreq }

/-- Modelled from the spec: `get(key)`, a miss if absent; if present the frequency is
incremented and the entry returned. -/
def get (p : LFUPolicy K V) (k : K) : Option (Entry K V) × LFUPolicy K V :=
  match p.node k with
  | none => (none, p)
  | some n => (some n.entry, p.touch k n n.entry)

/-- Modelled from the spec: `delete(key)`, removes the key from its frequency bucket and
from the key map; if its bucket becomes empty and equaled `minFreq`, `minFreq` becomes
undefined. No-op if absent. -/
def delete (p : LFUPolicy K V) (k : K) : LFUPolicy K V :=
  match p.node k with
  | none => p
  | some n =>
    let old := (bucketAt p.buckets n.freq).filter (fun x => decide (x ≠ k))
    { p with
      items := p.items.filter (fun x => decide (x.entry.key ≠ k))
      buckets := bucketPut p.buckets n.freq old
      minFreq := if old.isEmpty && decide (p.minFreq = some n.freq) then none
        else p.minFreq }

/-- Modelled from the spec: the eviction of `set`, the key at the front of the `minFreq`
bucket is removed from all structures. -/
def evict (p : LFUPolicy K V) : LFUPolicy K V :=
  match p.minFreq with
  | none => p
  | some m =>
    match bucketAt p.buckets m with
    | [] => p
    | k :: _ => p.delete k

/-- Modelled from the spec: `set(key,value)`. If the key exists, the value is updated with
the frequency-increment step of `get`. Otherwise, if at capacity, the front of the
`minFreq` bucket is evicted; the new key is inserted with frequency 1 and `minFreq`
is reset to 1. -/
def set (p : LFUPolicy K V) (e : Entry K V) : LFUPolicy K V :=
  match p.node e.key with
  | some n => p.touch e.key n e
  | none =>
    let q := if p.cap ≤ (p.items.length : Int) then p.evict else p
    { q with
      items := q.items ++ [{ entry := e, freq := 1 }]
      buckets := bucketPut q.buckets 1 (bucketAt q.buckets 1 ++ [e.key])
      minFreq := some 1 }

/-- Modelled from the spec: `keys()`, the union of all bucket contents. -/
def keys (p : LFUPolicy K V) : List K :=
  (p.buckets.map Prod.snd).flatten

end LFUPolicy

/-! ## The library store (spec 4.3) -/

/-- Modelled from the spec: the library store `cache.Cache` held in field `c`, which owns
one eviction policy instance, LRU or LFU. -/
inductive Store (K V : Type) where
  | lru (p : LRUPolicy K V)
  | lfu (p : LFUPolicy K V)
deriving DecidableEq

namespace Store

variable {K V : Type} [DecidableEq K]

/-- Modelled from the spec: `get` of the active policy. -/
def policyGet : Store K V → K → Option (Entry K V) × Store K V
  | lru p, k => ((p.get k).1, lru (p.get k).2)
  | lfu p, k => ((p.get k).1, lfu (p.get k).2)

/-- Modelled from the spec: `set` of the active policy. -/
def policySet : Store K V → Entry K V → Store K V
  | lru p, e => lru (p.set e)
  | lfu p, e => lfu (p.set e)

/-- Modelled from the spec: `delete` of the active policy (the library `Delete`). -/
def Delete : Store K V → K → Store K V
  | lru p, k => lru (p.delete k)
  | lfu p, k => lfu (p.delete k)

/-- Modelled from the spec: `keys` of the active policy (the library `Keys`). -/
def Keys : Store K V → List K
  | lru p => p.keys
  | lfu p => p.keys

/-- Modelled from the spec: the entry stored for `k`, if any, without any effect. -/
def peek : Store K V → K → Option (Entry K V)
  | lru p, k => p.peek k
  | lfu p, k => p.peek k

/-- Modelled from the spec: the number of entries the policy holds. -/
def size : Store K V → Nat
  | lru p => p.list.length
  | lfu p => p.items.length

/-- Modelled from the spec: the capacity the policy was built with. -/
def cap : Store K V → Int
  | lru p => p.cap
  | lfu p => p.cap

/-- Modelled from the spec: the library `Get` (section 4.3, getIfPresent). Delegates to
the policy `get`; an entry whose expiry instant has passed is treated as absent,
discarded, and not-found is returned; no side effect on a miss. The value on not-found
is the zero value. -/
def Get [Inhabited V] (s : Store K V) (now : Time) (key : K) : (V × Bool) × Store K V :=
  match s.policyGet key with
  | (none, _) => ((default, false), s)
  | (some e, s1) =>
    if e.expired now then ((default, false), s1.Delete key)
    else ((e.value, true), s1)

/-- Modelled from the spec: the expiry instant `WithExpiration(exp)` gives an entry stored
at `now`: `now + ttl` if a ttl is configured, none for the zero ttl. -/
def expiry (now : Time) (exp : Time) : Option Time :=
  if exp = 0 then none else some (now + exp)

/-- Modelled from the spec: the library `Set` with option `WithExpiration(exp)`
(section 4.3, put): computes the expiry instant, then policy `set`; an evicted entry is
simply dropped. -/
def Set (s : Store K V) (now : Time) (key : K) (val : V) (exp : Time) : Store K V :=
  s.policySet { key := key, value := val, expiresAt := expiry now exp }

end Store

/-! ## The wrapper (ldcache.go) -/

/-- The constants of `CacheType` (an `int`): `LRU = iota`, then `LFU`. -/
abbrev CacheType := Int

/-- `LRU CacheType = iota`. -/
def LRU : CacheType := 0

/-- `LFU`, the second constant of the `iota` block. -/
def LFU : CacheType := 1

/-- `LoaderFunc[K, V] func(context.Context, K) (V, error)`; a nil `error` is `none`. -/
abbrev LoaderFunc (Ctx K V : Type) := Ctx → K → V × Option Error

/-- `Cache[K, V]`: the store `c` (a pointer, `none` is nil), the ttl `exp` and the loader
`lf` (`none` is nil). The lock `mu` is not represented. -/
structure Cache (Ctx K V : Type) where
  c : Option (Store K V)
  exp : Time
  lf : Option (LoaderFunc Ctx K V)

/-- `CacheParams[K, V]`; field `Type` is spelled `Typ`. -/
structure CacheParams (Ctx K V : Type) where
  Typ : CacheType
  Size : Int
  Expires : Time
  Loader : Option (LoaderFunc Ctx K V)

section wrapper

variable {Ctx K V : Type} [DecidableEq K]

/-- `NewCache`: size 0 becomes 10000; the store is created for `Type == LRU` and for
`Type == LFU`, and stays nil otherwise. -/
def NewCache (params : CacheParams Ctx K V) : Cache Ctx K V :=
  let size : Int := if params.Size = 0 then 10000 else params.Size
  let ret : Cache Ctx K V := { c := none, exp := params.Expires, lf := params.Loader }
  let ret : Cache Ctx K V :=
    if params.Typ = LRU then { ret with c := some (Store.lru (LRUPolicy.WithCapacity size)) }
    else ret
  let ret : Cache Ctx K V :=
    if params.Typ = LFU then { ret with c := some (Store.lfu (LFUPolicy.WithCapacity size)) }
    else ret
  ret

/-- `Cache.GetIfPresent`: `tc.c.Get(key)`; panics on a nil store. -/
def GetIfPresent [Inhabited V] (tc : Cache Ctx K V) (now : Time) (_ctx : Ctx) (key : K) :
    Option ((V × Bool) × Cache Ctx K V) :=
  match tc.c with
  | none => none
  | some s => some ((s.Get now key).1, { tc with c := some (s.Get now key).2 })

/-- `Cache.Put`: `tc.c.Set(key, val, cache.WithExpiration(tc.exp))`; panics on a nil
store. -/
def Put (tc : Cache Ctx K V) (now : Time) (_ctx : Ctx) (key : K) (val : V) :
    Option (Cache Ctx K V) :=
  match tc.c with
  | none => none
  | some s => some { tc with c := some (s.Set now key val tc.exp) }

/-- `Cache.Invalidate`: `tc.c.Delete(key)`; panics on a nil store. -/
def Invalidate (tc : Cache Ctx K V) (_ctx : Ctx) (key : K) : Option (Cache Ctx K V) :=
  match tc.c with
  | none => none
  | some s => some { tc with c := some (s.Delete key) }

/-- `Cache.InvalidateAll`: `ks := tc.c.Keys()`, then `tc.c.Delete(k)` for each `k` of
`ks` in order; panics on a nil store. -/
def InvalidateAll (tc : Cache Ctx K V) (_ctx : Ctx) : Option (Cache Ctx K V) :=
  match tc.c with
  | none => none
  | some s => some { tc with c := some (s.Keys.foldl Store.Delete s) }

/-- `Cache.Close`: returns a nil error. -/
def Close (_tc : Cache Ctx K V) : Option Error :=
  none

/-- `var ErrNotFound = errors.New("key not found in cache")`. -/
def ErrNotFound : Error := Error.ErrNotFound

/-- What a call of `Cache.Get` yields: the returned value and error, the cache after the
call, and the loader invocations the call made, in order. -/
structure GetResult (Ctx K V : Type) where
  val : V
  err : Option Error
  cache : Cache Ctx K V
  loads : List (Ctx × K)

/-- `Cache.Get`: a first lookup; on a miss a second lookup; then `ErrNotFound` if the
loader is nil; otherwise the loader is called, its error returned as is, and on success
the value is stored with `tc.c.Set`. Panics on a nil store. -/
def Get [Inhabited V] (tc : Cache Ctx K V) (now : Time) (ctx : Ctx) (key : K) :
    Option (GetResult Ctx K V) :=
  match tc.c with
  | none => none
  | some s =>
    match s.Get now key with
    | ((v, true), s1) => some { val := v, err := none, cache := { tc with c := some s1 }, loads := [] }
    | ((_, false), s1) =>
      match s1.Get now key with
      | ((v, true), s2) =>
        some { val := v, err := none, cache := { tc with c := some s2 }, loads := [] }
      | ((v, false), s2) =>
        match tc.lf with
        | none =>
          some { val := v, err := some ErrNotFound, cache := { tc with c := some s2 }, loads := [] }
        | some lf =>
          match lf ctx key with
          | (v, some err) =>
            some { val := v, err := some err, cache := { tc with c := some s2 },
                   loads := [(ctx, key)] }
          | (v, none) =>
            some { val := v, err := none,
                   cache := { tc with c := some (s2.Set now key v tc.exp) },
                   loads := [(ctx, key)] }

/-- `Cache.SetLoader`: `tc.lf = lf`. -/
def SetLoader (tc : Cache Ctx K V) (lf : Option (LoaderFunc Ctx K V)) : Cache Ctx K V :=
  { tc with lf := lf }

/-- What a call of `Cache.Refresh` yields: the returned error, the cache after the call,
and the loader invocations the call made, in order. -/
structure RefreshResult (Ctx K V : Type) where
  err : Option Error
  cache : Cache Ctx K V
  loads : List (Ctx × K)

/-- `Cache.Refresh`: nil when the loader is nil; otherwise the loader is called, its
error returned as is, and on success the value is stored with `tc.c.Set` (which panics
on a nil store). -/
def Refresh (tc : Cache Ctx K V) (now : Time) (ctx : Ctx) (key : K) :
    Option (RefreshResult Ctx K V) :=
  match tc.lf with
  | none => some { err := none, cache := tc, loads := [] }
  | some lf =>
    match lf ctx key with
    | (_, some err) => some { err := some err, cache := tc, loads := [(ctx, key)] }
    | (v, none) =>
      match tc.c with
      | none => none
      | some s =>
        some { err := none, cache := { tc with c := some (s.Set now key v tc.exp) },
               loads := [(ctx, key)] }

end wrapper

/-! ## Well-formed stores and runs of operations -/

/-- Representation invariant of the LRU policy: every key has exactly one list node,
and a policy of positive capacity holds at most `cap` nodes. -/
def LRUPolicy.WF {K V : Type} (p : LRUPolicy K V) : Prop :=
  (p.list.map Entry.key).Nodup ∧ (0 < p.cap → (p.list.length : Int) ≤ p.cap)

/-- Representation invariant of the LFU policy (spec section 3): the key map holds one
node per key; a key is in the bucket of frequency `f` exactly when its stored frequency
is `f`; a defined `minFreq` points to a non-empty bucket and is a lower bound of the
stored frequencies; `minFreq` is defined whenever a policy of positive capacity is full;
frequencies start at 1; a policy of positive capacity holds at most `cap` nodes. -/
structure LFUPolicy.WF {K V : Type} [DecidableEq K] (p : LFUPolicy K V) : Prop where
  nodupKeys : (p.items.map (fun n => n.entry.key)).Nodup
  nodupFreqs : (p.buckets.map Prod.fst).Nodup
  bucket_iff : ∀ k f, k ∈ bucketAt p.buckets f ↔ ∃ n, p.node k = some n ∧ n.freq = f
  bucket_nodup : ∀ f, (bucketAt p.buckets f).Nodup
  min_nonempty : ∀ m, p.minFreq = some m → bucketAt p.buckets m ≠ []
  min_defined : 0 < p.cap → p.minFreq = none → (p.items.length : Int) < p.cap
  min_le : ∀ m, p.minFreq = some m → ∀ k n, p.node k = some n → m ≤ n.freq
  freq_pos : ∀ k n, p.node k = some n → 1 ≤ n.freq
  size_le : 0 < p.cap → (p.items.length : Int) ≤ p.cap

/-- Representation invariant of the store: that of its policy. -/
def Store.WF {K V : Type} [DecidableEq K] : Store K V → Prop
  | Store.lru p => p.WF
  | Store.lfu p => p.WF

/-- The entry stored in the cache for `k`, if any (nothing for a nil store). -/
def Cache.peek {Ctx K V : Type} [DecidableEq K] (tc : Cache Ctx K V) (k : K) :
    Option (Entry K V) :=
  match tc.c with
  | none => none
  | some s => s.peek k

/-- The number of entries the cache holds (none for a nil store). -/
def Cache.size {Ctx K V : Type} [DecidableEq K] (tc : Cache Ctx K V) : Nat :=
  match tc.c with
  | none => 0
  | some s => s.size

/-- One call of the public interface, with the clock reading it runs at. -/
inductive Op (Ctx K V : Type) where
  | put (now : Time) (ctx : Ctx) (key : K) (val : V)
  | get (now : Time) (ctx : Ctx) (key : K)
  | refresh (now : Time) (ctx : Ctx) (key : K)
  | getIfPresent (now : Time) (ctx : Ctx) (key : K)
  | invalidate (ctx : Ctx) (key : K)
  | invalidateAll (ctx : Ctx)
  | setLoader (lf : Option (LoaderFunc Ctx K V))

/-- The cache after one call; `none` if the call panics. -/
def Op.apply {Ctx K V : Type} [DecidableEq K] [Inhabited V] (tc : Cache Ctx K V) :
    Op Ctx K V → Option (Cache Ctx K V)
  | Op.put now ctx key val => Put tc now ctx key val
  | Op.get now ctx key => (Get tc now ctx key).map GetResult.cache
  | Op.refresh now ctx key => (Refresh tc now ctx key).map RefreshResult.cache
  | Op.getIfPresent now ctx key => (GetIfPresent tc now ctx key).map Prod.snd
  | Op.invalidate ctx key => Invalidate tc ctx key
  | Op.invalidateAll ctx => InvalidateAll tc ctx
  | Op.setLoader lf => some (SetLoader tc lf)

/-- The cache after a sequence of calls, in order; `none` if one of them panics. -/
def run {Ctx K V : Type} [DecidableEq K] [Inhabited V] (tc : Cache Ctx K V) :
    List (Op Ctx K V) → Option (Cache Ctx K V)
  | [] => some tc
  | op :: ops =>
    match op.apply tc with
    | none => none
    | some tc1 => run tc1 ops

/-! ## Example caches -/

/-- The loader of the load-on-miss example, `fn(k) = k*2`. -/
def doubleLoader : LoaderFunc Unit Nat Nat :=
  fun _ k => (k * 2, none)

/-- A loader that fails on every key. -/
def failingLoader : LoaderFunc Unit Nat Nat :=
  fun _ _ => (0, some (Error.other "load failed"))

/-- An LFU store of capacity 2 holding the pair `(7, 100)`, stored at time 0 with ttl 10. -/
def heldLFU : Store Nat Nat :=
  (Store.lfu (LFUPolicy.WithCapacity 2)).Set 0 7 100 10

/-- An LRU store of capacity 2 holding `(7, 100)` and `(8, 200)`, stored at time 0
without ttl. -/
def heldLRU : Store Nat Nat :=
  ((Store.lru (LRUPolicy.WithCapacity 2)).Set 0 7 100 0).Set 0 8 200 0

/-- A cache over `heldLFU` with ttl 10 and the given loader. -/
def lfuCache (lf : Option (LoaderFunc Unit Nat Nat)) : Cache Unit Nat Nat :=
  { c := some heldLFU, exp := 10, lf := lf }

/-- A cache over `heldLRU` without ttl and with the given loader. -/
def lruCache (lf : Option (LoaderFunc Unit Nat Nat)) : Cache Unit Nat Nat :=
  { c := some heldLRU, exp := 0, lf := lf }

/-! ## Capacity, store steps and the lock -/

/-- The capacity of the policy of the cache (none for a nil store). -/
def Cache.cap {Ctx K V : Type} [DecidableEq K] (tc : Cache Ctx K V) : Option Int :=
  match tc.c with
  | none => none
  | some s => some s.cap

/-- The stores a cache with ttl `exp` can reach from a store: by library lookups,
library stores of entries with ttl `exp`, and library deletions. -/
inductive Store.Reach {K V : Type} [DecidableEq K] [Inhabited V] (exp : Time) :
    Store K V → Store K V → Prop where
  | refl (s : Store K V) : Store.Reach exp s s
  | get (s s1 : Store K V) (now : Time) (k : K) :
      Store.Reach exp s s1 → Store.Reach exp s (s1.Get now k).2
  | set (s s1 : Store K V) (now : Time) (k : K) (v : V) :
      Store.Reach exp s s1 → Store.Reach exp s (s1.Set now k v exp)
  | delete (s s1 : Store K V) (k : K) :
      Store.Reach exp s s1 → Store.Reach exp s (s1.Delete k)

/-- `sync.RWMutex`, the type of field `mu`: whether a writer holds the lock and how many
readers hold it. -/
structure RWMutex where
  writer : Bool
  readers : Nat
deriving DecidableEq

/-- `mu.Lock()`: acquired when neither a writer nor a reader holds the lock; `none` when
the caller has to wait. -/
def RWMutex.Lock (mu : RWMutex) : Option RWMutex :=
  if mu.writer = false ∧ mu.readers = 0 then some { writer := true, readers := 0 } else none

/-- `mu.RLock()`: acquired when no writer holds the lock; `none` when the caller has to
wait. -/
def RWMutex.RLock (mu : RWMutex) : Option RWMutex :=
  if mu.writer = false then some { mu with readers := mu.readers + 1 } else none

/-- `mu.Unlock()`. -/
def RWMutex.Unlock (mu : RWMutex) : RWMutex :=
  { mu with writer := false }

/-- `mu.RUnlock()`. -/
def RWMutex.RUnlock (mu : RWMutex) : RWMutex :=
  { mu with readers := mu.readers - 1 }

/-- Where a call of `Cache.Refresh` stands once it has reached the call of the loader, or
before if it does not get there. -/
inductive RefreshPhase (Ctx K V : Type) where
  | returned (err : Option Error)
  | waiting
  | loading (lf : LoaderFunc Ctx K V) (mu : RWMutex)

/-- `Cache.Refresh` up to the call of the loader: it returns nil when `tc.lf == nil`;
otherwise `tc.mu.Lock()`, after which the loader runs with the lock held. -/
def RefreshBegin {Ctx K V : Type} (tc : Cache Ctx K V) (mu : RWMutex) : RefreshPhase Ctx K V :=
  match tc.lf with
  | none => RefreshPhase.returned none
  | some lf =>
    match mu.Lock with
    | none => RefreshPhase.waiting
    | some mu1 => RefreshPhase.loading lf mu1

/-- `Cache.Refresh` from the return `(v, err)` of the loader on: the error is returned, or
the value stored with `tc.c.Set`; the deferred `tc.mu.Unlock()` runs in both cases. The
result is the returned error, the cache and the lock. -/
def RefreshEnd {Ctx K V : Type} [DecidableEq K] (tc : Cache Ctx K V) (mu : RWMutex)
    (now : Time) (key : K) (res : V × Option Error) :
    Option (Option Error × Cache Ctx K V × RWMutex) :=
  match res with
  | (_, some err) => some (some err, tc, mu.Unlock)
  | (v, none) =>
    match tc.c with
    | none => none
    | some s => some (none, { tc with c := some (s.Set now key v tc.exp) }, mu.Unlock)

/-- What the first three statements of `Cache.Get` yield, `tc.mu.RLock()`,
`tc.c.Get(key)`, `tc.mu.RUnlock()`: the lookup result, the cache and the lock. -/
inductive GetFirst (Ctx K V : Type) where
  | waiting
  | panicked
  | looked (res : V × Bool) (tc : Cache Ctx K V) (mu : RWMutex)

/-- The first three statements of `Cache.Get`: the caller waits when the read lock cannot
be acquired. -/
def GetBegin {Ctx K V : Type} [DecidableEq K] [Inhabited V] (tc : Cache Ctx K V)
    (mu : RWMutex) (now : Time) (key : K) : GetFirst Ctx K V :=
  match mu.RLock with
  | none => GetFirst.waiting
  | some mu1 =>
    match tc.c with
    | none => GetFirst.panicked
    | some s =>
      GetFirst.looked (s.Get now key).1 { tc with c := some (s.Get now key).2 } mu1.RUnlock

/-- Parameters of an LRU cache of capacity 2 with ttl `exp` and the doubling loader. -/
def lruParams (exp : Time) : CacheParams Unit Nat Nat :=
  { Typ := LRU, Size := 2, Expires := exp, Loader := some doubleLoader }

/-- Parameters of an LFU cache of capacity `size` without ttl and without loader. -/
def lfuParams (size : Int) : CacheParams Unit Nat Nat :=
  { Typ := LFU, Size := size, Expires := 0, Loader := none }

/-- Parameters with a type that is neither LRU nor LFU. -/
def otherParams : CacheParams Unit Nat Nat :=
  { Typ := 2, Size := 5, Expires := 0, Loader := some doubleLoader }

/-- Parameters with every field at its zero value. -/
def zeroParams : CacheParams Unit Nat Nat :=
  { Typ := 0, Size := 0, Expires := 0, Loader := none }

/-! ## The access history of a run (eviction-order claims) -/

/-- What a call does to a key, in the words of the eviction-order claims: nothing; the
insertion of a key that is not stored; a hit on, or an overwrite of, a stored key. -/
inductive Access (K : Type) where
  | nothing
  | insert (k : K)
  | hit (k : K)
deriving DecidableEq

/-- The access made by storing a value under `k`: an insertion when the cache holds no
entry for `k`, an overwrite when it holds one. -/
def Cache.storeAccess {Ctx K V : Type} [DecidableEq K] (tc : Cache Ctx K V) (k : K) :
    Access K :=
  match tc.peek k with
  | none => Access.insert k
  | some _ => Access.hit k

/-- The access made by a load for a key that is not found: an insertion when a loader is
configured and succeeds, nothing otherwise. -/
def Cache.loadAccess {Ctx K V : Type} (tc : Cache Ctx K V) (ctx : Ctx) (k : K) : Access K :=
  match tc.lf with
  | none => Access.nothing
  | some lf =>
    match (lf ctx k).2 with
    | none => Access.insert k
    | some _ => Access.nothing

/-- The access a call makes on cache `tc`: `Put` inserts or overwrites; `Get` and
`GetIfPresent` hit a stored entry that is not expired; `Get` on a key that is not found
inserts it by a successful load; `Refresh` inserts or overwrites by a successful load. -/
def Op.access {Ctx K V : Type} [DecidableEq K] (tc : Cache Ctx K V) : Op Ctx K V → Access K
  | Op.put _ _ key _ => tc.storeAccess key
  | Op.get now ctx key =>
    match tc.peek key with
    | none => tc.loadAccess ctx key
    | some e => if e.expired now then tc.loadAccess ctx key else Access.hit key
  | Op.refresh _ ctx key =>
    match tc.lf with
    | none => Access.nothing
    | some lf =>
      match (lf ctx key).2 with
      | none => tc.storeAccess key
      | some _ => Access.nothing
  | Op.getIfPresent now _ key =>
    match tc.peek key with
    | none => Access.nothing
    | some e => if e.expired now then Access.nothing else Access.hit key
  | Op.invalidate _ _ => Access.nothing
  | Op.invalidateAll _ => Access.nothing
  | Op.setLoader _ => Access.nothing

/-- The access history of a run: `tick` is the number of calls made; `last k` is the
number of the most recent call that accessed `k` (0 when there is none); `count k` is the
number of accesses of `k` since its most recent insertion, the insertion included. -/
structure History (K : Type) where
  tick : Nat
  last : K → Nat
  count : K → Nat

/-- The history before the first call. -/
def History.start {K : Type} : History K :=
  { tick := 0, last := fun _ => 0, count := fun _ => 0 }

/-- The history after one more call with the given access: an insertion starts the count
of the key at 1, a hit or overwrite adds 1 to it. -/
def History.record {K : Type} [DecidableEq K] (h : History K) : Access K → History K
  | Access.nothing => { h with tick := h.tick + 1 }
  | Access.insert k =>
    { tick := h.tick + 1
      last := fun j => if j = k then h.tick + 1 else h.last j
      count := fun j => if j = k then 1 else h.count j }
  | Access.hit k =>
    { tick := h.tick + 1
      last := fun j => if j = k then h.tick + 1 else h.last j
      count := fun j => if j = k then h.count k + 1 else h.count j }

/-- The cache and the access history after a sequence of calls; `none` if one of them
panics. -/
def runTraced {Ctx K V : Type} [DecidableEq K] [Inhabited V] (tc : Cache Ctx K V)
    (h : History K) : List (Op Ctx K V) → Option (Cache Ctx K V × History K)
  | [] => some (tc, h)
  | op :: ops =>
    match op.apply tc with
    | none => none
    | some tc1 => runTraced tc1 (h.record (op.access tc)) ops

/-- The frequency the LFU policy of the cache holds for `k` (none when the key is not
stored or the policy is not LFU). -/
def Cache.freq {Ctx K V : Type} [DecidableEq K] (tc : Cache Ctx K V) (k : K) : Option Nat :=
  match tc.c with
  | some (Store.lfu p) => (p.node k).map LFUNode.freq
  | _ => none

/-- The recency list of an LRU policy agrees with a history: along the list the most
recent accesses get older, and no stored key was accessed after the last call. -/
def LRUPolicy.Ordered {K V : Type} (p : LRUPolicy K V) (h : History K) : Prop :=
  p.list.Pairwise (fun a b => h.last b.key < h.last a.key)
    ∧ ∀ e, e ∈ p.list → h.last e.key ≤ h.tick

/-- The buckets of an LFU policy agree with a history: along every bucket the most recent
accesses get newer; the stored frequency of a key is its count of accesses; no stored key
was accessed after the last call. -/
def LFUPolicy.Ordered {K V : Type} [DecidableEq K] (p : LFUPolicy K V) (h : History K) :
    Prop :=
  (∀ f, (bucketAt p.buckets f).Pairwise (fun a b => h.last a < h.last b))
    ∧ ∀ k n, p.node k = some n → n.freq = h.count k ∧ h.last k ≤ h.tick

/-- The policy of a store agrees with a history. -/
def Store.Ordered {K V : Type} [DecidableEq K] : Store K V → History K → Prop
  | Store.lru p, h => p.Ordered h
  | Store.lfu p, h => p.Ordered h

/-! ## Lookup lemmas -/

theorem bucketAt_bucketPut_same {K : Type} (bs : List (Nat × List K)) (f : Nat)
    (ks : List K) : bucketAt (bucketPut bs f ks) f = ks := by
  simp [bucketAt, bucketPut]

theorem find_filter_ne {α : Type} (l : List α) (p q : α → Bool)
    (h : ∀ x, p x = true → q x = true) :
    (l.filter q).find? p = l.find? p := by
  induction l with
  | nil => rfl
  | cons a t ih =>
    by_cases hq : q a = true
    · rw [List.filter_cons_of_pos hq]
      by_cases hp : p a = true
      · simp [List.find?_cons, hp]
      · simp only [List.find?_cons, hp, ih]
    · rw [List.filter_cons_of_neg hq]
      have hp : ¬ p a = true := fun hp => hq (h a hp)
      simp only [List.find?_cons, hp, ih]

theorem bucketAt_bucketPut_ne {K : Type} (bs : List (Nat × List K)) (f g : Nat)
    (ks : List K) (h : g ≠ f) : bucketAt (bucketPut bs f ks) g = bucketAt bs g := by
  have hfg : decide (f = g) = false := by simpa using fun e : f = g => h e.symm
  have e : (bs.filter (fun b => decide (b.1 ≠ f))).find? (fun b => decide (b.1 = g))
      = bs.find? (fun b => decide (b.1 = g)) := by
    apply find_filter_ne
    intro x hx
    have hx1 : x.1 = g := by simpa using hx
    simp [hx1, h]
  unfold bucketAt bucketPut
  rw [List.find?_cons, hfg, e]

theorem find_key_some {α K : Type} [DecidableEq K] (kf : α → K) (l : List α) (k : K) (a : α)
    (h : l.find? (fun x => decide (kf x = k)) = some a) : kf a = k ∧ a ∈ l := by
  have h1 := List.find?_some h
  exact ⟨by simpa using h1, List.mem_of_find?_eq_some h⟩

theorem find_key_none {α K : Type} [DecidableEq K] (kf : α → K) (l : List α) (k : K) :
    l.find? (fun x => decide (kf x = k)) = none ↔ k ∉ l.map kf := by
  rw [List.find?_eq_none]
  simp only [List.mem_map, decide_eq_true_eq, not_exists, not_and]

theorem find_filter_key_ne {α K : Type} [DecidableEq K] (kf : α → K) (l : List α) (j k : K)
    (h : j ≠ k) :
    (l.filter (fun x => decide (kf x ≠ k))).find? (fun x => decide (kf x = j))
      = l.find? (fun x => decide (kf x = j)) := by
  apply find_filter_ne
  intro x hx
  have hx1 : kf x = j := by simpa using hx
  simp [hx1, h]

theorem find_filter_key_self {α K : Type} [DecidableEq K] (kf : α → K) (l : List α) (k : K) :
    (l.filter (fun x => decide (kf x ≠ k))).find? (fun x => decide (kf x = k)) = none := by
  rw [List.find?_eq_none]
  intro x hx
  have := (List.mem_filter.mp hx).2
  simpa using this

theorem filter_key_absent {α K : Type} [DecidableEq K] (kf : α → K) (l : List α) (k : K)
    (h : l.find? (fun x => decide (kf x = k)) = none) :
    l.filter (fun x => decide (kf x ≠ k)) = l := by
  rw [List.filter_eq_self]
  intro x hx
  have := List.find?_eq_none.mp h x hx
  simpa using this

theorem length_filter_key_lt {α K : Type} [DecidableEq K] (kf : α → K) (l : List α) (k : K)
    (a : α) (h : l.find? (fun x => decide (kf x = k)) = some a) :
    (l.filter (fun x => decide (kf x ≠ k))).length < l.length := by
  obtain ⟨hk, hm⟩ := find_key_some kf l k a h
  induction l with
  | nil => cases hm
  | cons b t ih =>
    by_cases hb : kf b = k
    · have : (List.filter (fun x => decide (kf x ≠ k)) (b :: t)) = List.filter (fun x => decide (kf x ≠ k)) t := by
        apply List.filter_cons_of_neg; simp [hb]
      rw [this]
      exact Nat.lt_succ_of_le (List.length_filter_le _ _)
    · have hf : (List.filter (fun x => decide (kf x ≠ k)) (b :: t)) = b :: List.filter (fun x => decide (kf x ≠ k)) t := by
        apply List.filter_cons_of_pos; simp [hb]
      rw [hf]
      have hb' : decide (kf b = k) = false := by simpa using hb
      rw [List.find?_cons, hb'] at h
      have hm' : a ∈ t := List.mem_of_find?_eq_some h
      simp only [List.length_cons]
      exact Nat.succ_lt_succ (ih h hm')

theorem length_filter_key_nodup {α K : Type} [DecidableEq K] (kf : α → K) (l : List α) (k : K)
    (a : α) (h : l.find? (fun x => decide (kf x = k)) = some a) (hn : (l.map kf).Nodup) :
    (l.filter (fun x => decide (kf x ≠ k))).length + 1 = l.length := by
  induction l with
  | nil => cases h
  | cons b t ih =>
    rw [List.map_cons, List.nodup_cons] at hn
    by_cases hb : kf b = k
    · have hf : (List.filter (fun x => decide (kf x ≠ k)) (b :: t)) = List.filter (fun x => decide (kf x ≠ k)) t := by
        apply List.filter_cons_of_neg; simp [hb]
      rw [hf]
      have hnone : t.find? (fun x => decide (kf x = k)) = none := by
        rw [find_key_none]; rw [← hb]; exact hn.1
      rw [filter_key_absent kf t k hnone]
      rfl
    · have hf : (List.filter (fun x => decide (kf x ≠ k)) (b :: t)) = b :: List.filter (fun x => decide (kf x ≠ k)) t := by
        apply List.filter_cons_of_pos; simp [hb]
      rw [hf]
      have hb' : decide (kf b = k) = false := by simpa using hb
      rw [List.find?_cons, hb'] at h
      simp only [List.length_cons]
      rw [ih h hn.2]

theorem nodup_filter_key {α K : Type} [DecidableEq K] (kf : α → K) (l : List α) (q : α → Bool)
    (hn : (l.map kf).Nodup) : ((l.filter q).map kf).Nodup :=
  List.Nodup.sublist (List.Sublist.map kf (List.filter_sublist l)) hn

/-! ## LRU policy lemmas -/

theorem LRUPolicy.lru_peek_key {K V : Type} [DecidableEq K] (p : LRUPolicy K V) (k : K)
    (e : Entry K V) (h : p.peek k = some e) : e.key = k :=
  (find_key_some Entry.key p.list k e h).1

theorem LRUPolicy.lru_get_fst {K V : Type} [DecidableEq K] (p : LRUPolicy K V) (k : K) :
    (p.get k).1 = p.peek k := by
  unfold LRUPolicy.get
  cases h : p.peek k <;> rfl

theorem LRUPolicy.lru_get_miss {K V : Type} [DecidableEq K] (p : LRUPolicy K V) (k : K)
    (h : p.peek k = none) : (p.get k).2 = p := by
  unfold LRUPolicy.get
  rw [h]

theorem LRUPolicy.lru_peek_delete {K V : Type} [DecidableEq K] (p : LRUPolicy K V) (k j : K) :
    (p.delete k).peek j = if j = k then none else p.peek j := by
  unfold LRUPolicy.delete LRUPolicy.peek
  by_cases h : j = k
  · subst h
    rw [if_pos rfl]
    exact find_filter_key_self Entry.key p.list j
  · rw [if_neg h]
    exact find_filter_key_ne Entry.key p.list j k h

theorem LRUPolicy.lru_delete_absent {K V : Type} [DecidableEq K] (p : LRUPolicy K V) (k : K)
    (h : p.peek k = none) : p.delete k = p := by
  unfold LRUPolicy.delete
  rw [filter_key_absent Entry.key p.list k h]

theorem LRUPolicy.peek_moved {K V : Type} [DecidableEq K] (l : List (Entry K V))
    (e : Entry K V) (j : K) :
    (e :: l.filter (fun x => decide (x.key ≠ e.key))).find? (fun x => decide (x.key = j))
      = if j = e.key then some e else l.find? (fun x => decide (x.key = j)) := by
  by_cases h : j = e.key
  · subst h
    simp
  · have h' : decide (e.key = j) = false := by simpa using fun x : e.key = j => h x.symm
    rw [List.find?_cons, h', if_neg h]
    exact find_filter_key_ne Entry.key l j e.key h

theorem LRUPolicy.lru_peek_get {K V : Type} [DecidableEq K] (p : LRUPolicy K V) (k j : K) :
    (p.get k).2.peek j = p.peek j := by
  unfold LRUPolicy.get
  cases h : p.peek k with
  | none => rfl
  | some e =>
    have hk := p.lru_peek_key k e h
    subst hk
    show List.find? _ (e :: p.list.filter _) = _
    rw [LRUPolicy.peek_moved]
    by_cases hj : j = e.key
    · subst hj; rw [if_pos rfl]; exact h.symm
    · rw [if_neg hj]; rfl

theorem LRUPolicy.lru_peek_set_other {K V : Type} [DecidableEq K] (p : LRUPolicy K V)
    (e : Entry K V) (j : K) (hp : p.peek e.key ≠ none) (hj : j ≠ e.key) :
    (p.set e).peek j = p.peek j := by
  unfold LRUPolicy.set
  cases h : p.peek e.key with
  | none => exact absurd h hp
  | some e0 =>
    show List.find? _ (e :: p.list.filter _) = _
    rw [LRUPolicy.peek_moved, if_neg hj]
    rfl

theorem LRUPolicy.lru_peek_set_self {K V : Type} [DecidableEq K] (p : LRUPolicy K V)
    (e : Entry K V) (hc : 1 ≤ p.cap) : (p.set e).peek e.key = some e := by
  unfold LRUPolicy.set
  cases h : p.peek e.key with
  | some e0 =>
    show List.find? _ (e :: p.list.filter _) = _
    rw [LRUPolicy.peek_moved, if_pos rfl]
  | none =>
    show LRUPolicy.peek (if _ then _ else _) _ = _
    split
    · rename_i hlt
      cases hl : p.list with
      | nil =>
        rw [hl] at hlt
        simp at hlt
        omega
      | cons a t =>
        show List.find? _ ((e :: a :: t).dropLast) = _
        simp [List.dropLast]
    · show List.find? _ (e :: p.list) = _
      simp

theorem LRUPolicy.lru_cap_get {K V : Type} [DecidableEq K] (p : LRUPolicy K V) (k : K) :
    (p.get k).2.cap = p.cap := by
  unfold LRUPolicy.get
  cases h : p.peek k <;> rfl

theorem LRUPolicy.lru_cap_set {K V : Type} [DecidableEq K] (p : LRUPolicy K V) (e : Entry K V) :
    (p.set e).cap = p.cap := by
  unfold LRUPolicy.set
  cases h : p.peek e.key
  · show LRUPolicy.cap (if _ then _ else _) = _
    split <;> rfl
  · rfl

theorem LRUPolicy.lru_length_set_present {K V : Type} [DecidableEq K] (p : LRUPolicy K V)
    (e : Entry K V) (hw : p.WF) (hp : p.peek e.key ≠ none) :
    (p.set e).list.length = p.list.length := by
  unfold LRUPolicy.set
  cases h : p.peek e.key with
  | none => exact absurd h hp
  | some e0 =>
    show (e :: p.list.filter _).length = _
    rw [List.length_cons]
    exact length_filter_key_nodup Entry.key p.list e.key e0 h hw.1

theorem LRUPolicy.lru_WF_delete {K V : Type} [DecidableEq K] (p : LRUPolicy K V) (k : K)
    (hw : p.WF) : (p.delete k).WF := by
  refine ⟨nodup_filter_key Entry.key p.list _ hw.1, fun hc => ?_⟩
  have h1 := hw.2 hc
  have h2 : (p.delete k).list.length ≤ p.list.length := List.length_filter_le _ _
  have h3 : ((p.delete k).list.length : Int) ≤ p.list.length := by exact_mod_cast h2
  exact le_trans h3 h1

theorem LRUPolicy.nodup_moved {K V : Type} [DecidableEq K] (l : List (Entry K V))
    (e : Entry K V) (hn : (l.map Entry.key).Nodup) :
    ((e :: l.filter (fun x => decide (x.key ≠ e.key))).map Entry.key).Nodup := by
  rw [List.map_cons, List.nodup_cons]
  refine ⟨?_, nodup_filter_key Entry.key l _ hn⟩
  intro hm
  obtain ⟨x, hx, hxk⟩ := List.mem_map.mp hm
  have := (List.mem_filter.mp hx).2
  simp [hxk] at this

theorem LRUPolicy.length_moved {K V : Type} [DecidableEq K] (l : List (Entry K V))
    (e e0 : Entry K V) (h : l.find? (fun x => decide (x.key = e.key)) = some e0) :
    (e :: l.filter (fun x => decide (x.key ≠ e.key))).length ≤ l.length := by
  rw [List.length_cons]
  exact length_filter_key_lt Entry.key l e.key e0 h

theorem LRUPolicy.lru_WF_get {K V : Type} [DecidableEq K] (p : LRUPolicy K V) (k : K)
    (hw : p.WF) : (p.get k).2.WF := by
  unfold LRUPolicy.get
  cases h : p.peek k with
  | none => exact hw
  | some e =>
    have hk := p.lru_peek_key k e h
    subst hk
    refine ⟨LRUPolicy.nodup_moved p.list e hw.1, fun hc => ?_⟩
    have h1 := hw.2 hc
    have h2 := LRUPolicy.length_moved p.list e e h
    have h3 : ((e :: p.list.filter (fun x => decide (x.key ≠ e.key))).length : Int)
        ≤ p.list.length := by exact_mod_cast h2
    exact le_trans h3 h1

theorem LRUPolicy.lru_WF_set {K V : Type} [DecidableEq K] (p : LRUPolicy K V) (e : Entry K V)
    (hw : p.WF) : (p.set e).WF := by
  unfold LRUPolicy.set
  cases h : p.peek e.key with
  | some e0 =>
    refine ⟨LRUPolicy.nodup_moved p.list e hw.1, fun hc => ?_⟩
    have h1 := hw.2 hc
    have h2 := LRUPolicy.length_moved p.list e e0 h
    have h3 : ((e :: p.list.filter (fun x => decide (x.key ≠ e.key))).length : Int)
        ≤ p.list.length := by exact_mod_cast h2
    exact le_trans h3 h1
  | none =>
    have hnew : ((e :: p.list).map Entry.key).Nodup := by
      rw [List.map_cons, List.nodup_cons]
      exact ⟨(find_key_none Entry.key p.list e.key).mp h, hw.1⟩
    show LRUPolicy.WF (if _ then _ else _)
    split
    · rename_i hlt
      refine ⟨List.Nodup.sublist (List.Sublist.map Entry.key (List.dropLast_sublist _)) hnew,
        fun hc => ?_⟩
      have h1 := hw.2 hc
      show (((e :: p.list).dropLast.length : Nat) : Int) ≤ p.cap
      rw [List.length_dropLast]
      simpa using h1
    · rename_i hlt
      refine ⟨hnew, fun _ => ?_⟩
      exact not_lt.mp hlt

/-! ## LFU policy lemmas -/

theorem find_map_update {α K : Type} [DecidableEq K] (kf : α → K) (l : List α) (k j : K)
    (b : α) (hb : kf b = k) :
    (l.map (fun x => if kf x = k then b else x)).find? (fun x => decide (kf x = j))
      = if j = k then (l.find? (fun x => decide (kf x = k))).map (fun _ => b)
        else l.find? (fun x => decide (kf x = j)) := by
  induction l with
  | nil => simp
  | cons a t ih =>
    rw [List.map_cons, List.find?_cons, ih]
    by_cases ha : kf a = k
    · rw [if_pos ha]
      by_cases hj : j = k
      · subst hj
        simp [hb, ha, List.find?_cons]
      · have h1 : decide (kf b = j) = false := by
          simpa [hb] using fun x : k = j => hj x.symm
        have h2 : decide (kf a = j) = false := by
          simpa [ha] using fun x : k = j => hj x.symm
        rw [h1, if_neg hj, if_neg hj, List.find?_cons, h2]
    · rw [if_neg ha]
      by_cases hj : j = k
      · subst hj
        have h2 : decide (kf a = j) = false := by simpa using ha
        rw [h2, if_pos rfl, if_pos rfl, List.find?_cons, h2]
      · rw [if_neg hj, if_neg hj, List.find?_cons]

theorem LFUPolicy.node_key {K V : Type} [DecidableEq K] (p : LFUPolicy K V) (k : K)
    (n : LFUNode K V) (h : p.node k = some n) : n.entry.key = k :=
  (find_key_some (fun x : LFUNode K V => x.entry.key) p.items k n h).1

theorem LFUPolicy.node_touch {K V : Type} [DecidableEq K] (p : LFUPolicy K V) (k j : K)
    (n n0 : LFUNode K V) (e : Entry K V) (he : e.key = k) (h0 : p.node k = some n0) :
    (p.touch k n e).node j
      = if j = k then some { entry := e, freq := n.freq + 1 } else p.node j := by
  have h := find_map_update (fun x : LFUNode K V => x.entry.key) p.items k j
    { entry := e, freq := n.freq + 1 } he
  have h0' : List.find? (fun x => decide (x.entry.key = k)) p.items = some n0 := h0
  rw [h0'] at h
  exact h

theorem LFUPolicy.node_delete {K V : Type} [DecidableEq K] (p : LFUPolicy K V) (k j : K) :
    (p.delete k).node j = if j = k then none else p.node j := by
  unfold LFUPolicy.delete
  cases h : p.node k with
  | none =>
    by_cases hj : j = k
    · subst hj; rw [if_pos rfl]; exact h
    · rw [if_neg hj]
  | some n =>
    show List.find? _ (p.items.filter _) = _
    by_cases hj : j = k
    · subst hj
      rw [if_pos rfl]
      exact find_filter_key_self (fun x : LFUNode K V => x.entry.key) p.items j
    · rw [if_neg hj]
      exact find_filter_key_ne (fun x : LFUNode K V => x.entry.key) p.items j k hj

theorem LFUPolicy.lfu_get_fst {K V : Type} [DecidableEq K] (p : LFUPolicy K V) (k : K) :
    (p.get k).1 = p.peek k := by
  unfold LFUPolicy.get LFUPolicy.peek
  cases h : p.node k <;> rfl

theorem LFUPolicy.lfu_get_miss {K V : Type} [DecidableEq K] (p : LFUPolicy K V) (k : K)
    (h : p.peek k = none) : (p.get k).2 = p := by
  unfold LFUPolicy.get
  unfold LFUPolicy.peek at h
  cases hn : p.node k with
  | none => rfl
  | some n => rw [hn] at h; cases h

theorem LFUPolicy.lfu_delete_absent {K V : Type} [DecidableEq K] (p : LFUPolicy K V) (k : K)
    (h : p.peek k = none) : p.delete k = p := by
  unfold LFUPolicy.delete
  unfold LFUPolicy.peek at h
  cases hn : p.node k with
  | none => rfl
  | some n => rw [hn] at h; cases h

theorem LFUPolicy.lfu_peek_delete {K V : Type} [DecidableEq K] (p : LFUPolicy K V) (k j : K) :
    (p.delete k).peek j = if j = k then none else p.peek j := by
  unfold LFUPolicy.peek
  rw [LFUPolicy.node_delete]
  split <;> rfl

theorem LFUPolicy.lfu_peek_get {K V : Type} [DecidableEq K] (p : LFUPolicy K V) (k j : K) :
    (p.get k).2.peek j = p.peek j := by
  unfold LFUPolicy.get
  cases h : p.node k with
  | none => rfl
  | some n =>
    show ((p.touch k n n.entry).node j).map LFUNode.entry = (p.node j).map LFUNode.entry
    rw [LFUPolicy.node_touch p k j n n n.entry (p.node_key k n h) h]
    by_cases hj : j = k
    · subst hj; rw [if_pos rfl, h]; rfl
    · rw [if_neg hj]

theorem LFUPolicy.evict_cases {K V : Type} [DecidableEq K] (p : LFUPolicy K V) :
    p.evict = p ∨ ∃ m k t, p.minFreq = some m ∧ bucketAt p.buckets m = k :: t
      ∧ p.evict = p.delete k := by
  unfold LFUPolicy.evict
  cases hm : p.minFreq with
  | none => exact Or.inl rfl
  | some m =>
    cases hb : bucketAt p.buckets m with
    | nil => left; simp only [hb]
    | cons k t => right; exact ⟨m, k, t, rfl, hb, by simp only [hb]⟩

theorem LFUPolicy.node_evict {K V : Type} [DecidableEq K] (p : LFUPolicy K V) (j : K)
    (h : p.node j = none) : p.evict.node j = none := by
  rcases p.evict_cases with he | ⟨m, k, t, _, _, he⟩
  · rw [he]; exact h
  · rw [he, LFUPolicy.node_delete]
    split
    · rfl
    · exact h

theorem find_append_new {α K : Type} [DecidableEq K] (kf : α → K) (l : List α) (j : K)
    (b : α) :
    (l ++ [b]).find? (fun x => decide (kf x = j))
      = (l.find? (fun x => decide (kf x = j))).or (if kf b = j then some b else none) := by
  rw [List.find?_append]
  by_cases hb : kf b = j
  · simp [hb]
  · simp [hb]

theorem LFUPolicy.lfu_peek_set_self {K V : Type} [DecidableEq K] (p : LFUPolicy K V)
    (e : Entry K V) : (p.set e).peek e.key = some e := by
  unfold LFUPolicy.set LFUPolicy.peek
  cases h : p.node e.key with
  | some n =>
    show ((p.touch e.key n e).node e.key).map LFUNode.entry = some e
    rw [LFUPolicy.node_touch p e.key e.key n n e rfl h, if_pos rfl]
    rfl
  | none =>
    have hq : (if p.cap ≤ (p.items.length : Int) then p.evict else p).node e.key = none := by
      split
      · exact p.node_evict e.key h
      · exact h
    show (List.find? _ (_ ++ [_])).map LFUNode.entry = some e
    rw [find_append_new (fun x : LFUNode K V => x.entry.key)]
    have hq' : List.find? (fun x : LFUNode K V => decide (x.entry.key = e.key))
        (if p.cap ≤ (p.items.length : Int) then p.evict else p).items = none := hq
    rw [hq', if_pos rfl]
    rfl

theorem LFUPolicy.lfu_peek_set_other {K V : Type} [DecidableEq K] (p : LFUPolicy K V)
    (e : Entry K V) (j : K) (hp : p.peek e.key ≠ none) (hj : j ≠ e.key) :
    (p.set e).peek j = p.peek j := by
  unfold LFUPolicy.set
  cases h : p.node e.key with
  | none => exact absurd (by unfold LFUPolicy.peek; rw [h]; rfl) hp
  | some n =>
    show ((p.touch e.key n e).node j).map LFUNode.entry = (p.node j).map LFUNode.entry
    rw [LFUPolicy.node_touch p e.key j n n e rfl h, if_neg hj]

theorem LFUPolicy.lfu_length_set_present {K V : Type} [DecidableEq K] (p : LFUPolicy K V)
    (e : Entry K V) (hp : p.peek e.key ≠ none) :
    (p.set e).items.length = p.items.length := by
  unfold LFUPolicy.set
  cases h : p.node e.key with
  | none => exact absurd (by unfold LFUPolicy.peek; rw [h]; rfl) hp
  | some n =>
    show (p.items.map _).length = _
    rw [List.length_map]

theorem LFUPolicy.cap_delete {K V : Type} [DecidableEq K] (p : LFUPolicy K V) (k : K) :
    (p.delete k).cap = p.cap := by
  unfold LFUPolicy.delete
  cases p.node k <;> rfl

theorem LFUPolicy.cap_evict {K V : Type} [DecidableEq K] (p : LFUPolicy K V) :
    p.evict.cap = p.cap := by
  rcases p.evict_cases with he | ⟨m, k, t, _, _, he⟩
  · rw [he]
  · rw [he]; exact p.cap_delete k

theorem LFUPolicy.lfu_cap_get {K V : Type} [DecidableEq K] (p : LFUPolicy K V) (k : K) :
    (p.get k).2.cap = p.cap := by
  unfold LFUPolicy.get
  cases p.node k <;> rfl

theorem LFUPolicy.lfu_cap_set {K V : Type} [DecidableEq K] (p : LFUPolicy K V) (e : Entry K V) :
    (p.set e).cap = p.cap := by
  unfold LFUPolicy.set
  cases p.node e.key with
  | some n => rfl
  | none =>
    show (if p.cap ≤ (p.items.length : Int) then p.evict else p).cap = p.cap
    split
    · exact p.cap_evict
    · rfl

/-! ## The LFU invariant is preserved -/

theorem nodup_bucketPut {K : Type} (bs : List (Nat × List K)) (f : Nat) (ks : List K)
    (h : (bs.map Prod.fst).Nodup) : ((bucketPut bs f ks).map Prod.fst).Nodup := by
  unfold bucketPut
  rw [List.map_cons, List.nodup_cons]
  refine ⟨?_, List.Nodup.sublist (List.Sublist.map Prod.fst (List.filter_sublist bs)) h⟩
  intro hm
  obtain ⟨x, hx, hxf⟩ := List.mem_map.mp hm
  have := (List.mem_filter.mp hx).2
  simp [hxf] at this

theorem LFUPolicy.bucketAt_touch {K V : Type} [DecidableEq K] (p : LFUPolicy K V) (k : K)
    (n : LFUNode K V) (e : Entry K V) (g : Nat) :
    bucketAt (p.touch k n e).buckets g
      = if g = n.freq + 1 then bucketAt p.buckets (n.freq + 1) ++ [k]
        else if g = n.freq then (bucketAt p.buckets n.freq).filter (fun x => decide (x ≠ k))
        else bucketAt p.buckets g := by
  show bucketAt (bucketPut (bucketPut p.buckets n.freq _) (n.freq + 1) _) g = _
  by_cases h1 : g = n.freq + 1
  · subst h1
    rw [if_pos rfl, bucketAt_bucketPut_same, bucketAt_bucketPut_ne _ _ _ _ (by omega)]
  · rw [if_neg h1, bucketAt_bucketPut_ne _ _ _ _ h1]
    by_cases h2 : g = n.freq
    · subst h2
      rw [if_pos rfl, bucketAt_bucketPut_same]
    · rw [if_neg h2, bucketAt_bucketPut_ne _ _ _ _ h2]

theorem LFUPolicy.minFreq_touch {K V : Type} [DecidableEq K] (p : LFUPolicy K V) (k : K)
    (n : LFUNode K V) (e : Entry K V) :
    (p.touch k n e).minFreq
      = if (bucketAt p.buckets n.freq).filter (fun x => decide (x ≠ k)) = []
          ∧ p.minFreq = some n.freq then some (n.freq + 1) else p.minFreq := by
  show (if (List.isEmpty _ && decide _) = true then _ else _) = _
  by_cases h1 : (bucketAt p.buckets n.freq).filter (fun x => decide (x ≠ k)) = []
  · by_cases h2 : p.minFreq = some n.freq
    · simp [h1, h2]
    · simp [h1, h2]
  · simp [h1, List.isEmpty_iff]

theorem LFUPolicy.WF_touch {K V : Type} [DecidableEq K] (p : LFUPolicy K V) (k : K)
    (n : LFUNode K V) (e : Entry K V) (hw : p.WF) (hn : p.node k = some n)
    (he : e.key = k) : (p.touch k n e).WF := by
  have hnode := fun j => LFUPolicy.node_touch p k j n n e he hn
  have hbk := LFUPolicy.bucketAt_touch p k n e
  have hmin := LFUPolicy.minFreq_touch p k n e
  have hkf : ∀ g, k ∈ bucketAt p.buckets g ↔ n.freq = g := by
    intro g
    rw [hw.bucket_iff]
    constructor
    · rintro ⟨n1, h1, h2⟩
      rw [hn] at h1
      cases h1
      exact h2
    · intro h
      exact ⟨n, hn, h⟩
  refine ⟨?_, ?_, ?_, ?_, ?_, ?_, ?_, ?_, ?_⟩
  · -- nodupKeys
    have : (p.touch k n e).items.map (fun x => x.entry.key)
        = p.items.map (fun x => x.entry.key) := by
      show (p.items.map _).map _ = _
      rw [List.map_map]
      apply List.map_congr_left
      intro x _
      show (if x.entry.key = k then _ else x).entry.key = _
      split
      · rename_i hx; rw [hx]; exact he
      · rfl
    rw [this]
    exact hw.nodupKeys
  · -- nodupFreqs
    exact nodup_bucketPut _ _ _ (nodup_bucketPut _ _ _ hw.nodupFreqs)
  · -- bucket_iff
    intro j g
    rw [hbk, hnode]
    by_cases hj : j = k
    · subst hj
      rw [if_pos rfl]
      by_cases h1 : g = n.freq + 1
      · subst h1
        rw [if_pos rfl]
        simp
      · rw [if_neg h1]
        have hr : ¬ ∃ n1 : LFUNode K V,
            some ({ entry := e, freq := n.freq + 1 } : LFUNode K V) = some n1
              ∧ n1.freq = g := by
          rintro ⟨n1, h2, h3⟩
          cases h2
          exact h1 h3.symm
        by_cases h2 : g = n.freq
        · subst h2
          rw [if_pos rfl]
          simp only [List.mem_filter, decide_eq_true_eq, ne_eq, not_true_eq_false, and_false,
            false_iff]
          exact hr
        · rw [if_neg h2, hkf]
          constructor
          · intro h; exact absurd h.symm h2
          · intro h; exact absurd h hr
    · rw [if_neg hj]
      by_cases h1 : g = n.freq + 1
      · subst h1
        rw [if_pos rfl, List.mem_append, hw.bucket_iff]
        simp [hj]
      · rw [if_neg h1]
        by_cases h2 : g = n.freq
        · subst h2
          rw [if_pos rfl, List.mem_filter, hw.bucket_iff]
          simp [hj]
        · rw [if_neg h2, hw.bucket_iff]
  · -- bucket_nodup
    intro g
    rw [hbk]
    by_cases h1 : g = n.freq + 1
    · subst h1
      rw [if_pos rfl]
      apply List.Nodup.append (hw.bucket_nodup _) (List.nodup_singleton k)
      intro x hx1 hx2
      rw [List.mem_singleton] at hx2
      subst hx2
      have := (hkf (n.freq + 1)).mp hx1
      omega
    · rw [if_neg h1]
      by_cases h2 : g = n.freq
      · subst h2
        rw [if_pos rfl]
        exact List.Nodup.filter _ (hw.bucket_nodup _)
      · rw [if_neg h2]
        exact hw.bucket_nodup g
  · -- min_nonempty
    intro m hm
    rw [hmin] at hm
    rw [hbk]
    by_cases h1 : m = n.freq + 1
    · subst h1
      rw [if_pos rfl]
      simp
    · rw [if_neg h1]
      split at hm
      · cases hm
        exact absurd rfl h1
      · rename_i hc
        by_cases h2 : m = n.freq
        · subst h2
          rw [if_pos rfl]
          intro hempty
          exact hc ⟨hempty, hm⟩
        · rw [if_neg h2]
          exact hw.min_nonempty m hm
  · -- min_defined
    intro hc hm
    rw [hmin] at hm
    have hm0 : p.minFreq = none := by
      split at hm
      · cases hm
      · exact hm
    have := hw.min_defined hc hm0
    show (((p.items.map _).length : Nat) : Int) < p.cap
    rw [List.length_map]
    exact this
  · -- min_le
    intro m hm j n1 hj
    rw [hmin] at hm
    rw [hnode] at hj
    split at hm
    · rename_i hc
      cases hm
      by_cases hjk : j = k
      · subst hjk
        rw [if_pos rfl] at hj
        cases hj
        exact le_refl _
      · rw [if_neg hjk] at hj
        have h1 := hw.min_le n.freq hc.2 j n1 hj
        by_contra hlt
        have h2 : n1.freq = n.freq := by omega
        have h3 : j ∈ bucketAt p.buckets n.freq := (hw.bucket_iff j n.freq).mpr ⟨n1, hj, h2⟩
        have h4 : j ∈ (bucketAt p.buckets n.freq).filter (fun x => decide (x ≠ k)) := by
          rw [List.mem_filter]
          exact ⟨h3, by simpa using hjk⟩
        rw [hc.1] at h4
        cases h4
    · by_cases hjk : j = k
      · subst hjk
        rw [if_pos rfl] at hj
        cases hj
        have := hw.min_le m hm j n hn
        show m ≤ n.freq + 1
        omega
      · rw [if_neg hjk] at hj
        exact hw.min_le m hm j n1 hj
  · -- freq_pos
    intro j n1 hj
    rw [hnode] at hj
    by_cases hjk : j = k
    · subst hjk
      rw [if_pos rfl] at hj
      cases hj
      show 1 ≤ n.freq + 1
      omega
    · rw [if_neg hjk] at hj
      exact hw.freq_pos j n1 hj
  · -- size_le
    intro hc
    show (((p.items.map _).length : Nat) : Int) ≤ p.cap
    rw [List.length_map]
    exact hw.size_le hc

theorem LFUPolicy.delete_present {K V : Type} [DecidableEq K] (p : LFUPolicy K V) (k : K)
    (n : LFUNode K V) (hn : p.node k = some n) :
    p.delete k =
      { p with
        items := p.items.filter (fun x => decide (x.entry.key ≠ k))
        buckets := bucketPut p.buckets n.freq
          ((bucketAt p.buckets n.freq).filter (fun x => decide (x ≠ k)))
        minFreq :=
          if ((bucketAt p.buckets n.freq).filter (fun x => decide (x ≠ k))).isEmpty
            && decide (p.minFreq = some n.freq) then none else p.minFreq } := by
  unfold LFUPolicy.delete
  rw [hn]

theorem LFUPolicy.length_delete_lt {K V : Type} [DecidableEq K] (p : LFUPolicy K V) (k : K)
    (n : LFUNode K V) (hn : p.node k = some n) :
    (p.delete k).items.length < p.items.length := by
  rw [p.delete_present k n hn]
  exact length_filter_key_lt (fun x : LFUNode K V => x.entry.key) p.items k n hn

theorem LFUPolicy.length_delete_le {K V : Type} [DecidableEq K] (p : LFUPolicy K V) (k : K) :
    (p.delete k).items.length ≤ p.items.length := by
  cases hn : p.node k with
  | none =>
    have : p.delete k = p := by unfold LFUPolicy.delete; rw [hn]
    rw [this]
  | some n => exact Nat.le_of_lt (p.length_delete_lt k n hn)

theorem LFUPolicy.lfu_WF_delete {K V : Type} [DecidableEq K] (p : LFUPolicy K V) (k : K)
    (hw : p.WF) : (p.delete k).WF := by
  cases hn : p.node k with
  | none =>
    have : p.delete k = p := by unfold LFUPolicy.delete; rw [hn]
    rw [this]
    exact hw
  | some n =>
    have hnode := fun j => LFUPolicy.node_delete p k j
    have hlen := p.length_delete_lt k n hn
    have hbk : ∀ g, bucketAt (p.delete k).buckets g
        = if g = n.freq then (bucketAt p.buckets n.freq).filter (fun x => decide (x ≠ k))
          else bucketAt p.buckets g := by
      intro g
      rw [p.delete_present k n hn]
      show bucketAt (bucketPut p.buckets n.freq _) g = _
      by_cases h : g = n.freq
      · subst h; rw [if_pos rfl, bucketAt_bucketPut_same]
      · rw [if_neg h, bucketAt_bucketPut_ne _ _ _ _ h]
    have hmin : (p.delete k).minFreq
        = if (bucketAt p.buckets n.freq).filter (fun x => decide (x ≠ k)) = []
            ∧ p.minFreq = some n.freq then none else p.minFreq := by
      rw [p.delete_present k n hn]
      show (if (List.isEmpty _ && decide _) = true then _ else _) = _
      by_cases h1 : (bucketAt p.buckets n.freq).filter (fun x => decide (x ≠ k)) = []
      · by_cases h2 : p.minFreq = some n.freq
        · simp [h1, h2]
        · simp [h1, h2]
      · simp [h1, List.isEmpty_iff]
    have hcap : (p.delete k).cap = p.cap := p.cap_delete k
    refine ⟨?_, ?_, ?_, ?_, ?_, ?_, ?_, ?_, ?_⟩
    · rw [p.delete_present k n hn]
      exact nodup_filter_key (fun x : LFUNode K V => x.entry.key) p.items _ hw.nodupKeys
    · rw [p.delete_present k n hn]
      exact nodup_bucketPut _ _ _ hw.nodupFreqs
    · intro j g
      rw [hbk, hnode]
      by_cases hj : j = k
      · subst hj
        rw [if_pos rfl]
        have hr : ¬ ∃ n1 : LFUNode K V, (none : Option (LFUNode K V)) = some n1
            ∧ n1.freq = g := by
          rintro ⟨n1, h2, _⟩
          cases h2
        by_cases h2 : g = n.freq
        · subst h2
          rw [if_pos rfl]
          simp only [List.mem_filter, decide_eq_true_eq, ne_eq, not_true_eq_false, and_false,
            false_iff]
          exact hr
        · rw [if_neg h2, hw.bucket_iff]
          constructor
          · rintro ⟨n1, h3, h4⟩
            rw [hn] at h3
            cases h3
            exact absurd h4.symm h2
          · intro h; exact absurd h hr
      · rw [if_neg hj]
        by_cases h2 : g = n.freq
        · subst h2
          rw [if_pos rfl, List.mem_filter, hw.bucket_iff]
          simp [hj]
        · rw [if_neg h2, hw.bucket_iff]
    · intro g
      rw [hbk]
      by_cases h2 : g = n.freq
      · subst h2
        rw [if_pos rfl]
        exact List.Nodup.filter _ (hw.bucket_nodup _)
      · rw [if_neg h2]
        exact hw.bucket_nodup g
    · intro m hm
      rw [hmin] at hm
      rw [hbk]
      split at hm
      · cases hm
      · rename_i hc
        by_cases h2 : m = n.freq
        · subst h2
          rw [if_pos rfl]
          intro hempty
          exact hc ⟨hempty, hm⟩
        · rw [if_neg h2]
          exact hw.min_nonempty m hm
    · intro hc _
      rw [hcap] at hc ⊢
      have h1 := hw.size_le hc
      have h2 : ((p.delete k).items.length : Int) < p.items.length := by exact_mod_cast hlen
      omega
    · intro m hm j n1 hj
      rw [hmin] at hm
      rw [hnode] at hj
      split at hm
      · cases hm
      · by_cases hjk : j = k
        · rw [if_pos hjk] at hj
          cases hj
        · rw [if_neg hjk] at hj
          exact hw.min_le m hm j n1 hj
    · intro j n1 hj
      rw [hnode] at hj
      by_cases hjk : j = k
      · rw [if_pos hjk] at hj
        cases hj
      · rw [if_neg hjk] at hj
        exact hw.freq_pos j n1 hj
    · intro hc
      rw [hcap] at hc ⊢
      have h1 := hw.size_le hc
      have h2 : ((p.delete k).items.length : Int) < p.items.length := by exact_mod_cast hlen
      omega

theorem LFUPolicy.WF_evict {K V : Type} [DecidableEq K] (p : LFUPolicy K V) (hw : p.WF) :
    p.evict.WF := by
  rcases p.evict_cases with he | ⟨m, k, t, _, _, he⟩
  · rw [he]; exact hw
  · rw [he]; exact p.lfu_WF_delete k hw

/-- A full well-formed LFU policy of positive capacity loses an entry by eviction. -/
theorem LFUPolicy.length_evict_lt {K V : Type} [DecidableEq K] (p : LFUPolicy K V)
    (hw : p.WF) (hc : 0 < p.cap) (hfull : p.cap ≤ (p.items.length : Int)) :
    p.evict.items.length < p.items.length := by
  cases hm : p.minFreq with
  | none =>
    have := hw.min_defined hc hm
    omega
  | some m =>
    have hne := hw.min_nonempty m hm
    cases hb : bucketAt p.buckets m with
    | nil => exact absurd hb hne
    | cons k t =>
      have hk : k ∈ bucketAt p.buckets m := by rw [hb]; exact List.mem_cons_self k t
      obtain ⟨n, hn, _⟩ := (hw.bucket_iff k m).mp hk
      have he : p.evict = p.delete k := by
        unfold LFUPolicy.evict
        rw [hm]
        simp only [hb]
      rw [he]
      exact p.length_delete_lt k n hn

theorem LFUPolicy.lfu_WF_get {K V : Type} [DecidableEq K] (p : LFUPolicy K V) (k : K)
    (hw : p.WF) : (p.get k).2.WF := by
  unfold LFUPolicy.get
  cases hn : p.node k with
  | none => exact hw
  | some n => exact p.WF_touch k n n.entry hw hn (p.node_key k n hn)

/-- Inserting a new key with frequency 1 into a well-formed LFU policy that has room
gives a well-formed policy. -/
theorem LFUPolicy.WF_insert {K V : Type} [DecidableEq K] (q : LFUPolicy K V)
    (e : Entry K V) (hw : q.WF) (hq : q.node e.key = none)
    (hroom : 0 < q.cap → (q.items.length : Int) < q.cap) :
    LFUPolicy.WF
      { q with
        items := q.items ++ [{ entry := e, freq := 1 }]
        buckets := bucketPut q.buckets 1 (bucketAt q.buckets 1 ++ [e.key])
        minFreq := some 1 } := by
  have hnode : ∀ j, LFUPolicy.node
      { q with
        items := q.items ++ [{ entry := e, freq := 1 }]
        buckets := bucketPut q.buckets 1 (bucketAt q.buckets 1 ++ [e.key])
        minFreq := some 1 } j
      = if j = e.key then some { entry := e, freq := 1 } else q.node j := by
    intro j
    show List.find? _ (q.items ++ [_]) = _
    rw [find_append_new (fun x : LFUNode K V => x.entry.key)]
    have hdef : List.find? (fun x : LFUNode K V => decide (x.entry.key = j)) q.items
        = q.node j := rfl
    rw [hdef]
    by_cases hj : j = e.key
    · subst hj
      rw [hq, if_pos rfl]
      rfl
    · have hne : ¬ e.key = j := fun x => hj x.symm
      rw [if_neg hj, if_neg hne]
      cases q.node j <;> rfl
  have hbk : ∀ g, bucketAt (bucketPut q.buckets 1 (bucketAt q.buckets 1 ++ [e.key])) g
      = if g = 1 then bucketAt q.buckets 1 ++ [e.key] else bucketAt q.buckets g := by
    intro g
    by_cases h : g = 1
    · subst h; rw [if_pos rfl, bucketAt_bucketPut_same]
    · rw [if_neg h, bucketAt_bucketPut_ne _ _ _ _ h]
  have hkn : ∀ g, e.key ∉ bucketAt q.buckets g := by
    intro g hm
    obtain ⟨n1, h1, _⟩ := (hw.bucket_iff e.key g).mp hm
    rw [hq] at h1
    cases h1
  refine ⟨?_, ?_, ?_, ?_, ?_, ?_, ?_, ?_, ?_⟩
  · show ((q.items ++ [_]).map _).Nodup
    rw [List.map_append, List.map_singleton]
    apply List.Nodup.append hw.nodupKeys (List.nodup_singleton _)
    intro x hx1 hx2
    rw [List.mem_singleton] at hx2
    subst hx2
    exact (find_key_none (fun x : LFUNode K V => x.entry.key) q.items e.key).mp hq hx1
  · exact nodup_bucketPut _ _ _ hw.nodupFreqs
  · intro j g
    rw [hnode]
    show j ∈ bucketAt (bucketPut q.buckets 1 (bucketAt q.buckets 1 ++ [e.key])) g ↔ _
    rw [hbk]
    by_cases hj : j = e.key
    · subst hj
      rw [if_pos rfl]
      by_cases h1 : g = 1
      · subst h1
        rw [if_pos rfl]
        simp
      · rw [if_neg h1]
        constructor
        · intro h; exact absurd h (hkn g)
        · rintro ⟨n1, h2, h3⟩
          cases h2
          exact absurd h3.symm h1
    · rw [if_neg hj]
      by_cases h1 : g = 1
      · subst h1
        rw [if_pos rfl, List.mem_append, hw.bucket_iff]
        simp [hj]
      · rw [if_neg h1, hw.bucket_iff]
  · intro g
    show (bucketAt (bucketPut q.buckets 1 (bucketAt q.buckets 1 ++ [e.key])) g).Nodup
    rw [hbk]
    by_cases h1 : g = 1
    · subst h1
      rw [if_pos rfl]
      apply List.Nodup.append (hw.bucket_nodup _) (List.nodup_singleton _)
      intro x hx1 hx2
      rw [List.mem_singleton] at hx2
      subst hx2
      exact hkn 1 hx1
    · rw [if_neg h1]
      exact hw.bucket_nodup g
  · intro m hm
    have : m = 1 := by
      have h : some 1 = some m := hm
      cases h
      rfl
    subst this
    show bucketAt (bucketPut q.buckets 1 (bucketAt q.buckets 1 ++ [e.key])) 1 ≠ []
    rw [hbk, if_pos rfl]
    simp
  · intro _ hm
    have h : some 1 = (none : Option Nat) := hm
    cases h
  · intro m hm j n1 hj
    have : m = 1 := by
      have h : some 1 = some m := hm
      cases h
      rfl
    subst this
    rw [hnode] at hj
    by_cases hjk : j = e.key
    · rw [if_pos hjk] at hj
      cases hj
      exact le_refl _
    · rw [if_neg hjk] at hj
      exact hw.freq_pos j n1 hj
  · intro j n1 hj
    rw [hnode] at hj
    by_cases hjk : j = e.key
    · rw [if_pos hjk] at hj
      cases hj
      exact le_refl _
    · rw [if_neg hjk] at hj
      exact hw.freq_pos j n1 hj
  · intro hc
    have h1 := hroom hc
    show (((q.items ++ [_]).length : Nat) : Int) ≤ q.cap
    rw [List.length_append, List.length_singleton]
    push_cast
    omega

theorem LFUPolicy.lfu_WF_set {K V : Type} [DecidableEq K] (p : LFUPolicy K V) (e : Entry K V)
    (hw : p.WF) : (p.set e).WF := by
  unfold LFUPolicy.set
  cases hn : p.node e.key with
  | some n => exact p.WF_touch e.key n e hw hn rfl
  | none =>
    show LFUPolicy.WF
      { (if p.cap ≤ (p.items.length : Int) then p.evict else p) with
        items := (if p.cap ≤ (p.items.length : Int) then p.evict else p).items
          ++ [{ entry := e, freq := 1 }]
        buckets := bucketPut (if p.cap ≤ (p.items.length : Int) then p.evict else p).buckets 1
          (bucketAt (if p.cap ≤ (p.items.length : Int) then p.evict else p).buckets 1
            ++ [e.key])
        minFreq := some 1 }
    apply LFUPolicy.WF_insert
    · split
      · exact p.WF_evict hw
      · exact hw
    · split
      · exact p.node_evict e.key hn
      · exact hn
    · split
      · rename_i hfull
        intro hc
        rw [p.cap_evict] at hc ⊢
        have h1 := p.length_evict_lt hw hc hfull
        have h2 := hw.size_le hc
        have h3 : (p.evict.items.length : Int) < p.items.length := by exact_mod_cast h1
        omega
      · rename_i hfull
        intro _
        exact not_le.mp hfull

theorem LFUPolicy.lfu_WF_WithCapacity {K V : Type} [DecidableEq K] (cap : Int) :
    (LFUPolicy.WithCapacity cap : LFUPolicy K V).WF := by
  refine ⟨List.nodup_nil, List.nodup_nil, ?_, fun _ => List.nodup_nil, ?_, ?_, ?_, ?_, ?_⟩
  · intro k f
    constructor
    · intro h; cases h
    · rintro ⟨n, h, _⟩; cases h
  · intro m h; cases h
  · intro hc _; exact hc
  · intro m h; cases h
  · intro k n h; cases h
  · intro hc; exact le_of_lt hc

theorem LRUPolicy.lru_WF_WithCapacity {K V : Type} (cap : Int) :
    (LRUPolicy.WithCapacity cap : LRUPolicy K V).WF :=
  ⟨List.nodup_nil, fun hc => le_of_lt hc⟩

/-! ## Store lemmas -/

theorem Store.policyGet_fst {K V : Type} [DecidableEq K] (s : Store K V) (k : K) :
    (s.policyGet k).1 = s.peek k := by
  cases s with
  | lru p => exact p.lru_get_fst k
  | lfu p => exact p.lfu_get_fst k

theorem Store.peek_policyGet {K V : Type} [DecidableEq K] (s : Store K V) (k j : K) :
    (s.policyGet k).2.peek j = s.peek j := by
  cases s with
  | lru p => exact p.lru_peek_get k j
  | lfu p => exact p.lfu_peek_get k j

theorem Store.policyGet_miss {K V : Type} [DecidableEq K] (s : Store K V) (k : K)
    (h : s.peek k = none) : (s.policyGet k).2 = s := by
  cases s with
  | lru p => exact congrArg Store.lru (p.lru_get_miss k h)
  | lfu p => exact congrArg Store.lfu (p.lfu_get_miss k h)

theorem Store.peek_Delete {K V : Type} [DecidableEq K] (s : Store K V) (k j : K) :
    (s.Delete k).peek j = if j = k then none else s.peek j := by
  cases s with
  | lru p => exact p.lru_peek_delete k j
  | lfu p => exact p.lfu_peek_delete k j

theorem Store.Delete_absent {K V : Type} [DecidableEq K] (s : Store K V) (k : K)
    (h : s.peek k = none) : s.Delete k = s := by
  cases s with
  | lru p => exact congrArg Store.lru (p.lru_delete_absent k h)
  | lfu p => exact congrArg Store.lfu (p.lfu_delete_absent k h)

theorem Store.peek_policySet_self {K V : Type} [DecidableEq K] (s : Store K V)
    (e : Entry K V) (hc : 1 ≤ s.cap) : (s.policySet e).peek e.key = some e := by
  cases s with
  | lru p => exact p.lru_peek_set_self e hc
  | lfu p => exact p.lfu_peek_set_self e

theorem Store.peek_policySet_other {K V : Type} [DecidableEq K] (s : Store K V)
    (e : Entry K V) (j : K) (hp : s.peek e.key ≠ none) (hj : j ≠ e.key) :
    (s.policySet e).peek j = s.peek j := by
  cases s with
  | lru p => exact p.lru_peek_set_other e j hp hj
  | lfu p => exact p.lfu_peek_set_other e j hp hj

theorem Store.size_policySet_present {K V : Type} [DecidableEq K] (s : Store K V)
    (e : Entry K V) (hw : s.WF) (hp : s.peek e.key ≠ none) :
    (s.policySet e).size = s.size := by
  cases s with
  | lru p => exact p.lru_length_set_present e hw hp
  | lfu p => exact p.lfu_length_set_present e hp

theorem Store.cap_policyGet {K V : Type} [DecidableEq K] (s : Store K V) (k : K) :
    (s.policyGet k).2.cap = s.cap := by
  cases s with
  | lru p => exact p.lru_cap_get k
  | lfu p => exact p.lfu_cap_get k

theorem Store.cap_policySet {K V : Type} [DecidableEq K] (s : Store K V) (e : Entry K V) :
    (s.policySet e).cap = s.cap := by
  cases s with
  | lru p => exact p.lru_cap_set e
  | lfu p => exact p.lfu_cap_set e

theorem Store.cap_Delete {K V : Type} [DecidableEq K] (s : Store K V) (k : K) :
    (s.Delete k).cap = s.cap := by
  cases s with
  | lru p => rfl
  | lfu p => exact p.cap_delete k

theorem Store.WF_policyGet {K V : Type} [DecidableEq K] (s : Store K V) (k : K)
    (hw : s.WF) : (s.policyGet k).2.WF := by
  cases s with
  | lru p => exact p.lru_WF_get k hw
  | lfu p => exact p.lfu_WF_get k hw

theorem Store.WF_policySet {K V : Type} [DecidableEq K] (s : Store K V) (e : Entry K V)
    (hw : s.WF) : (s.policySet e).WF := by
  cases s with
  | lru p => exact p.lru_WF_set e hw
  | lfu p => exact p.lfu_WF_set e hw

theorem Store.WF_Delete {K V : Type} [DecidableEq K] (s : Store K V) (k : K)
    (hw : s.WF) : (s.Delete k).WF := by
  cases s with
  | lru p => exact p.lru_WF_delete k hw
  | lfu p => exact p.lfu_WF_delete k hw

theorem Store.WF_foldl_Delete {K V : Type} [DecidableEq K] (ks : List K) (s : Store K V)
    (hw : s.WF) : (ks.foldl Store.Delete s).WF := by
  induction ks generalizing s with
  | nil => exact hw
  | cons k t ih => exact ih (s.Delete k) (s.WF_Delete k hw)

theorem Store.cap_foldl_Delete {K V : Type} [DecidableEq K] (ks : List K) (s : Store K V) :
    (ks.foldl Store.Delete s).cap = s.cap := by
  induction ks generalizing s with
  | nil => rfl
  | cons k t ih => exact (ih (s.Delete k)).trans (s.cap_Delete k)

theorem Store.peek_foldl_Delete {K V : Type} [DecidableEq K] (ks : List K) (s : Store K V)
    (j : K) : (ks.foldl Store.Delete s).peek j = if j ∈ ks then none else s.peek j := by
  induction ks generalizing s with
  | nil => simp
  | cons k t ih =>
    rw [List.foldl_cons, ih, Store.peek_Delete]
    by_cases h1 : j ∈ t
    · simp [h1]
    · by_cases h2 : j = k
      · simp [h2]
      · simp [h1, h2]

theorem Store.peek_key {K V : Type} [DecidableEq K] (s : Store K V) (k : K) (e : Entry K V)
    (h : s.peek k = some e) : e.key = k := by
  cases s with
  | lru p => exact p.lru_peek_key k e h
  | lfu p =>
    have h1 : (p.node k).map LFUNode.entry = some e := h
    cases hn : p.node k with
    | none => rw [hn] at h1; cases h1
    | some n =>
      rw [hn] at h1
      cases h1
      exact p.node_key k n hn

/-- The library `Get` in terms of the stored entry. -/
theorem Store.Get_eq {K V : Type} [DecidableEq K] [Inhabited V] (s : Store K V)
    (now : Time) (k : K) :
    s.Get now k =
      match s.peek k with
      | none => ((default, false), s)
      | some e =>
        if e.expired now then ((default, false), (s.policyGet k).2.Delete k)
        else ((e.value, true), (s.policyGet k).2) := by
  have h := s.policyGet_fst k
  unfold Store.Get
  rcases hp : s.policyGet k with ⟨o, s1⟩
  rw [hp] at h
  simp only at h
  subst h
  clear hp
  cases s.peek k <;> rfl

theorem Store.Get_miss {K V : Type} [DecidableEq K] [Inhabited V] (s : Store K V)
    (now : Time) (k : K) (h : s.peek k = none) : s.Get now k = ((default, false), s) := by
  rw [Store.Get_eq, h]

theorem Store.Get_hit {K V : Type} [DecidableEq K] [Inhabited V] (s : Store K V)
    (now : Time) (k : K) (e : Entry K V) (h : s.peek k = some e)
    (hx : e.expired now = false) :
    s.Get now k = ((e.value, true), (s.policyGet k).2) := by
  rw [Store.Get_eq, h]
  simp only [hx]
  rfl

theorem Store.Get_expired {K V : Type} [DecidableEq K] [Inhabited V] (s : Store K V)
    (now : Time) (k : K) (e : Entry K V) (h : s.peek k = some e)
    (hx : e.expired now = true) :
    s.Get now k = ((default, false), (s.policyGet k).2.Delete k) := by
  rw [Store.Get_eq, h]
  simp only [hx]
  rfl

/-- A lookup that reports not-found returns the zero value and leaves no entry for the
key. -/
theorem Store.Get_not_found {K V : Type} [DecidableEq K] [Inhabited V] (s : Store K V)
    (now : Time) (k : K) (h : (s.Get now k).1.2 = false) :
    s.Get now k = ((default, false), (s.Get now k).2) ∧ (s.Get now k).2.peek k = none := by
  cases hp : s.peek k with
  | none =>
    rw [s.Get_miss now k hp]
    exact ⟨rfl, hp⟩
  | some e =>
    cases hx : e.expired now with
    | false =>
      rw [s.Get_hit now k e hp hx] at h
      cases h
    | true =>
      rw [s.Get_expired now k e hp hx]
      refine ⟨rfl, ?_⟩
      show ((s.policyGet k).2.Delete k).peek k = none
      rw [Store.peek_Delete, if_pos rfl]

/-- A lookup leaves the stored entry of every other key as it is. -/
theorem Store.peek_Get_other {K V : Type} [DecidableEq K] [Inhabited V] (s : Store K V)
    (now : Time) (k j : K) (hj : j ≠ k) : (s.Get now k).2.peek j = s.peek j := by
  cases hp : s.peek k with
  | none => rw [s.Get_miss now k hp]
  | some e =>
    cases hx : e.expired now with
    | false =>
      rw [s.Get_hit now k e hp hx]
      exact s.peek_policyGet k j
    | true =>
      rw [s.Get_expired now k e hp hx]
      show ((s.policyGet k).2.Delete k).peek j = s.peek j
      rw [Store.peek_Delete, if_neg hj]
      exact s.peek_policyGet k j

theorem Store.WF_Get {K V : Type} [DecidableEq K] [Inhabited V] (s : Store K V)
    (now : Time) (k : K) (hw : s.WF) : (s.Get now k).2.WF := by
  cases hp : s.peek k with
  | none => rw [s.Get_miss now k hp]; exact hw
  | some e =>
    cases hx : e.expired now with
    | false => rw [s.Get_hit now k e hp hx]; exact s.WF_policyGet k hw
    | true =>
      rw [s.Get_expired now k e hp hx]
      exact Store.WF_Delete _ k (s.WF_policyGet k hw)

theorem Store.cap_Get {K V : Type} [DecidableEq K] [Inhabited V] (s : Store K V)
    (now : Time) (k : K) : (s.Get now k).2.cap = s.cap := by
  cases hp : s.peek k with
  | none => rw [s.Get_miss now k hp]
  | some e =>
    cases hx : e.expired now with
    | false => rw [s.Get_hit now k e hp hx]; exact s.cap_policyGet k
    | true =>
      rw [s.Get_expired now k e hp hx]
      exact (Store.cap_Delete _ k).trans (s.cap_policyGet k)

theorem Store.WF_Set {K V : Type} [DecidableEq K] (s : Store K V) (now : Time) (k : K)
    (v : V) (exp : Time) (hw : s.WF) : (s.Set now k v exp).WF :=
  s.WF_policySet _ hw

theorem Store.cap_Set {K V : Type} [DecidableEq K] (s : Store K V) (now : Time) (k : K)
    (v : V) (exp : Time) : (s.Set now k v exp).cap = s.cap :=
  s.cap_policySet _

theorem Store.peek_Set_self {K V : Type} [DecidableEq K] (s : Store K V) (now : Time)
    (k : K) (v : V) (exp : Time) (hc : 1 ≤ s.cap) :
    (s.Set now k v exp).peek k
      = some { key := k, value := v, expiresAt := Store.expiry now exp } :=
  s.peek_policySet_self { key := k, value := v, expiresAt := Store.expiry now exp } hc

/-- An entry stored at `now` with ttl `exp` is not expired at `t` when the ttl is zero or
`t` is not later than `now + exp`. -/
theorem Store.expiry_live {K V : Type} (now exp t : Time) (k : K) (v : V)
    (h : exp = 0 ∨ t ≤ now + exp) :
    ({ key := k, value := v, expiresAt := Store.expiry now exp } : Entry K V).expired t
      = false := by
  unfold Entry.expired Store.expiry
  by_cases h0 : exp = 0
  · simp [h0]
  · rcases h with h | h
    · exact absurd h h0
    · simp [h0]
      exact h

/-- The size bound of the invariant, for both policies. -/
theorem Store.size_le_cap {K V : Type} [DecidableEq K] (s : Store K V) (hw : s.WF)
    (hc : 0 < s.cap) : (s.size : Int) ≤ s.cap := by
  cases s with
  | lru p => exact hw.2 hc
  | lfu p => exact hw.size_le hc

/-! ## The wrapper: evaluation lemmas -/

/-- `Get` when the lookup reports not-found: the second lookup misses too, and the result
is decided by the loader. -/
theorem Get_of_not_found {Ctx K V : Type} [DecidableEq K] [Inhabited V]
    (tc : Cache Ctx K V) (s : Store K V) (now : Time) (ctx : Ctx) (k : K)
    (hc : tc.c = some s) (habs : (s.Get now k).1.2 = false) :
    Get tc now ctx k =
      match tc.lf with
      | none =>
        some { val := default, err := some ErrNotFound,
               cache := { tc with c := some (s.Get now k).2 }, loads := [] }
      | some lf =>
        match lf ctx k with
        | (v, some err) =>
          some { val := v, err := some err, cache := { tc with c := some (s.Get now k).2 },
                 loads := [(ctx, k)] }
        | (v, none) =>
          some { val := v, err := none,
                 cache := { tc with c := some ((s.Get now k).2.Set now k v tc.exp) },
                 loads := [(ctx, k)] } := by
  obtain ⟨h1, h2⟩ := s.Get_not_found now k habs
  have h3 := (s.Get now k).2.Get_miss now k h2
  unfold Get
  rw [hc]
  simp only
  generalize (s.Get now k).2 = s1 at h1 h3
  rw [h1]
  simp only [h3]

/-- `Get` when the lookup finds a live entry. -/
theorem Get_of_hit {Ctx K V : Type} [DecidableEq K] [Inhabited V]
    (tc : Cache Ctx K V) (s : Store K V) (now : Time) (ctx : Ctx) (k : K) (e : Entry K V)
    (hc : tc.c = some s) (hp : s.peek k = some e) (hx : e.expired now = false) :
    Get tc now ctx k =
      some { val := e.value, err := none, cache := { tc with c := some (s.policyGet k).2 },
             loads := [] } := by
  unfold Get
  rw [hc]
  simp only
  rw [s.Get_hit now k e hp hx]

/-- `GetIfPresent` on a cache with a store, in terms of the stored entry. -/
theorem GetIfPresent_fst {Ctx K V : Type} [DecidableEq K] [Inhabited V]
    (tc : Cache Ctx K V) (s : Store K V) (now : Time) (ctx : Ctx) (k : K)
    (hc : tc.c = some s) :
    (GetIfPresent tc now ctx k).map Prod.fst =
      some (match s.peek k with
        | none => (default, false)
        | some e => if e.expired now then (default, false) else (e.value, true)) := by
  unfold GetIfPresent
  rw [hc]
  show some (s.Get now k).1 = _
  cases hp : s.peek k with
  | none => rw [s.Get_miss now k hp]
  | some e =>
    cases hx : e.expired now with
    | false => rw [s.Get_hit now k e hp hx]; simp [hx]
    | true => rw [s.Get_expired now k e hp hx]; simp [hx]

/-! ## Example stores are well formed -/

theorem heldLFU_WF : heldLFU.WF :=
  Store.WF_Set _ 0 7 100 10 (LFUPolicy.lfu_WF_WithCapacity 2)

theorem heldLRU_WF : heldLRU.WF :=
  Store.WF_Set _ 0 8 200 0 (Store.WF_Set _ 0 7 100 0 (LRUPolicy.lru_WF_WithCapacity 2))

theorem Cache.peek_of_store {Ctx K V : Type} [DecidableEq K] (tc : Cache Ctx K V)
    (s : Store K V) (hc : tc.c = some s) (j : K) : tc.peek j = s.peek j := by
  unfold Cache.peek
  rw [hc]

/-- A cache whose store holds a live entry for `k` answers `GetIfPresent` with its
value. -/
theorem GetIfPresent_live {Ctx K V : Type} [DecidableEq K] [Inhabited V]
    (tc : Cache Ctx K V) (s : Store K V) (t : Time) (ctx : Ctx) (k : K) (e : Entry K V)
    (hc : tc.c = some s) (hp : s.peek k = some e) (hx : e.expired t = false) :
    (GetIfPresent tc t ctx k).map Prod.fst = some (e.value, true) := by
  rw [GetIfPresent_fst tc s t ctx k hc, hp]
  simp [hx]

/-- A cache whose store holds no entry for `k` answers `GetIfPresent` with not-found. -/
theorem GetIfPresent_absent {Ctx K V : Type} [DecidableEq K] [Inhabited V]
    (tc : Cache Ctx K V) (s : Store K V) (t : Time) (ctx : Ctx) (k : K)
    (hc : tc.c = some s) (hp : s.peek k = none) :
    (GetIfPresent tc t ctx k).map Prod.fst = some (default, false) := by
  rw [GetIfPresent_fst tc s t ctx k hc, hp]

theorem not_found_of_GetIfPresent {Ctx K V : Type} [DecidableEq K] [Inhabited V]
    (tc : Cache Ctx K V) (s : Store K V) (now : Time) (ctx : Ctx) (k : K)
    (hc : tc.c = some s)
    (h : (GetIfPresent tc now ctx k).map (fun r => r.1.2) = some false) :
    (s.Get now k).1.2 = false := by
  unfold GetIfPresent at h
  rw [hc] at h
  exact Option.some.inj h

/-! ## C1: load-on-miss -/

/-- C1. Load-on-miss: on a cache with a store of capacity at least 1 and a loader `lf`,
for a key `k` that `GetIfPresent` reports not-found and with `lf ctx k = (v, nil)`,
`Get` calls the loader exactly once (with `ctx` and `k`), returns `(v, nil)` and stores
`v` under `k` with the expiry computed at the call; a following `GetIfPresent k` at any
time `t` before the ttl elapses returns `(v, true)`. -/
theorem Get_load_on_miss {Ctx K V : Type} [DecidableEq K] [Inhabited V]
    (tc : Cache Ctx K V) (s : Store K V) (lf : LoaderFunc Ctx K V) (now : Time) (ctx : Ctx)
    (k : K) (v : V)
    (hc : tc.c = some s) (hcap : 1 ≤ s.cap) (hlf : tc.lf = some lf)
    (habs : (GetIfPresent tc now ctx k).map (fun r => r.1.2) = some false)
    (hload : lf ctx k = (v, none)) :
    ∃ r, Get tc now ctx k = some r ∧ r.val = v ∧ r.err = none ∧ r.loads = [(ctx, k)]
      ∧ r.cache.peek k = some { key := k, value := v, expiresAt := Store.expiry now tc.exp }
      ∧ ∀ (t : Time) (ctx1 : Ctx), (tc.exp = 0 ∨ t ≤ now + tc.exp) →
          (GetIfPresent r.cache t ctx1 k).map Prod.fst = some (v, true) := by
  have hnf := not_found_of_GetIfPresent tc s now ctx k hc habs
  have hget := Get_of_not_found tc s now ctx k hc hnf
  rw [hlf] at hget
  simp only [hload] at hget
  have hcap1 : 1 ≤ (s.Get now k).2.cap := by rw [Store.cap_Get]; exact hcap
  have hpk := Store.peek_Set_self (s.Get now k).2 now k v tc.exp hcap1
  refine ⟨_, hget, rfl, rfl, rfl, hpk, ?_⟩
  intro t ctx1 hlive
  exact GetIfPresent_live _ _ t ctx1 k _ rfl hpk (Store.expiry_live now tc.exp t k v hlive)

/-- C1 at the example of the spec: key 5, loader `fn(k) = k*2`, LFU store of capacity 2. -/
theorem Get_load_on_miss_witness :
    ∃ r, Get (lfuCache (some doubleLoader)) 3 () 5 = some r ∧ r.val = 10 ∧ r.err = none
      ∧ r.loads = [((), 5)]
      ∧ r.cache.peek 5 = some { key := 5, value := 10, expiresAt := Store.expiry 3 10 }
      ∧ ∀ (t : Time) (ctx1 : Unit), ((10 : Time) = 0 ∨ t ≤ 3 + 10) →
          (GetIfPresent r.cache t ctx1 5).map Prod.fst = some (10, true) :=
  Get_load_on_miss (lfuCache (some doubleLoader)) heldLFU doubleLoader 3 () 5 10
    rfl (by decide) rfl (by decide) rfl

/-! ## C2: a hit is pure -/

/-- C2. `Get` on a present key is a pure cache hit: whatever the loader (none included),
when the store holds for `k` an entry `e` that is not expired at `now`, `Get` returns
`(e.value, nil)`, calls no loader, and the stored entry (value and expiry) of every key
is the same afterwards; ttl and loader of the cache are unchanged. -/
theorem Get_hit_is_pure {Ctx K V : Type} [DecidableEq K] [Inhabited V]
    (tc : Cache Ctx K V) (s : Store K V) (now : Time) (ctx : Ctx) (k : K) (e : Entry K V)
    (hc : tc.c = some s) (hp : s.peek k = some e) (hx : e.expired now = false) :
    ∃ r, Get tc now ctx k = some r ∧ r.val = e.value ∧ r.err = none ∧ r.loads = []
      ∧ (∀ j, r.cache.peek j = tc.peek j)
      ∧ r.cache.exp = tc.exp ∧ r.cache.lf = tc.lf := by
  refine ⟨_, Get_of_hit tc s now ctx k e hc hp hx, rfl, rfl, rfl, ?_, rfl, rfl⟩
  intro j
  rw [Cache.peek_of_store tc s hc]
  exact s.peek_policyGet k j

/-- C2 on the LRU example store, key 7 holding 100, with a loader that would fail. -/
theorem Get_hit_is_pure_witness :
    ∃ r, Get (lruCache (some failingLoader)) 5 () 7 = some r ∧ r.val = 100 ∧ r.err = none
      ∧ r.loads = []
      ∧ (∀ j, r.cache.peek j = (lruCache (some failingLoader)).peek j)
      ∧ r.cache.exp = 0 ∧ r.cache.lf = some failingLoader :=
  Get_hit_is_pure (lruCache (some failingLoader)) heldLRU 5 () 7
    { key := 7, value := 100, expiresAt := none } rfl (by decide) rfl

/-! ## C3: ErrNotFound -/

/-- C3. With a nil loader and no entry stored for `k`, `Get` returns the zero value with
`ErrNotFound`, calls no loader, and the cache after the call is the cache before it. -/
theorem Get_no_loader_ErrNotFound {Ctx K V : Type} [DecidableEq K] [Inhabited V]
    (tc : Cache Ctx K V) (s : Store K V) (now : Time) (ctx : Ctx) (k : K)
    (hc : tc.c = some s) (hlf : tc.lf = none) (hp : s.peek k = none) :
    Get tc now ctx k
      = some { val := default, err := some ErrNotFound, cache := tc, loads := [] } := by
  have hm := s.Get_miss now k hp
  have hnf : (s.Get now k).1.2 = false := by rw [hm]
  have hget := Get_of_not_found tc s now ctx k hc hnf
  rw [hm] at hget
  rw [hget]
  cases tc with
  | mk c exp lf0 =>
    simp only at hc hlf
    subst hc hlf
    rfl

/-- C3 on the LFU example store, key 5 absent, loader nil. -/
theorem Get_no_loader_ErrNotFound_witness :
    Get (lfuCache none) 5 () 5
      = some { val := 0, err := some ErrNotFound, cache := lfuCache none, loads := [] } :=
  Get_no_loader_ErrNotFound (lfuCache none) heldLFU 5 () 5 rfl rfl (by decide)

/-! ## C4: a failed load is not cached -/

/-- C4. A failed load is never cached: when `GetIfPresent` reports not-found for `k` and
the loader returns `(v, err)` with a non-nil `err`, `Get` calls the loader once and
returns exactly `(v, err)`; afterwards no entry is stored for `k`, the stored entry of
every other key is as before, the cache is the cache before the call when no entry was
stored for `k`, and a following `Get` for `k`, at any time, calls the loader again. -/
theorem Get_failed_load_not_cached {Ctx K V : Type} [DecidableEq K] [Inhabited V]
    (tc : Cache Ctx K V) (s : Store K V) (lf : LoaderFunc Ctx K V) (now : Time) (ctx : Ctx)
    (k : K) (v : V) (err : Error)
    (hc : tc.c = some s) (hlf : tc.lf = some lf)
    (habs : (GetIfPresent tc now ctx k).map (fun r => r.1.2) = some false)
    (hload : lf ctx k = (v, some err)) :
    ∃ r, Get tc now ctx k = some r ∧ r.val = v ∧ r.err = some err ∧ r.loads = [(ctx, k)]
      ∧ r.cache.peek k = none
      ∧ (∀ j, j ≠ k → r.cache.peek j = tc.peek j)
      ∧ (s.peek k = none → r.cache = tc)
      ∧ ∀ t : Time, ∃ r2, Get r.cache t ctx k = some r2 ∧ r2.val = v ∧ r2.err = some err
          ∧ r2.loads = [(ctx, k)] := by
  have hnf := not_found_of_GetIfPresent tc s now ctx k hc habs
  have hget := Get_of_not_found tc s now ctx k hc hnf
  rw [hlf] at hget
  simp only [hload] at hget
  obtain ⟨_, hpk⟩ := s.Get_not_found now k hnf
  refine ⟨_, hget, rfl, rfl, rfl, hpk, ?_, ?_, ?_⟩
  · intro j hj
    rw [Cache.peek_of_store tc s hc]
    exact s.peek_Get_other now k j hj
  · intro hp
    show ({ c := some (s.Get now k).2, exp := tc.exp, lf := some lf } : Cache Ctx K V) = tc
    rw [s.Get_miss now k hp, ← hc, ← hlf]
  · intro t
    have hm := (s.Get now k).2.Get_miss t k hpk
    have hnf2 : ((s.Get now k).2.Get t k).1.2 = false := by rw [hm]
    have hget2 := Get_of_not_found ({ tc with c := some (s.Get now k).2 } : Cache Ctx K V)
      (s.Get now k).2 t ctx k rfl hnf2
    have hlf2 : ({ tc with c := some (s.Get now k).2 } : Cache Ctx K V).lf = some lf := hlf
    rw [hlf2] at hget2
    simp only [hload] at hget2
    exact ⟨_, hget2, rfl, rfl, rfl⟩

/-- C4 on the LFU example store, key 5 absent, failing loader. -/
theorem Get_failed_load_not_cached_witness :
    ∃ r, Get (lfuCache (some failingLoader)) 5 () 5 = some r ∧ r.val = 0
      ∧ r.err = some (Error.other "load failed") ∧ r.loads = [((), 5)]
      ∧ r.cache.peek 5 = none
      ∧ (∀ j, j ≠ 5 → r.cache.peek j = (lfuCache (some failingLoader)).peek j)
      ∧ (heldLFU.peek 5 = none → r.cache = lfuCache (some failingLoader))
      ∧ ∀ t : Time, ∃ r2, Get r.cache t () 5 = some r2 ∧ r2.val = 0
          ∧ r2.err = some (Error.other "load failed") ∧ r2.loads = [((), 5)] :=
  Get_failed_load_not_cached (lfuCache (some failingLoader)) heldLFU failingLoader 5 () 5 0
    (Error.other "load failed") rfl rfl (by decide) rfl

/-! ## C5: Refresh keeps the state on failure -/

/-- C5. When the loader returns `(v, err)` with a non-nil `err`, `Refresh` calls the
loader once, returns `err`, and the cache after the call is the cache before it: every
`GetIfPresent` answers as before, for `k` and for every other key. -/
theorem Refresh_failure_preserves {Ctx K V : Type} [DecidableEq K] [Inhabited V]
    (tc : Cache Ctx K V) (lf : LoaderFunc Ctx K V) (now : Time) (ctx : Ctx) (k : K) (v : V)
    (err : Error) (hlf : tc.lf = some lf) (hload : lf ctx k = (v, some err)) :
    ∃ r, Refresh tc now ctx k = some r ∧ r.err = some err ∧ r.loads = [(ctx, k)]
      ∧ r.cache = tc
      ∧ ∀ (t : Time) (ctx1 : Ctx) (j : K),
          (GetIfPresent r.cache t ctx1 j).map Prod.fst
            = (GetIfPresent tc t ctx1 j).map Prod.fst := by
  have h : Refresh tc now ctx k
      = some { err := some err, cache := tc, loads := [(ctx, k)] } := by
    unfold Refresh
    rw [hlf]
    simp only [hload]
  exact ⟨_, h, rfl, rfl, rfl, fun _ _ _ => rfl⟩

/-- C5 at the example of the spec: the cache holds `(7, 100)` and the loader fails. -/
theorem Refresh_failure_preserves_witness :
    (∃ r, Refresh (lfuCache (some failingLoader)) 4 () 7 = some r
      ∧ r.err = some (Error.other "load failed") ∧ r.loads = [((), 7)]
      ∧ r.cache = lfuCache (some failingLoader)
      ∧ ∀ (t : Time) (ctx1 : Unit) (j : Nat),
          (GetIfPresent r.cache t ctx1 j).map Prod.fst
            = (GetIfPresent (lfuCache (some failingLoader)) t ctx1 j).map Prod.fst)
    ∧ (GetIfPresent (lfuCache (some failingLoader)) 4 () 7).map Prod.fst
        = some (100, true) :=
  ⟨Refresh_failure_preserves (lfuCache (some failingLoader)) failingLoader 4 () 7 0
    (Error.other "load failed") rfl rfl, by decide⟩

/-! ## C6: Refresh overwrites on success -/

/-- The claim C6 as stated fails: it has no condition on the ttl. On the LRU cache
`NewCache` builds with capacity 2, `Expires = -5` and the doubling loader, `Refresh` for
key 7 at time 10 calls the loader and returns nil, but the entry it stores has the expiry
instant 5, and the `GetIfPresent` for key 7 that follows at time 10 returns the zero value
and not-found, not `(14, true)`. -/
theorem Refresh_negative_ttl_counterexample :
    (NewCache (lruParams (-5))).cap = some 2
      ∧ (Refresh (NewCache (lruParams (-5))) 10 () 7).map
          (fun r => (r.err, r.loads, (r.cache.peek 7).map Entry.expiresAt,
            (GetIfPresent r.cache 10 () 7).map Prod.fst))
        = some (none, [((), 7)], some (some 5), some (0, false)) :=
  ⟨by decide, rfl⟩

/-- C6, amended. On a cache with a store of capacity at least 1, for every key `k`, stored
or not, when the loader returns `(v, nil)`, `Refresh` calls the loader once, returns nil,
and afterwards the store holds for `k` the value `v` with the expiry computed at the
time of the refresh; a following `GetIfPresent k` returns `(v, true)` at every time `t` at
which that ttl has not elapsed (every time when the ttl is 0, the times up to
`now + ttl` otherwise), in particular at the time of the refresh when the ttl is not
negative. -/
theorem Refresh_success_overwrites {Ctx K V : Type} [DecidableEq K] [Inhabited V]
    (tc : Cache Ctx K V) (s : Store K V) (lf : LoaderFunc Ctx K V) (now : Time) (ctx : Ctx)
    (k : K) (v : V)
    (hc : tc.c = some s) (hcap : 1 ≤ s.cap) (hlf : tc.lf = some lf)
    (hload : lf ctx k = (v, none)) :
    ∃ r, Refresh tc now ctx k = some r ∧ r.err = none ∧ r.loads = [(ctx, k)]
      ∧ r.cache.peek k = some { key := k, value := v, expiresAt := Store.expiry now tc.exp }
      ∧ (∀ (t : Time) (ctx1 : Ctx), (tc.exp = 0 ∨ t ≤ now + tc.exp) →
          (GetIfPresent r.cache t ctx1 k).map Prod.fst = some (v, true))
      ∧ (0 ≤ tc.exp → ∀ ctx1 : Ctx,
          (GetIfPresent r.cache now ctx1 k).map Prod.fst = some (v, true)) := by
  have h : Refresh tc now ctx k
      = some { err := none, cache := { tc with c := some (s.Set now k v tc.exp) },
               loads := [(ctx, k)] } := by
    unfold Refresh
    rw [hlf]
    simp only [hload, hc]
  have hpk := Store.peek_Set_self s now k v tc.exp hcap
  have hread : ∀ (t : Time) (ctx1 : Ctx), (tc.exp = 0 ∨ t ≤ now + tc.exp) →
      (GetIfPresent ({ tc with c := some (s.Set now k v tc.exp) } : Cache Ctx K V)
        t ctx1 k).map Prod.fst = some (v, true) := by
    intro t ctx1 hlive
    exact GetIfPresent_live _ _ t ctx1 k _ rfl hpk (Store.expiry_live now tc.exp t k v hlive)
  refine ⟨_, h, rfl, rfl, hpk, hread, ?_⟩
  intro hexp ctx1
  exact hread now ctx1 (Or.inr (Int.le_add_of_nonneg_right hexp))

/-- C6 on the LFU example store: key 7 holds 100 with expiry 10; a refresh at time 4
stores 14 with expiry 14, which is read back at time 4 and up to time 14. -/
theorem Refresh_success_overwrites_witness :
    (∃ r, Refresh (lfuCache (some doubleLoader)) 4 () 7 = some r ∧ r.err = none
      ∧ r.loads = [((), 7)]
      ∧ r.cache.peek 7 = some { key := 7, value := 14, expiresAt := Store.expiry 4 10 }
      ∧ (∀ (t : Time) (ctx1 : Unit), ((10 : Time) = 0 ∨ t ≤ 4 + 10) →
          (GetIfPresent r.cache t ctx1 7).map Prod.fst = some (14, true))
      ∧ ∀ ctx1 : Unit, (GetIfPresent r.cache 4 ctx1 7).map Prod.fst = some (14, true))
    ∧ (lfuCache (some doubleLoader)).peek 7
        = some { key := 7, value := 100, expiresAt := some 10 } := by
  obtain ⟨r, h1, h2, h3, h4, h5, h6⟩ :=
    Refresh_success_overwrites (lfuCache (some doubleLoader)) heldLFU doubleLoader 4 () 7 14
      rfl (by decide) rfl rfl
  exact ⟨⟨r, h1, h2, h3, h4, h5, h6 (by decide)⟩, by decide⟩

/-! ## C7: Put -/

/-- The claim C7 as stated fails: it has no condition on the ttl. On the LRU cache
`NewCache` builds with capacity 2 and `Expires = -5`, `Put(1, 11)` at time 10 stores the
entry with the expiry instant 5, and the `GetIfPresent` for key 1 that follows at time 10
returns the zero value and not-found, not `(11, true)`. -/
theorem Put_negative_ttl_counterexample :
    (NewCache (lruParams (-5))).cap = some 2
      ∧ (Put (NewCache (lruParams (-5))) 10 () 1 11).map
          (fun tc1 => ((tc1.peek 1).map Entry.expiresAt,
            (GetIfPresent tc1 10 () 1).map Prod.fst))
        = some (some (some 5), some (0, false)) := by
  constructor <;> decide

/-- C7, amended. On a cache with a well-formed store of capacity at least 1, `Put k v`
stores `v` under `k` with the expiry computed at the call, whether or not `k` held a
value: a following `GetIfPresent k` returns `(v, true)` at every time `t` at which the ttl
has not elapsed (every time when the ttl is 0, the times up to `now + ttl` otherwise), in
particular at the time of the `Put` when the ttl is not negative. When `k` was already
stored, the number of entries is unchanged and the stored entry of every other key is as
before (no key is evicted). -/
theorem Put_replaces {Ctx K V : Type} [DecidableEq K] [Inhabited V]
    (tc : Cache Ctx K V) (s : Store K V) (now : Time) (ctx : Ctx) (k : K) (v : V)
    (hc : tc.c = some s) (hw : s.WF) (hcap : 1 ≤ s.cap) :
    ∃ tc1, Put tc now ctx k v = some tc1
      ∧ tc1.peek k = some { key := k, value := v, expiresAt := Store.expiry now tc.exp }
      ∧ (∀ (t : Time) (ctx1 : Ctx), (tc.exp = 0 ∨ t ≤ now + tc.exp) →
          (GetIfPresent tc1 t ctx1 k).map Prod.fst = some (v, true))
      ∧ (0 ≤ tc.exp → ∀ ctx1 : Ctx,
          (GetIfPresent tc1 now ctx1 k).map Prod.fst = some (v, true))
      ∧ (tc.peek k ≠ none →
          tc1.size = tc.size ∧ ∀ j, j ≠ k → tc1.peek j = tc.peek j) := by
  have h : Put tc now ctx k v = some { tc with c := some (s.Set now k v tc.exp) } := by
    unfold Put
    rw [hc]
  have hpk := Store.peek_Set_self s now k v tc.exp hcap
  have hread : ∀ (t : Time) (ctx1 : Ctx), (tc.exp = 0 ∨ t ≤ now + tc.exp) →
      (GetIfPresent ({ tc with c := some (s.Set now k v tc.exp) } : Cache Ctx K V)
        t ctx1 k).map Prod.fst = some (v, true) := by
    intro t ctx1 hlive
    exact GetIfPresent_live _ _ t ctx1 k _ rfl hpk (Store.expiry_live now tc.exp t k v hlive)
  refine ⟨_, h, hpk, hread, ?_, ?_⟩
  · intro hexp ctx1
    exact hread now ctx1 (Or.inr (Int.le_add_of_nonneg_right hexp))
  · intro hpres
    rw [Cache.peek_of_store tc s hc] at hpres
    constructor
    · show (s.Set now k v tc.exp).size = tc.size
      unfold Cache.size
      rw [hc]
      exact s.size_policySet_present _ hw hpres
    · intro j hj
      rw [Cache.peek_of_store tc s hc]
      exact s.peek_policySet_other _ j hpres hj

/-- C7 on the LRU example store holding keys 7 and 8 at capacity 2, with the zero ttl:
overwriting key 7 at time 3 is read back at time 3 and at every other time, keeps two
entries and leaves key 8 as it is. -/
theorem Put_replaces_witness :
    ∃ tc1, Put (lruCache none) 3 () 7 55 = some tc1
      ∧ tc1.peek 7 = some { key := 7, value := 55, expiresAt := Store.expiry 3 0 }
      ∧ (∀ (t : Time) (ctx1 : Unit), ((0 : Time) = 0 ∨ t ≤ 3 + 0) →
          (GetIfPresent tc1 t ctx1 7).map Prod.fst = some (55, true))
      ∧ (∀ ctx1 : Unit, (GetIfPresent tc1 3 ctx1 7).map Prod.fst = some (55, true))
      ∧ tc1.size = 2 ∧ tc1.peek 8 = some { key := 8, value := 200, expiresAt := none } := by
  obtain ⟨tc1, h1, h2, h3, h4, h5⟩ :=
    Put_replaces (lruCache none) heldLRU 3 () 7 55 rfl heldLRU_WF (by decide)
  have h6 := h5 (by decide)
  exact ⟨tc1, h1, h2, h3, h4 (by decide), h6.1.trans (by decide),
    (h6.2 8 (by decide)).trans (by decide)⟩

/-! ## C8: Invalidate -/

/-- C8. `Invalidate k` discards exactly `k`: afterwards no entry is stored for `k` and
`GetIfPresent k` reports not-found at every time; for every other key `j` the stored
entry, and with it the answer of `GetIfPresent j` at every time, is as before; when no
entry was stored for `k`, the cache after the call is the cache before it. The call
cannot fail. -/
theorem Invalidate_discards_exactly {Ctx K V : Type} [DecidableEq K] [Inhabited V]
    (tc : Cache Ctx K V) (s : Store K V) (ctx : Ctx) (k : K) (hc : tc.c = some s) :
    ∃ tc1, Invalidate tc ctx k = some tc1
      ∧ tc1.peek k = none
      ∧ (∀ (t : Time) (ctx1 : Ctx),
          (GetIfPresent tc1 t ctx1 k).map Prod.fst = some (default, false))
      ∧ (∀ j, j ≠ k → tc1.peek j = tc.peek j)
      ∧ (∀ (t : Time) (ctx1 : Ctx) (j : K), j ≠ k →
          (GetIfPresent tc1 t ctx1 j).map Prod.fst = (GetIfPresent tc t ctx1 j).map Prod.fst)
      ∧ (tc.peek k = none → tc1 = tc) := by
  have h : Invalidate tc ctx k = some { tc with c := some (s.Delete k) } := by
    unfold Invalidate
    rw [hc]
  have hk : (s.Delete k).peek k = none := by rw [Store.peek_Delete, if_pos rfl]
  have hj : ∀ j, j ≠ k → (s.Delete k).peek j = s.peek j := by
    intro j hj
    rw [Store.peek_Delete, if_neg hj]
  refine ⟨_, h, hk, ?_, ?_, ?_, ?_⟩
  · intro t ctx1
    exact GetIfPresent_absent _ _ t ctx1 k rfl hk
  · intro j hjk
    rw [Cache.peek_of_store tc s hc]
    exact hj j hjk
  · intro t ctx1 j hjk
    rw [GetIfPresent_fst _ (s.Delete k) t ctx1 j rfl, GetIfPresent_fst tc s t ctx1 j hc,
      hj j hjk]
  · intro hp
    rw [Cache.peek_of_store tc s hc] at hp
    show ({ tc with c := some (s.Delete k) } : Cache Ctx K V) = tc
    rw [s.Delete_absent k hp, ← hc]

/-- C8 on the LRU example store holding keys 7 and 8: invalidating 7 leaves 8. -/
theorem Invalidate_discards_exactly_witness :
    (∃ tc1, Invalidate (lruCache none) () 7 = some tc1
      ∧ tc1.peek 7 = none
      ∧ (∀ (t : Time) (ctx1 : Unit),
          (GetIfPresent tc1 t ctx1 7).map Prod.fst = some (default, false))
      ∧ (∀ j, j ≠ 7 → tc1.peek j = (lruCache none).peek j)
      ∧ (∀ (t : Time) (ctx1 : Unit) (j : Nat), j ≠ 7 →
          (GetIfPresent tc1 t ctx1 j).map Prod.fst
            = (GetIfPresent (lruCache none) t ctx1 j).map Prod.fst)
      ∧ ((lruCache none).peek 7 = none → tc1 = lruCache none))
    ∧ (lruCache none).peek 7 = some { key := 7, value := 100, expiresAt := none } :=
  ⟨Invalidate_discards_exactly (lruCache none) heldLRU () 7 rfl, by decide⟩

/-! ## C9: InvalidateAll -/

theorem find_of_mem_nodup {K : Type} (bs : List (Nat × List K)) (b : Nat × List K)
    (hn : (bs.map Prod.fst).Nodup) (hb : b ∈ bs) :
    bs.find? (fun x => decide (x.1 = b.1)) = some b := by
  induction bs with
  | nil => cases hb
  | cons a t ih =>
    rw [List.map_cons, List.nodup_cons] at hn
    rcases List.mem_cons.mp hb with h | h
    · subst h
      simp
    · have hne : a.1 ≠ b.1 := by
        intro heq
        exact hn.1 (heq ▸ List.mem_map_of_mem Prod.fst h)
      have hd : decide (a.1 = b.1) = false := by simpa using hne
      rw [List.find?_cons, hd]
      exact ih hn.2 h

/-- Every key of the union of the buckets is in the bucket of some frequency. -/
theorem LFUPolicy.mem_keys {K V : Type} [DecidableEq K] (p : LFUPolicy K V)
    (hn : (p.buckets.map Prod.fst).Nodup) (k : K) (hk : k ∈ p.keys) :
    ∃ f, k ∈ bucketAt p.buckets f := by
  unfold LFUPolicy.keys at hk
  rw [List.mem_flatten] at hk
  obtain ⟨l, hl, hkl⟩ := hk
  obtain ⟨b, hb, rfl⟩ := List.mem_map.mp hl
  refine ⟨b.1, ?_⟩
  unfold bucketAt
  rw [find_of_mem_nodup p.buckets b hn hb]
  exact hkl

/-- Every key of a bucket is in the union of the buckets. -/
theorem LFUPolicy.keys_of_bucket {K V : Type} [DecidableEq K] (p : LFUPolicy K V) (k : K)
    (f : Nat) (hk : k ∈ bucketAt p.buckets f) : k ∈ p.keys := by
  unfold bucketAt at hk
  cases hf : p.buckets.find? (fun b => decide (b.1 = f)) with
  | none => rw [hf] at hk; cases hk
  | some b =>
    rw [hf] at hk
    unfold LFUPolicy.keys
    rw [List.mem_flatten]
    exact ⟨b.2, List.mem_map_of_mem Prod.snd (List.mem_of_find?_eq_some hf), hk⟩

/-- In a well-formed store every stored key is listed by `Keys`. -/
theorem Store.mem_Keys_of_peek {K V : Type} [DecidableEq K] (s : Store K V) (hw : s.WF)
    (j : K) (e : Entry K V) (h : s.peek j = some e) : j ∈ s.Keys := by
  cases s with
  | lru p =>
    obtain ⟨hk, hm⟩ := find_key_some Entry.key p.list j e h
    show j ∈ p.list.map Entry.key
    rw [← hk]
    exact List.mem_map_of_mem Entry.key hm
  | lfu p =>
    have h1 : (p.node j).map LFUNode.entry = some e := h
    cases hn : p.node j with
    | none => rw [hn] at h1; cases h1
    | some n =>
      have hb : j ∈ bucketAt p.buckets n.freq := (hw.bucket_iff j n.freq).mpr ⟨n, hn, rfl⟩
      exact p.keys_of_bucket j n.freq hb

/-- A store that holds no entry for any key has size 0. -/
theorem Store.size_zero_of_peek {K V : Type} [DecidableEq K] (s : Store K V)
    (h : ∀ j, s.peek j = none) : s.size = 0 := by
  cases s with
  | lru p =>
    show p.list.length = 0
    cases hl : p.list with
    | nil => rfl
    | cons a t =>
      have h1 : p.list.find? (fun e => decide (e.key = a.key)) = none := h a.key
      rw [hl] at h1
      simp at h1
  | lfu p =>
    show p.items.length = 0
    cases hl : p.items with
    | nil => rfl
    | cons a t =>
      have h0 : (p.node a.entry.key).map LFUNode.entry = none := h a.entry.key
      have h1 : p.items.find? (fun n => decide (n.entry.key = a.entry.key)) = none := by
        cases hn : p.node a.entry.key with
        | none => exact hn
        | some n => rw [hn] at h0; cases h0
      rw [hl] at h1
      simp at h1

/-- A well-formed store that holds no entry for any key lists no key. -/
theorem Store.Keys_nil_of_peek {K V : Type} [DecidableEq K] (s : Store K V) (hw : s.WF)
    (h : ∀ j, s.peek j = none) : s.Keys = [] := by
  cases s with
  | lru p =>
    have h0 : p.list.length = 0 := Store.size_zero_of_peek (Store.lru p) h
    show p.list.map Entry.key = []
    rw [List.length_eq_zero.mp h0]
    rfl
  | lfu p =>
    show p.keys = []
    rw [List.eq_nil_iff_forall_not_mem]
    intro k hk
    obtain ⟨f, hf⟩ := p.mem_keys hw.nodupFreqs k hk
    obtain ⟨n, hn, _⟩ := (hw.bucket_iff k f).mp hf
    have h0 : (p.node k).map LFUNode.entry = none := h k
    rw [hn] at h0
    cases h0

/-- C9. `InvalidateAll` empties the cache and is idempotent: on a cache with a
well-formed store the call cannot fail; afterwards the cache holds no entry (size 0, no
entry stored for any key, `GetIfPresent` reports not-found for every key at every time)
and the key list of the policy is empty; a second `InvalidateAll` cannot fail either and
yields that same cache. -/
theorem InvalidateAll_empties {Ctx K V : Type} [DecidableEq K] [Inhabited V]
    (tc : Cache Ctx K V) (s : Store K V) (ctx : Ctx) (hc : tc.c = some s) (hw : s.WF) :
    ∃ tc1, InvalidateAll tc ctx = some tc1
      ∧ tc1.size = 0
      ∧ (∀ j, tc1.peek j = none)
      ∧ (∀ (t : Time) (ctx1 : Ctx) (j : K),
          (GetIfPresent tc1 t ctx1 j).map Prod.fst = some (default, false))
      ∧ (∃ s1, tc1.c = some s1 ∧ s1.Keys = [])
      ∧ ∀ ctx1 : Ctx, InvalidateAll tc1 ctx1 = some tc1 := by
  have h : InvalidateAll tc ctx = some { tc with c := some (s.Keys.foldl Store.Delete s) } := by
    unfold InvalidateAll
    rw [hc]
  have hpk : ∀ j, (s.Keys.foldl Store.Delete s).peek j = none := by
    intro j
    rw [Store.peek_foldl_Delete]
    split
    · rfl
    · rename_i hj
      cases hp : s.peek j with
      | none => rfl
      | some e => exact absurd (s.mem_Keys_of_peek hw j e hp) hj
  have hw1 := Store.WF_foldl_Delete s.Keys s hw
  have hkeys := Store.Keys_nil_of_peek _ hw1 hpk
  refine ⟨_, h, Store.size_zero_of_peek _ hpk, hpk, ?_, ⟨_, rfl, hkeys⟩, ?_⟩
  · intro t ctx1 j
    exact GetIfPresent_absent _ _ t ctx1 j rfl (hpk j)
  · intro ctx1
    show some _ = some _
    rw [hkeys]
    rfl

/-- C9 on the LFU example store holding key 7. -/
theorem InvalidateAll_empties_witness :
    (∃ tc1, InvalidateAll (lfuCache none) () = some tc1
      ∧ tc1.size = 0
      ∧ (∀ j, tc1.peek j = none)
      ∧ (∀ (t : Time) (ctx1 : Unit) (j : Nat),
          (GetIfPresent tc1 t ctx1 j).map Prod.fst = some (default, false))
      ∧ (∃ s1, tc1.c = some s1 ∧ s1.Keys = [])
      ∧ ∀ ctx1 : Unit, InvalidateAll tc1 ctx1 = some tc1)
    ∧ (lfuCache none).size = 1 :=
  ⟨InvalidateAll_empties (lfuCache none) heldLFU () rfl heldLFU_WF, by decide⟩

/-! ## C10: the capacity invariant -/

/-- `Get` when the lookup finds a live entry, in terms of the library lookup. -/
theorem Get_of_found {Ctx K V : Type} [DecidableEq K] [Inhabited V]
    (tc : Cache Ctx K V) (s : Store K V) (now : Time) (ctx : Ctx) (k : K)
    (hc : tc.c = some s) (hf : (s.Get now k).1.2 = true) :
    Get tc now ctx k =
      some { val := (s.Get now k).1.1, err := none,
             cache := { tc with c := some (s.Get now k).2 }, loads := [] } := by
  unfold Get
  rw [hc]
  simp only
  rcases hg : s.Get now k with ⟨⟨v0, b⟩, s1⟩
  rw [hg] at hf
  simp only at hf
  subst hf
  rfl

/-- The cache of a `Get` result always holds a store derived from the store before by the
library lookup, possibly followed by the library `Set`. -/
theorem Get_cache_cases {Ctx K V : Type} [DecidableEq K] [Inhabited V]
    (tc : Cache Ctx K V) (s : Store K V) (now : Time) (ctx : Ctx) (k : K)
    (hc : tc.c = some s) :
    ∃ r, Get tc now ctx k = some r ∧
      (r.cache.c = some (s.Get now k).2
        ∨ ∃ v, r.cache.c = some ((s.Get now k).2.Set now k v tc.exp)) := by
  cases hb : (s.Get now k).1.2 with
  | true => exact ⟨_, Get_of_found tc s now ctx k hc hb, Or.inl rfl⟩
  | false =>
    have hget := Get_of_not_found tc s now ctx k hc hb
    cases hlf : tc.lf with
    | none =>
      rw [hlf] at hget
      exact ⟨_, hget, Or.inl rfl⟩
    | some lf =>
      rw [hlf] at hget
      rcases hl : lf ctx k with ⟨v, _ | err⟩
      · simp only [hl] at hget
        exact ⟨_, hget, Or.inr ⟨v, rfl⟩⟩
      · simp only [hl] at hget
        exact ⟨_, hget, Or.inl rfl⟩

/-- The cache of a `Refresh` result holds the store before, or that store after the
library `Set`; the call cannot fail on a cache with a store. -/
theorem Refresh_cache_cases {Ctx K V : Type} [DecidableEq K]
    (tc : Cache Ctx K V) (s : Store K V) (now : Time) (ctx : Ctx) (k : K)
    (hc : tc.c = some s) :
    ∃ r, Refresh tc now ctx k = some r ∧
      (r.cache.c = some s ∨ ∃ v, r.cache.c = some (s.Set now k v tc.exp)) := by
  cases hlf : tc.lf with
  | none =>
    refine ⟨{ err := none, cache := tc, loads := [] }, ?_, Or.inl hc⟩
    unfold Refresh
    rw [hlf]
  | some lf =>
    rcases hl : lf ctx k with ⟨v, _ | err⟩
    · refine ⟨{ err := none, cache := { tc with c := some (s.Set now k v tc.exp) },
                loads := [(ctx, k)] }, ?_, Or.inr ⟨v, rfl⟩⟩
      unfold Refresh
      rw [hlf]
      simp only [hl, hc]
    · refine ⟨{ err := some err, cache := tc, loads := [(ctx, k)] }, ?_, Or.inl hc⟩
      unfold Refresh
      rw [hlf]
      simp only [hl]

/-- Every call of the interface on a cache with a well-formed store succeeds and leaves
a cache with a well-formed store of the same capacity. -/
theorem Op.apply_preserves {Ctx K V : Type} [DecidableEq K] [Inhabited V]
    (tc : Cache Ctx K V) (s : Store K V) (op : Op Ctx K V) (hc : tc.c = some s)
    (hw : s.WF) :
    ∃ tc1 s1, op.apply tc = some tc1 ∧ tc1.c = some s1 ∧ s1.WF ∧ s1.cap = s.cap := by
  cases op with
  | put now ctx key val =>
    refine ⟨{ tc with c := some (s.Set now key val tc.exp) }, _, ?_, rfl,
      s.WF_Set now key val tc.exp hw, s.cap_Set now key val tc.exp⟩
    show Put tc now ctx key val = _
    unfold Put
    rw [hc]
  | get now ctx key =>
    obtain ⟨r, hr, hcase⟩ := Get_cache_cases tc s now ctx key hc
    have hwg := s.WF_Get now key hw
    have hcg := s.cap_Get now key
    rcases hcase with h | ⟨v, h⟩
    · exact ⟨r.cache, _, by show (Get tc now ctx key).map _ = _; rw [hr]; rfl, h, hwg, hcg⟩
    · exact ⟨r.cache, _, by show (Get tc now ctx key).map _ = _; rw [hr]; rfl, h,
        Store.WF_Set _ now key v tc.exp hwg, (Store.cap_Set _ now key v tc.exp).trans hcg⟩
  | refresh now ctx key =>
    obtain ⟨r, hr, hcase⟩ := Refresh_cache_cases tc s now ctx key hc
    rcases hcase with h | ⟨v, h⟩
    · exact ⟨r.cache, _, by show (Refresh tc now ctx key).map _ = _; rw [hr]; rfl, h, hw, rfl⟩
    · exact ⟨r.cache, _, by show (Refresh tc now ctx key).map _ = _; rw [hr]; rfl, h,
        s.WF_Set now key v tc.exp hw, s.cap_Set now key v tc.exp⟩
  | getIfPresent now ctx key =>
    refine ⟨{ tc with c := some (s.Get now key).2 }, _, ?_, rfl, s.WF_Get now key hw,
      s.cap_Get now key⟩
    show (GetIfPresent tc now ctx key).map _ = _
    unfold GetIfPresent
    rw [hc]
    rfl
  | invalidate ctx key =>
    refine ⟨{ tc with c := some (s.Delete key) }, _, ?_, rfl, s.WF_Delete key hw,
      s.cap_Delete key⟩
    show Invalidate tc ctx key = _
    unfold Invalidate
    rw [hc]
  | invalidateAll ctx =>
    refine ⟨{ tc with c := some (s.Keys.foldl Store.Delete s) }, _, ?_, rfl,
      Store.WF_foldl_Delete s.Keys s hw, Store.cap_foldl_Delete s.Keys s⟩
    show InvalidateAll tc ctx = _
    unfold InvalidateAll
    rw [hc]
  | setLoader lf => exact ⟨SetLoader tc lf, s, rfl, hc, hw, rfl⟩

/-- Every sequence of calls on a cache with a well-formed store succeeds and leaves a
cache with a well-formed store of the same capacity. -/
theorem run_preserves {Ctx K V : Type} [DecidableEq K] [Inhabited V]
    (ops : List (Op Ctx K V)) (tc : Cache Ctx K V) (s : Store K V) (hc : tc.c = some s)
    (hw : s.WF) :
    ∃ tc1 s1, run tc ops = some tc1 ∧ tc1.c = some s1 ∧ s1.WF ∧ s1.cap = s.cap := by
  induction ops generalizing tc s with
  | nil => exact ⟨tc, s, rfl, hc, hw, rfl⟩
  | cons op t ih =>
    obtain ⟨tc1, s1, h1, hc1, hw1, hcap1⟩ := Op.apply_preserves tc s op hc hw
    obtain ⟨tc2, s2, h2, hc2, hw2, hcap2⟩ := ih tc1 s1 hc1 hw1
    refine ⟨tc2, s2, ?_, hc2, hw2, hcap2.trans hcap1⟩
    show (match op.apply tc with
      | none => none
      | some tc1 => run tc1 t) = some tc2
    rw [h1]
    exact h2

/-- `NewCache` with type LRU or LFU builds a cache with an empty well-formed store whose
capacity is `Size`, or 10000 when `Size` is 0. -/
theorem NewCache_store {Ctx K V : Type} [DecidableEq K] (params : CacheParams Ctx K V)
    (hT : params.Typ = LRU ∨ params.Typ = LFU) :
    ∃ s, (NewCache params).c = some s ∧ s.WF ∧ s.size = 0
      ∧ s.cap = (if params.Size = 0 then 10000 else params.Size) := by
  rcases hT with h | h
  · refine ⟨Store.lru (LRUPolicy.WithCapacity (if params.Size = 0 then 10000 else params.Size)),
      ?_, LRUPolicy.lru_WF_WithCapacity _, rfl, rfl⟩
    unfold NewCache
    have h2 : ¬ LRU = LFU := by decide
    simp only [h, h2, if_true, if_false]
  · refine ⟨Store.lfu (LFUPolicy.WithCapacity (if params.Size = 0 then 10000 else params.Size)),
      ?_, LFUPolicy.lfu_WF_WithCapacity _, rfl, rfl⟩
    unfold NewCache
    have h2 : ¬ LFU = LRU := by decide
    simp only [h, h2, if_true, if_false]

/-- C10. Capacity invariant: for a cache built by `NewCache` with type LRU or LFU and
capacity `n > 0` (`n` is `Size`, or 10000 when `Size` is 0), and every finite sequence of
`Put`, `Get`, `Refresh`, `GetIfPresent`, `Invalidate`, `InvalidateAll` and `SetLoader`
calls at arbitrary clock readings, after every call of the sequence (after every prefix
`ops.take m`) no call has failed and the cache holds at most `n` entries. -/
theorem capacity_invariant {Ctx K V : Type} [DecidableEq K] [Inhabited V]
    (params : CacheParams Ctx K V) (n : Int) (ops : List (Op Ctx K V)) (m : Nat)
    (hT : params.Typ = LRU ∨ params.Typ = LFU)
    (hn : n = if params.Size = 0 then 10000 else params.Size) (hpos : 0 < n) :
    ∃ tc, run (NewCache params) (ops.take m) = some tc ∧ (tc.size : Int) ≤ n := by
  obtain ⟨s, hc, hw, _, hcap⟩ := NewCache_store params hT
  obtain ⟨tc1, s1, h1, hc1, hw1, hcap1⟩ := run_preserves (ops.take m) (NewCache params) s hc hw
  refine ⟨tc1, h1, ?_⟩
  have hc2 : s1.cap = n := by rw [hcap1, hcap, hn]
  have := s1.size_le_cap hw1 (by rw [hc2]; exact hpos)
  unfold Cache.size
  rw [hc1, ← hc2]
  exact this

/-- C10 on an LFU cache of capacity 2 with the doubling loader and ttl 10: after three
puts, a loading get, a refresh, a lookup past the ttl and an invalidation the cache holds
at most 2 entries. -/
theorem capacity_invariant_witness :
    ∃ tc, run (NewCache { Typ := LFU, Size := 2, Expires := 10,
                          Loader := some doubleLoader })
        (([Op.put 0 () 1 10, Op.put 1 () 2 20, Op.put 2 () 3 30, Op.get 3 () 4,
           Op.refresh 4 () 5, Op.getIfPresent 50 () 4, Op.invalidate () 5] :
             List (Op Unit Nat Nat)).take 7) = some tc
      ∧ (tc.size : Int) ≤ 2 :=
  capacity_invariant { Typ := LFU, Size := 2, Expires := 10, Loader := some doubleLoader } 2
    [Op.put 0 () 1 10, Op.put 1 () 2 20, Op.put 2 () 3 30, Op.get 3 () 4,
      Op.refresh 4 () 5, Op.getIfPresent 50 () 4, Op.invalidate () 5] 7
    (Or.inr rfl) (by decide) (by decide)

/-! ## More store lemmas -/

theorem Store.size_policyGet {K V : Type} [DecidableEq K] (s : Store K V) (k : K)
    (hw : s.WF) : (s.policyGet k).2.size = s.size := by
  cases s with
  | lru p =>
    show (p.get k).2.list.length = p.list.length
    unfold LRUPolicy.get
    cases h : p.peek k with
    | none => rfl
    | some e =>
      show (e :: p.list.filter _).length = _
      rw [List.length_cons]
      exact length_filter_key_nodup Entry.key p.list k e h hw.1
  | lfu p =>
    show (p.get k).2.items.length = p.items.length
    unfold LFUPolicy.get
    cases h : p.node k with
    | none => rfl
    | some n =>
      show (p.items.map _).length = _
      rw [List.length_map]

theorem Store.size_Delete_present {K V : Type} [DecidableEq K] (s : Store K V) (k : K)
    (e : Entry K V) (hw : s.WF) (hp : s.peek k = some e) :
    (s.Delete k).size + 1 = s.size := by
  cases s with
  | lru p => exact length_filter_key_nodup Entry.key p.list k e hp hw.1
  | lfu p =>
    have h1 : (p.node k).map LFUNode.entry = some e := hp
    cases hn : p.node k with
    | none => rw [hn] at h1; cases h1
    | some n =>
      show (p.delete k).items.length + 1 = p.items.length
      rw [p.delete_present k n hn]
      exact length_filter_key_nodup (fun x : LFUNode K V => x.entry.key) p.items k n hn
        hw.nodupKeys

/-- In a well-formed store a key without entry is not listed by `Keys`. -/
theorem Store.not_mem_Keys {K V : Type} [DecidableEq K] (s : Store K V) (k : K)
    (hw : s.WF) (hp : s.peek k = none) : k ∉ s.Keys := by
  cases s with
  | lru p => exact (find_key_none Entry.key p.list k).mp hp
  | lfu p =>
    intro hk
    obtain ⟨f, hf⟩ := p.mem_keys hw.nodupFreqs k hk
    obtain ⟨n, hn, _⟩ := (hw.bucket_iff k f).mp hf
    have h0 : (p.node k).map LFUNode.entry = none := hp
    rw [hn] at h0
    cases h0

theorem find_dropLast {α : Type} (l : List α) (q : α → Bool) (x : α)
    (h : l.dropLast.find? q = some x) : l.find? q = some x := by
  cases hl : l with
  | nil => rw [hl] at h; cases h
  | cons a t =>
    have hne : l ≠ [] := by rw [hl]; exact List.cons_ne_nil a t
    have h2 := List.dropLast_append_getLast hne
    rw [← hl, ← h2, List.find?_append, h]
    rfl

/-- After a policy `set` every stored entry is the new entry or an entry stored before. -/
theorem Store.peek_policySet_sub {K V : Type} [DecidableEq K] (s : Store K V)
    (e e1 : Entry K V) (j : K) (h : (s.policySet e).peek j = some e1) :
    e1 = e ∨ s.peek j = some e1 := by
  cases s with
  | lru p =>
    have h1 : (p.set e).peek j = some e1 := h
    unfold LRUPolicy.set at h1
    cases hp : p.peek e.key with
    | some e0 =>
      rw [hp] at h1
      have h2 : List.find? (fun x => decide (x.key = j))
          (e :: p.list.filter (fun x => decide (x.key ≠ e.key))) = some e1 := h1
      rw [LRUPolicy.peek_moved] at h2
      by_cases hj : j = e.key
      · rw [if_pos hj] at h2
        exact Or.inl (Option.some.inj h2).symm
      · rw [if_neg hj] at h2
        exact Or.inr h2
    | none =>
      rw [hp] at h1
      have h2 : List.find? (fun x => decide (x.key = j)) (e :: p.list) = some e1 := by
        by_cases hlt : p.cap < ((e :: p.list).length : Int)
        · simp only [hlt, if_true] at h1
          exact find_dropLast _ _ _ h1
        · simp only [hlt, if_false] at h1
          exact h1
      rw [List.find?_cons] at h2
      by_cases hj : e.key = j
      · have hd : decide (e.key = j) = true := by simpa using hj
        rw [hd] at h2
        exact Or.inl (Option.some.inj h2).symm
      · have hd : decide (e.key = j) = false := by simpa using hj
        rw [hd] at h2
        exact Or.inr h2
  | lfu p =>
    have h1 : ((p.set e).node j).map LFUNode.entry = some e1 := h
    unfold LFUPolicy.set at h1
    cases hn : p.node e.key with
    | some n =>
      rw [hn] at h1
      have h2 : ((p.touch e.key n e).node j).map LFUNode.entry = some e1 := h1
      rw [LFUPolicy.node_touch p e.key j n n e rfl hn] at h2
      by_cases hj : j = e.key
      · rw [if_pos hj] at h2
        exact Or.inl (Option.some.inj h2).symm
      · rw [if_neg hj] at h2
        exact Or.inr h2
    | none =>
      rw [hn] at h1
      have h2 : (List.find? (fun x : LFUNode K V => decide (x.entry.key = j))
          ((if p.cap ≤ (p.items.length : Int) then p.evict else p).items
            ++ [{ entry := e, freq := 1 }])).map LFUNode.entry = some e1 := h1
      rw [find_append_new (fun x : LFUNode K V => x.entry.key)] at h2
      have hq : ∀ n, (if p.cap ≤ (p.items.length : Int) then p.evict else p).node j = some n →
          p.node j = some n := by
        intro n hqn
        split at hqn
        · rcases p.evict_cases with he | ⟨m, v, t, _, _, he⟩
          · rw [he] at hqn; exact hqn
          · rw [he, LFUPolicy.node_delete] at hqn
            split at hqn
            · cases hqn
            · exact hqn
        · exact hqn
      cases hf : List.find? (fun x : LFUNode K V => decide (x.entry.key = j))
          (if p.cap ≤ (p.items.length : Int) then p.evict else p).items with
      | some n =>
        rw [hf] at h2
        have h3 : some n.entry = some e1 := h2
        right
        show (p.node j).map LFUNode.entry = some e1
        rw [hq n hf]
        exact h3
      | none =>
        rw [hf] at h2
        by_cases hj : e.key = j
        · simp only [hj, if_true] at h2
          exact Or.inl (Option.some.inj h2).symm
        · simp only [hj, if_false] at h2
          cases h2

/-- After a library lookup every stored entry was stored before. -/
theorem Store.peek_Get_sub {K V : Type} [DecidableEq K] [Inhabited V] (s : Store K V)
    (now : Time) (k j : K) (e1 : Entry K V) (h : (s.Get now k).2.peek j = some e1) :
    s.peek j = some e1 := by
  by_cases hj : j = k
  · subst hj
    cases hp : s.peek j with
    | none => rw [s.Get_miss now j hp] at h; rw [← hp]; exact h
    | some e =>
      cases hx : e.expired now with
      | false =>
        rw [s.Get_hit now j e hp hx] at h
        rw [← hp, ← s.peek_policyGet j j]
        exact h
      | true =>
        rw [s.Get_expired now j e hp hx] at h
        have h2 : ((s.policyGet j).2.Delete j).peek j = some e1 := h
        rw [Store.peek_Delete, if_pos rfl] at h2
        cases h2
  · rw [s.peek_Get_other now k j hj] at h
    exact h

/-- The store after a discarding lookup: the entry of the key is gone and the size is one
less. -/
theorem Store.Get_expired_size {K V : Type} [DecidableEq K] [Inhabited V] (s : Store K V)
    (now : Time) (k : K) (e : Entry K V) (hw : s.WF) (hp : s.peek k = some e)
    (hx : e.expired now = true) : (s.Get now k).2.size + 1 = s.size := by
  rw [s.Get_expired now k e hp hx]
  show ((s.policyGet k).2.Delete k).size + 1 = s.size
  have hp1 : (s.policyGet k).2.peek k = some e := by rw [s.peek_policyGet]; exact hp
  rw [Store.size_Delete_present _ k e (s.WF_policyGet k hw) hp1]
  exact s.size_policyGet k hw

/-! ## C13: expiry with lazy deletion -/

/-- C13. On a cache with a well-formed store of capacity at least 1 and ttl `d > 0`, an
entry put at time `t` gets the expiry instant `t + d`; a `GetIfPresent` of its key at any
time later than `t + d` returns the zero value and not-found and discards the entry: no
entry is stored for the key, the key is not in the key list of the policy, the cache holds
one entry less, and every other key keeps its entry. A second `GetIfPresent` of the key,
at any time, returns not-found again, cannot fail, and leaves the cache as it is. -/
theorem GetIfPresent_expired_discards {Ctx K V : Type} [DecidableEq K] [Inhabited V]
    (tc : Cache Ctx K V) (s : Store K V) (t : Time) (ctx : Ctx) (k : K) (v : V)
    (hc : tc.c = some s) (hw : s.WF) (hcap : 1 ≤ s.cap) (hd : 0 < tc.exp) :
    ∃ tc1, Put tc t ctx k v = some tc1
      ∧ tc1.peek k = some { key := k, value := v, expiresAt := some (t + tc.exp) }
      ∧ ∀ (now : Time) (ctx1 : Ctx), t + tc.exp < now →
          ∃ tc2, GetIfPresent tc1 now ctx1 k = some ((default, false), tc2)
            ∧ tc2.peek k = none
            ∧ (∃ s2, tc2.c = some s2 ∧ k ∉ s2.Keys)
            ∧ tc2.size + 1 = tc1.size
            ∧ (∀ j, j ≠ k → tc2.peek j = tc1.peek j)
            ∧ ∀ (now2 : Time) (ctx2 : Ctx),
                GetIfPresent tc2 now2 ctx2 k = some ((default, false), tc2) := by
  have h : Put tc t ctx k v = some { tc with c := some (s.Set t k v tc.exp) } := by
    unfold Put
    rw [hc]
  have hne : tc.exp ≠ 0 := ne_of_gt hd
  have hpk : (s.Set t k v tc.exp).peek k
      = some { key := k, value := v, expiresAt := some (t + tc.exp) } := by
    rw [Store.peek_Set_self s t k v tc.exp hcap]
    unfold Store.expiry
    rw [if_neg hne]
  have hw1 : (s.Set t k v tc.exp).WF := s.WF_Set t k v tc.exp hw
  refine ⟨_, h, hpk, ?_⟩
  intro now ctx1 hlate
  have hx : ({ key := k, value := v, expiresAt := some (t + tc.exp) } : Entry K V).expired now
      = true := by
    unfold Entry.expired
    simpa using hlate
  have hget := Store.Get_expired _ now k _ hpk hx
  have hw2 : ((s.Set t k v tc.exp).Get now k).2.WF := Store.WF_Get _ now k hw1
  have hnf : ((s.Set t k v tc.exp).Get now k).1.2 = false := by rw [hget]
  obtain ⟨hpair, hpk2⟩ := Store.Get_not_found _ now k hnf
  refine ⟨{ tc with c := some ((s.Set t k v tc.exp).Get now k).2 }, ?_, hpk2,
    ⟨_, rfl, Store.not_mem_Keys _ k hw2 hpk2⟩, ?_, ?_, ?_⟩
  · show some (((s.Set t k v tc.exp).Get now k).1, _) = _
    rw [hget]
  · exact Store.Get_expired_size _ now k _ hw1 hpk hx
  · intro j hj
    exact Store.peek_Get_other _ now k j hj
  · intro now2 ctx2
    show some ((((s.Set t k v tc.exp).Get now k).2.Get now2 k).1, _) = _
    rw [Store.Get_miss _ now2 k hpk2]

/-- C13 at the example of the spec: ttl 10, the entry put at time 0 and read at time 20,
on the LFU example store. -/
theorem GetIfPresent_expired_discards_witness :
    ∃ tc1, Put (lfuCache none) 0 () 9 90 = some tc1
      ∧ tc1.peek 9 = some { key := 9, value := 90, expiresAt := some (0 + 10) }
      ∧ ∀ (now : Time) (ctx1 : Unit), 0 + 10 < now →
          ∃ tc2, GetIfPresent tc1 now ctx1 9 = some ((default, false), tc2)
            ∧ tc2.peek 9 = none
            ∧ (∃ s2, tc2.c = some s2 ∧ 9 ∉ s2.Keys)
            ∧ tc2.size + 1 = tc1.size
            ∧ (∀ j, j ≠ 9 → tc2.peek j = tc1.peek j)
            ∧ ∀ (now2 : Time) (ctx2 : Unit),
                GetIfPresent tc2 now2 ctx2 9 = some ((default, false), tc2) :=
  GetIfPresent_expired_discards (lfuCache none) heldLFU 0 () 9 90 rfl heldLFU_WF
    (by decide) (by decide)

/-! ## C16: no side effect on a miss -/

/-- C16. `GetIfPresent` on a key without stored entry returns the zero value and false,
and the cache after the call is the cache before it (the same entries in the same recency
or frequency order, hence the same next eviction victim). -/
theorem GetIfPresent_miss_no_effect {Ctx K V : Type} [DecidableEq K] [Inhabited V]
    (tc : Cache Ctx K V) (s : Store K V) (now : Time) (ctx : Ctx) (k : K)
    (hc : tc.c = some s) (hp : s.peek k = none) :
    GetIfPresent tc now ctx k = some ((default, false), tc) := by
  unfold GetIfPresent
  rw [hc]
  show some ((s.Get now k).1, _) = _
  rw [s.Get_miss now k hp, ← hc]

/-- C16 on the LRU example store, which holds keys 7 and 8: a lookup of key 5. -/
theorem GetIfPresent_miss_no_effect_witness :
    GetIfPresent (lruCache none) 3 () 5 = some ((default, false), lruCache none) :=
  GetIfPresent_miss_no_effect (lruCache none) heldLRU 3 () 5 rfl (by decide)

/-! ## C18: Refresh without loader -/

/-- C18. With a nil loader `Refresh` returns nil for every key, calls nothing, and the
cache after the call is the cache before it (whatever the store, nil included); `Get` on
the same cache reports `ErrNotFound` for a key without stored entry. -/
theorem Refresh_nil_loader_noop {Ctx K V : Type} [DecidableEq K] [Inhabited V]
    (tc : Cache Ctx K V) (now : Time) (ctx : Ctx) (k : K) (hlf : tc.lf = none) :
    Refresh tc now ctx k = some { err := none, cache := tc, loads := [] }
      ∧ ∀ s, tc.c = some s → s.peek k = none →
          ∃ r, Get tc now ctx k = some r ∧ r.err = some ErrNotFound := by
  constructor
  · unfold Refresh
    rw [hlf]
  · intro s hc hp
    have hnf : (s.Get now k).1.2 = false := by rw [s.Get_miss now k hp]
    have hget := Get_of_not_found tc s now ctx k hc hnf
    rw [hlf] at hget
    exact ⟨_, hget, rfl⟩

/-- C18 on the LFU example store: key 7 is stored, key 5 is not. -/
theorem Refresh_nil_loader_noop_witness :
    (Refresh (lfuCache none) 3 () 7 = some { err := none, cache := lfuCache none, loads := [] }
      ∧ ∀ s, (lfuCache none).c = some s → s.peek 7 = none →
          ∃ r, Get (lfuCache none) 3 () 7 = some r ∧ r.err = some ErrNotFound)
    ∧ (Refresh (lfuCache none) 3 () 5 = some { err := none, cache := lfuCache none, loads := [] }
      ∧ ∃ r, Get (lfuCache none) 3 () 5 = some r ∧ r.err = some ErrNotFound) := by
  refine ⟨Refresh_nil_loader_noop (lfuCache none) 3 () 7 rfl, ?_⟩
  have h := Refresh_nil_loader_noop (lfuCache none) 3 () 5 rfl
  exact ⟨h.1, h.2 heldLFU rfl (by decide)⟩

/-! ## C14: the zero ttl -/

theorem Store.Reach_foldl_Delete {K V : Type} [DecidableEq K] [Inhabited V] (exp : Time)
    (ks : List K) (s s1 : Store K V) (h : Store.Reach exp s s1) :
    Store.Reach exp s (ks.foldl Store.Delete s1) := by
  induction ks generalizing s1 with
  | nil => exact h
  | cons k t ih => exact ih (s1.Delete k) (Store.Reach.delete s s1 k h)

/-- Every call of the interface on a cache with a store succeeds, keeps the ttl, and
leaves a store reached by library lookups, stores with that ttl, and deletions. -/
theorem Op.apply_reach {Ctx K V : Type} [DecidableEq K] [Inhabited V]
    (tc : Cache Ctx K V) (s : Store K V) (op : Op Ctx K V) (hc : tc.c = some s) :
    ∃ tc1 s1, op.apply tc = some tc1 ∧ tc1.c = some s1 ∧ tc1.exp = tc.exp
      ∧ Store.Reach tc.exp s s1 := by
  cases op with
  | put now ctx key val =>
    refine ⟨{ tc with c := some (s.Set now key val tc.exp) }, _, ?_, rfl, rfl,
      Store.Reach.set s s now key val (Store.Reach.refl s)⟩
    show Put tc now ctx key val = _
    unfold Put
    rw [hc]
  | get now ctx key =>
    have hshape : ∀ r, Get tc now ctx key = some r → r.cache.exp = tc.exp := by
      intro r hr
      unfold Get at hr
      rw [hc] at hr
      simp only at hr
      split at hr
      · cases hr; rfl
      · split at hr
        · cases hr; rfl
        · split at hr
          · cases hr; rfl
          · split at hr
            · cases hr; rfl
            · cases hr; rfl
    obtain ⟨r, hr, hcase⟩ := Get_cache_cases tc s now ctx key hc
    have hg : Store.Reach tc.exp s (s.Get now key).2 :=
      Store.Reach.get s s now key (Store.Reach.refl s)
    rcases hcase with h | ⟨v, h⟩
    · exact ⟨r.cache, _, by show (Get tc now ctx key).map _ = _; rw [hr]; rfl, h,
        hshape r hr, hg⟩
    · exact ⟨r.cache, _, by show (Get tc now ctx key).map _ = _; rw [hr]; rfl, h,
        hshape r hr, Store.Reach.set s _ now key v hg⟩
  | refresh now ctx key =>
    have hshape : ∀ r, Refresh tc now ctx key = some r → r.cache.exp = tc.exp := by
      intro r hr
      unfold Refresh at hr
      split at hr
      · cases hr; rfl
      · split at hr
        · cases hr; rfl
        · rw [hc] at hr
          cases hr
          rfl
    obtain ⟨r, hr, hcase⟩ := Refresh_cache_cases tc s now ctx key hc
    rcases hcase with h | ⟨v, h⟩
    · exact ⟨r.cache, _, by show (Refresh tc now ctx key).map _ = _; rw [hr]; rfl, h,
        hshape r hr, Store.Reach.refl s⟩
    · exact ⟨r.cache, _, by show (Refresh tc now ctx key).map _ = _; rw [hr]; rfl, h,
        hshape r hr, Store.Reach.set s s now key v (Store.Reach.refl s)⟩
  | getIfPresent now ctx key =>
    refine ⟨{ tc with c := some (s.Get now key).2 }, _, ?_, rfl, rfl,
      Store.Reach.get s s now key (Store.Reach.refl s)⟩
    show (GetIfPresent tc now ctx key).map _ = _
    unfold GetIfPresent
    rw [hc]
    rfl
  | invalidate ctx key =>
    refine ⟨{ tc with c := some (s.Delete key) }, _, ?_, rfl, rfl,
      Store.Reach.delete s s key (Store.Reach.refl s)⟩
    show Invalidate tc ctx key = _
    unfold Invalidate
    rw [hc]
  | invalidateAll ctx =>
    refine ⟨{ tc with c := some (s.Keys.foldl Store.Delete s) }, _, ?_, rfl, rfl,
      Store.Reach_foldl_Delete tc.exp s.Keys s s (Store.Reach.refl s)⟩
    show InvalidateAll tc ctx = _
    unfold InvalidateAll
    rw [hc]
  | setLoader lf => exact ⟨SetLoader tc lf, s, rfl, hc, rfl, Store.Reach.refl s⟩

theorem Store.Reach_trans {K V : Type} [DecidableEq K] [Inhabited V] (exp : Time)
    (s s1 s2 : Store K V) (h1 : Store.Reach exp s s1) (h2 : Store.Reach exp s1 s2) :
    Store.Reach exp s s2 := by
  induction h2 with
  | refl => exact h1
  | get s3 now k _ ih => exact Store.Reach.get s s3 now k ih
  | set s3 now k v _ ih => exact Store.Reach.set s s3 now k v ih
  | delete s3 k _ ih => exact Store.Reach.delete s s3 k ih

/-- Every sequence of calls on a cache with a store succeeds, keeps the ttl, and leaves a
store reached by library lookups, stores with that ttl, and deletions. -/
theorem run_reach {Ctx K V : Type} [DecidableEq K] [Inhabited V]
    (ops : List (Op Ctx K V)) (tc : Cache Ctx K V) (s : Store K V) (hc : tc.c = some s) :
    ∃ tc1 s1, run tc ops = some tc1 ∧ tc1.c = some s1 ∧ tc1.exp = tc.exp
      ∧ Store.Reach tc.exp s s1 := by
  induction ops generalizing tc s with
  | nil => exact ⟨tc, s, rfl, hc, rfl, Store.Reach.refl s⟩
  | cons op t ih =>
    obtain ⟨tc1, s1, h1, hc1, he1, hr1⟩ := Op.apply_reach tc s op hc
    obtain ⟨tc2, s2, h2, hc2, he2, hr2⟩ := ih tc1 s1 hc1
    rw [he1] at hr2
    refine ⟨tc2, s2, ?_, hc2, he2.trans he1, Store.Reach_trans tc.exp s s1 s2 hr1 hr2⟩
    show (match op.apply tc with
      | none => none
      | some tc1 => run tc1 t) = some tc2
    rw [h1]
    exact h2

/-- With the zero ttl no reachable store holds an entry with an expiry instant, when the
store it is reached from holds none. -/
theorem Store.Reach_no_expiry {K V : Type} [DecidableEq K] [Inhabited V] (s s1 : Store K V)
    (h : Store.Reach 0 s s1) (h0 : ∀ j e, s.peek j = some e → e.expiresAt = none) :
    ∀ j e, s1.peek j = some e → e.expiresAt = none := by
  induction h with
  | refl => exact h0
  | get s2 now k _ ih =>
    intro j e hp
    exact ih j e (Store.peek_Get_sub s2 now k j e hp)
  | set s2 now k v _ ih =>
    intro j e hp
    rcases Store.peek_policySet_sub s2 _ e j hp with h1 | h1
    · rw [h1]; rfl
    · exact ih j e h1
  | delete s2 k _ ih =>
    intro j e hp
    rw [Store.peek_Delete] at hp
    split at hp
    · cases hp
    · exact ih j e hp

theorem NewCache_exp {Ctx K V : Type} [DecidableEq K] (params : CacheParams Ctx K V) :
    (NewCache params).exp = params.Expires := by
  simp only [NewCache]
  split_ifs <;> rfl

theorem NewCache_lf {Ctx K V : Type} [DecidableEq K] (params : CacheParams Ctx K V) :
    (NewCache params).lf = params.Loader := by
  simp only [NewCache]
  split_ifs <;> rfl

/-- C14. In a cache created by `NewCache` with `Expires = 0` (type LRU or LFU), after
every sequence of calls at arbitrary clock readings, every entry the cache still holds
(stored by `Put` or by a successful load, and not evicted, invalidated or replaced since)
has no expiry instant, and `GetIfPresent` returns its value with found = true at every
clock reading. -/
theorem zero_ttl_never_expires {Ctx K V : Type} [DecidableEq K] [Inhabited V]
    (params : CacheParams Ctx K V) (ops : List (Op Ctx K V)) (tc : Cache Ctx K V)
    (k : K) (e : Entry K V)
    (hT : params.Typ = LRU ∨ params.Typ = LFU) (h0 : params.Expires = 0)
    (hrun : run (NewCache params) ops = some tc) (hp : tc.peek k = some e) :
    e.expiresAt = none
      ∧ ∀ (now : Time) (ctx : Ctx),
          (GetIfPresent tc now ctx k).map Prod.fst = some (e.value, true) := by
  obtain ⟨s, hc, _, hsz, _⟩ := NewCache_store params hT
  obtain ⟨tc1, s1, h1, hc1, he1, hr1⟩ := run_reach ops (NewCache params) s hc
  rw [hrun] at h1
  cases h1
  have hexp : (NewCache params).exp = 0 := (NewCache_exp params).trans h0
  rw [hexp] at hr1
  have hempty : ∀ j e, s.peek j = some e → e.expiresAt = none := by
    intro j e1 hj
    have hnone : s.peek j = none := by
      cases s with
      | lru p =>
        have hl : p.list = [] := List.length_eq_zero.mp hsz
        show p.list.find? _ = none
        rw [hl]
        rfl
      | lfu p =>
        have hl : p.items = [] := List.length_eq_zero.mp hsz
        show (p.items.find? _).map _ = none
        rw [hl]
        rfl
    rw [hnone] at hj
    cases hj
  have hpe : s1.peek k = some e := by
    rw [← Cache.peek_of_store tc s1 hc1]
    exact hp
  have hnoexp := Store.Reach_no_expiry s s1 hr1 hempty k e hpe
  refine ⟨hnoexp, ?_⟩
  intro now ctx
  have hx : e.expired now = false := by
    unfold Entry.expired
    rw [hnoexp]
  exact GetIfPresent_live tc s1 now ctx k e hc1 hpe hx

/-- C14 on an LRU cache of capacity 2 with the zero ttl: the entry put for key 1 at time 0
is found at time 1000000 after other calls. -/
theorem zero_ttl_never_expires_witness :
    ∃ tc, run (NewCache (lruParams 0))
        [Op.put 0 () 1 11, Op.get 5 () 2, Op.getIfPresent 9 () 3] = some tc
      ∧ tc.peek 1 = some { key := 1, value := 11, expiresAt := none }
      ∧ ∀ ctx : Unit, (GetIfPresent tc 1000000 ctx 1).map Prod.fst = some (11, true) := by
  have hrun : ∃ tc, run (NewCache (lruParams 0))
      [Op.put 0 () 1 11, Op.get 5 () 2, Op.getIfPresent 9 () 3] = some tc
      ∧ tc.peek 1 = some { key := 1, value := 11, expiresAt := none } :=
    ⟨_, rfl, by decide⟩
  obtain ⟨tc, h1, h2⟩ := hrun
  have h3 := zero_ttl_never_expires (lruParams 0) _ tc 1 _ (Or.inl rfl) rfl h1 h2
  exact ⟨tc, h1, h2, fun ctx => h3.2 1000000 ctx⟩

/-! ## C15 and C19: construction -/

theorem NewCache_c_LRU {Ctx K V : Type} [DecidableEq K] (params : CacheParams Ctx K V)
    (h : params.Typ = LRU) :
    (NewCache params).c = some (Store.lru
      (LRUPolicy.WithCapacity (if params.Size = 0 then 10000 else params.Size))) := by
  have h2 : ¬ LRU = LFU := by decide
  simp only [NewCache, h, h2, if_true, if_false]

theorem NewCache_c_LFU {Ctx K V : Type} [DecidableEq K] (params : CacheParams Ctx K V)
    (h : params.Typ = LFU) :
    (NewCache params).c = some (Store.lfu
      (LFUPolicy.WithCapacity (if params.Size = 0 then 10000 else params.Size))) := by
  have h2 : ¬ LFU = LRU := by decide
  simp only [NewCache, h, h2, if_true, if_false]

theorem NewCache_c_other {Ctx K V : Type} [DecidableEq K] (params : CacheParams Ctx K V)
    (h1 : params.Typ ≠ LRU) (h2 : params.Typ ≠ LFU) : (NewCache params).c = none := by
  simp only [NewCache, h1, h2, if_false]

/-- The claim C15 as stated fails: with `Size = -1` (type LRU) the capacity of the cache
`NewCache` returns is -1, which is not positive. -/
theorem NewCache_capacity_counterexample :
    (NewCache ({ Typ := LRU, Size := -1, Expires := 0, Loader := none } :
        CacheParams Unit Nat Nat)).cap = some (-1)
      ∧ ¬ ((0 : Int) < -1) := by
  constructor
  · rfl
  · decide

/-- C15, amended. `NewCache` takes the ttl from `Expires` and the loader from `Loader`;
with `Type` at its zero value it installs an LRU policy and with `Type = LFU` an LFU
policy, of capacity 10000 when `Size` is 0 and of capacity `Size` otherwise; in both cases
the returned cache is empty, and its capacity is positive when `Size` is not negative. -/
theorem NewCache_defaults {Ctx K V : Type} [DecidableEq K] (params : CacheParams Ctx K V) :
    (NewCache params).exp = params.Expires
      ∧ (NewCache params).lf = params.Loader
      ∧ (params.Typ = 0 → (NewCache params).c = some (Store.lru
          (LRUPolicy.WithCapacity (if params.Size = 0 then 10000 else params.Size))))
      ∧ (params.Typ = LFU → (NewCache params).c = some (Store.lfu
          (LFUPolicy.WithCapacity (if params.Size = 0 then 10000 else params.Size))))
      ∧ (params.Typ = 0 ∨ params.Typ = LFU →
          (NewCache params).cap = some (if params.Size = 0 then 10000 else params.Size)
            ∧ (NewCache params).size = 0
            ∧ (∀ k, (NewCache params).peek k = none)
            ∧ (0 ≤ params.Size →
                (0 : Int) < (if params.Size = 0 then 10000 else params.Size))) := by
  refine ⟨NewCache_exp params, NewCache_lf params, NewCache_c_LRU params,
    NewCache_c_LFU params, ?_⟩
  intro hT
  have hpos : 0 ≤ params.Size →
      (0 : Int) < (if params.Size = 0 then 10000 else params.Size) := by
    intro h
    split
    · decide
    · rename_i hne
      omega
  rcases hT with h | h
  · have hc := NewCache_c_LRU params h
    refine ⟨?_, ?_, ?_, hpos⟩
    · unfold Cache.cap; rw [hc]; rfl
    · unfold Cache.size; rw [hc]; rfl
    · intro k; unfold Cache.peek; rw [hc]; rfl
  · have hc := NewCache_c_LFU params h
    refine ⟨?_, ?_, ?_, hpos⟩
    · unfold Cache.cap; rw [hc]; rfl
    · unfold Cache.size; rw [hc]; rfl
    · intro k; unfold Cache.peek; rw [hc]; rfl

/-- C15 at the defaults: all fields of `CacheParams` at their zero value. -/
theorem NewCache_defaults_witness :
    (NewCache zeroParams).c = some (Store.lru (LRUPolicy.WithCapacity 10000))
      ∧ (NewCache zeroParams).cap = some 10000
      ∧ (NewCache zeroParams).size = 0
      ∧ (0 : Int) < 10000 := by
  have h := NewCache_defaults zeroParams
  have h5 := h.2.2.2.2 (Or.inl rfl)
  exact ⟨h.2.2.1 rfl, h5.1, h5.2.1, h5.2.2.2 (le_refl _)⟩

/-- C19. `NewCache` installs a store exactly when `Type` is LRU or LFU. For every other
value of `Type` the store of the returned cache is nil (there is no error result), and
`GetIfPresent`, `Put`, `Invalidate`, `InvalidateAll` and `Get` on it panic. A negative
`Size` is the capacity of the installed policy as it is. -/
theorem NewCache_other_type {Ctx K V : Type} [DecidableEq K] [Inhabited V]
    (params : CacheParams Ctx K V) :
    ((NewCache params).c ≠ none ↔ (params.Typ = LRU ∨ params.Typ = LFU))
      ∧ (params.Typ ≠ LRU → params.Typ ≠ LFU →
          (NewCache params).c = none
            ∧ ∀ (now : Time) (ctx : Ctx) (k : K) (v : V),
                GetIfPresent (NewCache params) now ctx k = none
                  ∧ Put (NewCache params) now ctx k v = none
                  ∧ Invalidate (NewCache params) ctx k = none
                  ∧ InvalidateAll (NewCache params) ctx = none
                  ∧ Get (NewCache params) now ctx k = none)
      ∧ (params.Size < 0 → (params.Typ = LRU ∨ params.Typ = LFU) →
          (NewCache params).cap = some params.Size) := by
  refine ⟨?_, ?_, ?_⟩
  · constructor
    · intro hne
      by_contra hT
      push_neg at hT
      exact hne (NewCache_c_other params hT.1 hT.2)
    · rintro (h | h)
      · rw [NewCache_c_LRU params h]; exact Option.some_ne_none _
      · rw [NewCache_c_LFU params h]; exact Option.some_ne_none _
  · intro h1 h2
    have hc := NewCache_c_other params h1 h2
    refine ⟨hc, ?_⟩
    intro now ctx k v
    refine ⟨?_, ?_, ?_, ?_, ?_⟩
    · unfold GetIfPresent; rw [hc]
    · unfold Put; rw [hc]
    · unfold Invalidate; rw [hc]
    · unfold InvalidateAll; rw [hc]
    · unfold Get; rw [hc]
  · intro hneg hT
    have hne : params.Size ≠ 0 := ne_of_lt hneg
    rcases hT with h | h
    · unfold Cache.cap
      rw [NewCache_c_LRU params h, if_neg hne]
      rfl
    · unfold Cache.cap
      rw [NewCache_c_LFU params h, if_neg hne]
      rfl

/-- C19 at `Type = 2` (no store, every call panics) and at `Size = -3` with type LFU
(capacity -3). -/
theorem NewCache_other_type_witness :
    ((NewCache otherParams).c = none
      ∧ ∀ (now : Time) (ctx : Unit) (k : Nat) (v : Nat),
          GetIfPresent (NewCache otherParams) now ctx k = none
            ∧ Put (NewCache otherParams) now ctx k v = none
            ∧ Invalidate (NewCache otherParams) ctx k = none
            ∧ InvalidateAll (NewCache otherParams) ctx = none
            ∧ Get (NewCache otherParams) now ctx k = none)
    ∧ (NewCache (lfuParams (-3))).cap = some (-3) :=
  ⟨(NewCache_other_type otherParams).2.1 (by decide) (by decide),
    (NewCache_other_type (lfuParams (-3))).2.2 (by decide) (Or.inr rfl)⟩

/-! ## C17: Refresh holds the lock while the loader runs -/

/-- While `Refresh` runs the loader it holds the write lock, so the `RLock` of a `Get`
issued meanwhile has to wait. -/
theorem GetBegin_waits_while_loading {Ctx K V : Type} [DecidableEq K] [Inhabited V]
    (tc : Cache Ctx K V) (mu mu1 : RWMutex) (lf : LoaderFunc Ctx K V) (now : Time) (k : K)
    (h : RefreshBegin tc mu = RefreshPhase.loading lf mu1) :
    GetBegin tc mu1 now k = GetFirst.waiting := by
  unfold RefreshBegin at h
  cases hlf : tc.lf with
  | none => rw [hlf] at h; cases h
  | some lf1 =>
    rw [hlf] at h
    simp only at h
    cases hl : mu.Lock with
    | none => rw [hl] at h; cases h
    | some mu2 =>
      rw [hl] at h
      simp only at h
      cases h
      unfold RWMutex.Lock at hl
      split at hl
      · cases hl
        rfl
      · cases hl

/-- C17 evaluated on the code: the cache holds `(7, 100)`, nobody holds the lock, and
`Refresh` for key 7 has reached the call of the loader. A `Get` for key 7 issued by
another caller at that point waits in `RLock`: it does not return 100. When the loader has
returned 14 and `Refresh` has stored it and released the lock, the lookup of `Get` goes
through and yields the new value 14. -/
theorem Refresh_blocks_concurrent_Get :
    ∃ mu1, RefreshBegin (lfuCache (some doubleLoader)) { writer := false, readers := 0 }
        = RefreshPhase.loading doubleLoader mu1
      ∧ GetBegin (lfuCache (some doubleLoader)) mu1 4 7 = GetFirst.waiting
      ∧ ∃ tc2 mu2, RefreshEnd (lfuCache (some doubleLoader)) mu1 4 7 (doubleLoader () 7)
          = some (none, tc2, mu2)
        ∧ ∃ tc3 mu3, GetBegin tc2 mu2 4 7 = GetFirst.looked (14, true) tc3 mu3 :=
  ⟨{ writer := true, readers := 0 }, rfl, rfl, _, _, rfl, _, _, rfl⟩

/-! ## Histories -/

theorem History.record_tick {K : Type} [DecidableEq K] (h : History K) (a : Access K) :
    (h.record a).tick = h.tick + 1 := by
  cases a <;> rfl

theorem History.record_nothing_last {K : Type} [DecidableEq K] (h : History K) (j : K) :
    (h.record Access.nothing).last j = h.last j ∧ (h.record Access.nothing).count j = h.count j :=
  ⟨rfl, rfl⟩

theorem History.record_insert_self {K : Type} [DecidableEq K] (h : History K) (k : K) :
    (h.record (Access.insert k)).last k = h.tick + 1
      ∧ (h.record (Access.insert k)).count k = 1 := by
  constructor
  · show (if k = k then h.tick + 1 else h.last k) = _
    rw [if_pos rfl]
  · show (if k = k then 1 else h.count k) = _
    rw [if_pos rfl]

theorem History.record_insert_other {K : Type} [DecidableEq K] (h : History K) (k j : K)
    (hj : j ≠ k) :
    (h.record (Access.insert k)).last j = h.last j
      ∧ (h.record (Access.insert k)).count j = h.count j := by
  constructor
  · show (if j = k then h.tick + 1 else h.last j) = _
    rw [if_neg hj]
  · show (if j = k then 1 else h.count j) = _
    rw [if_neg hj]

theorem History.record_hit_self {K : Type} [DecidableEq K] (h : History K) (k : K) :
    (h.record (Access.hit k)).last k = h.tick + 1
      ∧ (h.record (Access.hit k)).count k = h.count k + 1 := by
  constructor
  · show (if k = k then h.tick + 1 else h.last k) = _
    rw [if_pos rfl]
  · show (if k = k then h.count k + 1 else h.count k) = _
    rw [if_pos rfl]

theorem History.record_hit_other {K : Type} [DecidableEq K] (h : History K) (k j : K)
    (hj : j ≠ k) :
    (h.record (Access.hit k)).last j = h.last j
      ∧ (h.record (Access.hit k)).count j = h.count j := by
  constructor
  · show (if j = k then h.tick + 1 else h.last j) = _
    rw [if_neg hj]
  · show (if j = k then h.count k + 1 else h.count j) = _
    rw [if_neg hj]

/-! ## The LRU order is kept -/

theorem find_key_of_mem {α K : Type} [DecidableEq K] (kf : α → K) (l : List α) (a : α)
    (hn : (l.map kf).Nodup) (ha : a ∈ l) :
    l.find? (fun x => decide (kf x = kf a)) = some a := by
  induction l with
  | nil => cases ha
  | cons b t ih =>
    rw [List.map_cons, List.nodup_cons] at hn
    rcases List.mem_cons.mp ha with h | h
    · subst h
      simp
    · have hne : kf b ≠ kf a := by
        intro heq
        exact hn.1 (heq ▸ List.mem_map_of_mem kf h)
      have hd : decide (kf b = kf a) = false := by simpa using hne
      rw [List.find?_cons, hd]
      exact ih hn.2 h

theorem LRUPolicy.peek_of_mem {K V : Type} [DecidableEq K] (p : LRUPolicy K V)
    (e : Entry K V) (hw : p.WF) (he : e ∈ p.list) : p.peek e.key = some e :=
  find_key_of_mem Entry.key p.list e hw.1 he

theorem LRUPolicy.Ordered_sublist {K V : Type} (p q : LRUPolicy K V) (h : History K)
    (hs : q.list.Sublist p.list) (ho : p.Ordered h) : q.Ordered h :=
  ⟨List.Pairwise.sublist hs ho.1, fun e he => ho.2 e (hs.subset he)⟩

theorem LRUPolicy.lru_Ordered_congr {K V : Type} [DecidableEq K] (p : LRUPolicy K V)
    (h h1 : History K) (hw : p.WF) (ho : p.Ordered h1)
    (hagree : ∀ j, p.peek j ≠ none → h.last j = h1.last j)
    (hb : ∀ j, p.peek j ≠ none → h.last j ≤ h.tick) : p.Ordered h := by
  have hst : ∀ e, e ∈ p.list → p.peek e.key ≠ none := by
    intro e he
    rw [p.peek_of_mem e hw he]
    exact Option.some_ne_none e
  refine ⟨List.Pairwise.imp_of_mem ?_ ho.1, ?_⟩
  · intro a b ha hb1 hab
    rw [hagree a.key (hst a ha), hagree b.key (hst b hb1)]
    exact hab
  · intro e he
    exact hb e.key (hst e he)

/-- Moving (or putting) the entry of `k` to the head of the recency list agrees with the
history after an access of `k`. -/
theorem LRUPolicy.Ordered_moved {K V : Type} [DecidableEq K] (p : LRUPolicy K V)
    (h h1 : History K) (e : Entry K V) (ho : p.Ordered h)
    (ht : h1.tick = h.tick + 1) (hk : h1.last e.key = h.tick + 1)
    (hl : ∀ j, j ≠ e.key → h1.last j = h.last j) :
    LRUPolicy.Ordered
      { p with list := e :: p.list.filter (fun x => decide (x.key ≠ e.key)) } h1 := by
  have hfk : ∀ x, x ∈ p.list.filter (fun x => decide (x.key ≠ e.key)) →
      x ∈ p.list ∧ x.key ≠ e.key := by
    intro x hx
    have := List.mem_filter.mp hx
    exact ⟨this.1, by simpa using this.2⟩
  constructor
  · show List.Pairwise _ (e :: p.list.filter _)
    rw [List.pairwise_cons]
    constructor
    · intro b hb
      obtain ⟨hb1, hb2⟩ := hfk b hb
      rw [hk, hl b.key hb2]
      exact Nat.lt_succ_of_le (ho.2 b hb1)
    · refine List.Pairwise.imp_of_mem ?_ (List.Pairwise.sublist (List.filter_sublist _) ho.1)
      intro a b ha hb hab
      rw [hl a.key (hfk a ha).2, hl b.key (hfk b hb).2]
      exact hab
  · intro x hx
    show h1.last x.key ≤ h1.tick
    rw [ht]
    rcases List.mem_cons.mp hx with hxe | hxf
    · rw [hxe, hk]
    · obtain ⟨hx1, hx2⟩ := hfk x hxf
      rw [hl x.key hx2]
      exact Nat.le_succ_of_le (ho.2 x hx1)

theorem LRUPolicy.lru_Ordered_get_hit {K V : Type} [DecidableEq K] (p : LRUPolicy K V)
    (h : History K) (k : K) (e : Entry K V) (ho : p.Ordered h) (hp : p.peek k = some e) :
    (p.get k).2.Ordered (h.record (Access.hit k)) := by
  have hkey := p.lru_peek_key k e hp
  unfold LRUPolicy.get
  rw [hp]
  subst hkey
  exact p.Ordered_moved h _ e ho (h.record_tick _) (h.record_hit_self e.key).1
    (fun j hj => (h.record_hit_other e.key j hj).1)

theorem LRUPolicy.lru_Ordered_set_hit {K V : Type} [DecidableEq K] (p : LRUPolicy K V)
    (h : History K) (e e0 : Entry K V) (ho : p.Ordered h) (hp : p.peek e.key = some e0) :
    (p.set e).Ordered (h.record (Access.hit e.key)) := by
  unfold LRUPolicy.set
  rw [hp]
  exact p.Ordered_moved h _ e ho (h.record_tick _) (h.record_hit_self e.key).1
    (fun j hj => (h.record_hit_other e.key j hj).1)

theorem LRUPolicy.lru_Ordered_set_insert {K V : Type} [DecidableEq K] (p : LRUPolicy K V)
    (h : History K) (e : Entry K V) (ho : p.Ordered h) (hp : p.peek e.key = none) :
    (p.set e).Ordered (h.record (Access.insert e.key)) := by
  have hm := p.Ordered_moved h (h.record (Access.insert e.key)) e ho (h.record_tick _)
    (h.record_insert_self e.key).1 (fun j hj => (h.record_insert_other e.key j hj).1)
  rw [filter_key_absent Entry.key p.list e.key hp] at hm
  unfold LRUPolicy.set
  rw [hp]
  show LRUPolicy.Ordered (if _ then _ else _) _
  split
  · exact LRUPolicy.Ordered_sublist { p with list := e :: p.list } _ _
      (List.dropLast_sublist _) hm
  · exact hm

theorem LRUPolicy.lru_Ordered_delete {K V : Type} [DecidableEq K] (p : LRUPolicy K V)
    (h : History K) (k : K) (ho : p.Ordered h) : (p.delete k).Ordered h :=
  LRUPolicy.Ordered_sublist p _ h (List.filter_sublist _) ho

/-! ## The LFU order is kept -/

theorem LFUPolicy.node_of_bucket {K V : Type} [DecidableEq K] (p : LFUPolicy K V)
    (hw : p.WF) (j : K) (f : Nat) (hj : j ∈ bucketAt p.buckets f) :
    ∃ n, p.node j = some n ∧ n.freq = f :=
  (hw.bucket_iff j f).mp hj

theorem LFUPolicy.lfu_Ordered_congr {K V : Type} [DecidableEq K] (p : LFUPolicy K V)
    (h h1 : History K) (hw : p.WF) (ho : p.Ordered h1)
    (hagree : ∀ j n, p.node j = some n → h.last j = h1.last j ∧ h.count j = h1.count j)
    (hb : ∀ j n, p.node j = some n → h.last j ≤ h.tick) : p.Ordered h := by
  constructor
  · intro f
    refine List.Pairwise.imp_of_mem ?_ (ho.1 f)
    intro a b ha hb1 hab
    obtain ⟨na, hna, _⟩ := p.node_of_bucket hw a f ha
    obtain ⟨nb, hnb, _⟩ := p.node_of_bucket hw b f hb1
    rw [(hagree a na hna).1, (hagree b nb hnb).1]
    exact hab
  · intro k n hn
    rw [(hagree k n hn).2]
    exact ⟨(ho.2 k n hn).1, hb k n hn⟩

/-- The frequency-increment step agrees with the history after an access of the key that
adds 1 to its count. -/
theorem LFUPolicy.Ordered_touch {K V : Type} [DecidableEq K] (p : LFUPolicy K V)
    (h h1 : History K) (k : K) (n : LFUNode K V) (e : Entry K V) (hw : p.WF)
    (ho : p.Ordered h) (hn : p.node k = some n) (he : e.key = k)
    (ht : h1.tick = h.tick + 1) (hk : h1.last k = h.tick + 1)
    (hl : ∀ j, j ≠ k → h1.last j = h.last j)
    (hck : h1.count k = h.count k + 1) (hc : ∀ j, j ≠ k → h1.count j = h.count j) :
    (p.touch k n e).Ordered h1 := by
  have hkf : ∀ g, k ∈ bucketAt p.buckets g → n.freq = g := by
    intro g hg
    obtain ⟨n1, h1n, h2n⟩ := p.node_of_bucket hw k g hg
    rw [hn] at h1n
    cases h1n
    exact h2n
  have hstored : ∀ g a, a ∈ bucketAt p.buckets g → h.last a ≤ h.tick := by
    intro g a ha
    obtain ⟨na, hna, _⟩ := p.node_of_bucket hw a g ha
    exact (ho.2 a na hna).2
  have hkeep : ∀ g, g ≠ n.freq → (bucketAt p.buckets g).Pairwise
      (fun a b => h1.last a < h1.last b) := by
    intro g hg
    refine List.Pairwise.imp_of_mem ?_ (ho.1 g)
    intro a b ha hb hab
    have hak : a ≠ k := fun x => hg (hkf g (x ▸ ha)).symm
    have hbk : b ≠ k := fun x => hg (hkf g (x ▸ hb)).symm
    rw [hl a hak, hl b hbk]
    exact hab
  constructor
  · intro g
    rw [LFUPolicy.bucketAt_touch]
    by_cases h1g : g = n.freq + 1
    · subst h1g
      rw [if_pos rfl, List.pairwise_append]
      refine ⟨hkeep _ (by omega), List.pairwise_singleton _ _, ?_⟩
      intro a ha b hb
      rw [List.mem_singleton] at hb
      subst hb
      have hak : a ≠ b := fun x => by
        have := hkf (n.freq + 1) (x ▸ ha)
        omega
      rw [hk, hl a hak]
      exact Nat.lt_succ_of_le (hstored _ a ha)
    · rw [if_neg h1g]
      by_cases h2g : g = n.freq
      · subst h2g
        rw [if_pos rfl]
        have hsub : ((bucketAt p.buckets n.freq).filter (fun x => decide (x ≠ k))).Sublist
            (bucketAt p.buckets n.freq) := List.filter_sublist _
        refine List.Pairwise.imp_of_mem ?_ (List.Pairwise.sublist hsub (ho.1 n.freq))
        intro a b ha hb hab
        have hak : a ≠ k := by simpa using (List.mem_filter.mp ha).2
        have hbk : b ≠ k := by simpa using (List.mem_filter.mp hb).2
        rw [hl a hak, hl b hbk]
        exact hab
      · rw [if_neg h2g]
        exact hkeep g h2g
  · intro j n1 hj
    rw [LFUPolicy.node_touch p k j n n e he hn] at hj
    rw [ht]
    by_cases hjk : j = k
    · subst hjk
      rw [if_pos rfl] at hj
      cases hj
      rw [hck, hk, (ho.2 j n hn).1]
      exact ⟨rfl, le_refl _⟩
    · rw [if_neg hjk] at hj
      rw [hc j hjk, hl j hjk]
      exact ⟨(ho.2 j n1 hj).1, Nat.le_succ_of_le (ho.2 j n1 hj).2⟩

theorem LFUPolicy.lfu_Ordered_get_hit {K V : Type} [DecidableEq K] (p : LFUPolicy K V)
    (h : History K) (k : K) (e : Entry K V) (hw : p.WF) (ho : p.Ordered h)
    (hp : p.peek k = some e) : (p.get k).2.Ordered (h.record (Access.hit k)) := by
  have h1 : (p.node k).map LFUNode.entry = some e := hp
  unfold LFUPolicy.get
  cases hn : p.node k with
  | none => rw [hn] at h1; cases h1
  | some n =>
    exact p.Ordered_touch h _ k n n.entry hw ho hn (p.node_key k n hn) (h.record_tick _)
      (h.record_hit_self k).1 (fun j hj => (h.record_hit_other k j hj).1)
      (h.record_hit_self k).2 (fun j hj => (h.record_hit_other k j hj).2)

theorem LFUPolicy.lfu_Ordered_delete {K V : Type} [DecidableEq K] (p : LFUPolicy K V)
    (h : History K) (k : K) (ho : p.Ordered h) : (p.delete k).Ordered h := by
  cases hn : p.node k with
  | none =>
    have : p.delete k = p := by unfold LFUPolicy.delete; rw [hn]
    rw [this]
    exact ho
  | some n =>
    constructor
    · intro g
      rw [p.delete_present k n hn]
      show (bucketAt (bucketPut p.buckets n.freq _) g).Pairwise _
      by_cases hg : g = n.freq
      · subst hg
        rw [bucketAt_bucketPut_same]
        exact List.Pairwise.sublist (List.filter_sublist _) (ho.1 n.freq)
      · rw [bucketAt_bucketPut_ne _ _ _ _ hg]
        exact ho.1 g
    · intro j n1 hj
      rw [LFUPolicy.node_delete] at hj
      split at hj
      · cases hj
      · exact ho.2 j n1 hj

theorem LFUPolicy.Ordered_evict {K V : Type} [DecidableEq K] (p : LFUPolicy K V)
    (h : History K) (ho : p.Ordered h) : p.evict.Ordered h := by
  rcases p.evict_cases with he | ⟨m, k, t, _, _, he⟩
  · rw [he]; exact ho
  · rw [he]; exact p.lfu_Ordered_delete h k ho

theorem LFUPolicy.node_insert {K V : Type} [DecidableEq K] (q : LFUPolicy K V)
    (e : Entry K V) (hq : q.node e.key = none) (j : K) :
    LFUPolicy.node
      { q with
        items := q.items ++ [{ entry := e, freq := 1 }]
        buckets := bucketPut q.buckets 1 (bucketAt q.buckets 1 ++ [e.key])
        minFreq := some 1 } j
      = if j = e.key then some { entry := e, freq := 1 } else q.node j := by
  show List.find? _ (q.items ++ [_]) = _
  rw [find_append_new (fun x : LFUNode K V => x.entry.key)]
  have hdef : List.find? (fun x : LFUNode K V => decide (x.entry.key = j)) q.items
      = q.node j := rfl
  rw [hdef]
  by_cases hj : j = e.key
  · subst hj
    rw [hq, if_pos rfl]
    rfl
  · have hne : ¬ e.key = j := fun x => hj x.symm
    rw [if_neg hj, if_neg hne]
    cases q.node j <;> rfl

/-- Inserting a new key with frequency 1 agrees with the history after the insertion. -/
theorem LFUPolicy.Ordered_insert {K V : Type} [DecidableEq K] (q : LFUPolicy K V)
    (h : History K) (e : Entry K V) (hw : q.WF) (ho : q.Ordered h)
    (hq : q.node e.key = none) :
    LFUPolicy.Ordered
      { q with
        items := q.items ++ [{ entry := e, freq := 1 }]
        buckets := bucketPut q.buckets 1 (bucketAt q.buckets 1 ++ [e.key])
        minFreq := some 1 } (h.record (Access.insert e.key)) := by
  have hne : ∀ g a, a ∈ bucketAt q.buckets g → a ≠ e.key ∧ h.last a ≤ h.tick := by
    intro g a ha
    obtain ⟨na, hna, _⟩ := q.node_of_bucket hw a g ha
    refine ⟨?_, (ho.2 a na hna).2⟩
    intro hae
    rw [hae, hq] at hna
    cases hna
  have hkeep : ∀ g, (bucketAt q.buckets g).Pairwise
      (fun a b => (h.record (Access.insert e.key)).last a
        < (h.record (Access.insert e.key)).last b) := by
    intro g
    refine List.Pairwise.imp_of_mem ?_ (ho.1 g)
    intro a b ha hb hab
    rw [(h.record_insert_other e.key a (hne g a ha).1).1,
      (h.record_insert_other e.key b (hne g b hb).1).1]
    exact hab
  constructor
  · intro g
    show (bucketAt (bucketPut q.buckets 1 (bucketAt q.buckets 1 ++ [e.key])) g).Pairwise _
    by_cases hg : g = 1
    · subst hg
      rw [bucketAt_bucketPut_same, List.pairwise_append]
      refine ⟨hkeep 1, List.pairwise_singleton _ _, ?_⟩
      intro a ha b hb
      rw [List.mem_singleton] at hb
      subst hb
      rw [(h.record_insert_self e.key).1, (h.record_insert_other e.key a (hne 1 a ha).1).1]
      exact Nat.lt_succ_of_le (hne 1 a ha).2
    · rw [bucketAt_bucketPut_ne _ _ _ _ hg]
      exact hkeep g
  · intro j n1 hj
    rw [LFUPolicy.node_insert q e hq] at hj
    rw [h.record_tick]
    by_cases hjk : j = e.key
    · subst hjk
      rw [if_pos rfl] at hj
      cases hj
      rw [(h.record_insert_self e.key).1, (h.record_insert_self e.key).2]
      exact ⟨rfl, le_refl _⟩
    · rw [if_neg hjk] at hj
      rw [(h.record_insert_other e.key j hjk).1, (h.record_insert_other e.key j hjk).2]
      exact ⟨(ho.2 j n1 hj).1, Nat.le_succ_of_le (ho.2 j n1 hj).2⟩

theorem LFUPolicy.lfu_Ordered_set_hit {K V : Type} [DecidableEq K] (p : LFUPolicy K V)
    (h : History K) (e : Entry K V) (n : LFUNode K V) (hw : p.WF) (ho : p.Ordered h)
    (hn : p.node e.key = some n) : (p.set e).Ordered (h.record (Access.hit e.key)) := by
  unfold LFUPolicy.set
  rw [hn]
  exact p.Ordered_touch h _ e.key n e hw ho hn rfl (h.record_tick _)
    (h.record_hit_self e.key).1 (fun j hj => (h.record_hit_other e.key j hj).1)
    (h.record_hit_self e.key).2 (fun j hj => (h.record_hit_other e.key j hj).2)

theorem LFUPolicy.lfu_Ordered_set_insert {K V : Type} [DecidableEq K] (p : LFUPolicy K V)
    (h : History K) (e : Entry K V) (hw : p.WF) (ho : p.Ordered h)
    (hn : p.node e.key = none) : (p.set e).Ordered (h.record (Access.insert e.key)) := by
  unfold LFUPolicy.set
  rw [hn]
  show LFUPolicy.Ordered
    { (if p.cap ≤ (p.items.length : Int) then p.evict else p) with
      items := (if p.cap ≤ (p.items.length : Int) then p.evict else p).items
        ++ [{ entry := e, freq := 1 }]
      buckets := bucketPut (if p.cap ≤ (p.items.length : Int) then p.evict else p).buckets 1
        (bucketAt (if p.cap ≤ (p.items.length : Int) then p.evict else p).buckets 1
          ++ [e.key])
      minFreq := some 1 } _
  apply LFUPolicy.Ordered_insert
  · split
    · exact p.WF_evict hw
    · exact hw
  · split
    · exact p.Ordered_evict h ho
    · exact ho
  · split
    · exact p.node_evict e.key hn
    · exact hn

/-! ## The order is kept by the store and by the calls -/

theorem Store.Ordered_bound {K V : Type} [DecidableEq K] (s : Store K V) (h : History K)
    (ho : s.Ordered h) (j : K) (hj : s.peek j ≠ none) : h.last j ≤ h.tick := by
  cases s with
  | lru p =>
    cases hp : p.peek j with
    | none => exact absurd hp hj
    | some e =>
      obtain ⟨hk, hm⟩ := find_key_some Entry.key p.list j e hp
      rw [← hk]
      exact ho.2 e hm
  | lfu p =>
    cases hn : p.node j with
    | none =>
      exfalso
      apply hj
      show (p.node j).map LFUNode.entry = none
      rw [hn]
      rfl
    | some n => exact (ho.2 j n hn).2

theorem Store.Ordered_congr {K V : Type} [DecidableEq K] (s : Store K V) (h h1 : History K)
    (hw : s.WF) (ho : s.Ordered h1)
    (hagree : ∀ j, s.peek j ≠ none → h.last j = h1.last j ∧ h.count j = h1.count j)
    (hb : ∀ j, s.peek j ≠ none → h.last j ≤ h.tick) : s.Ordered h := by
  cases s with
  | lru p => exact p.lru_Ordered_congr h h1 hw ho (fun j hj => (hagree j hj).1) hb
  | lfu p =>
    have hst : ∀ j n, p.node j = some n → (Store.lfu p).peek j ≠ none := by
      intro j n hn
      show (p.node j).map LFUNode.entry ≠ none
      rw [hn]
      exact Option.some_ne_none _
    exact p.lfu_Ordered_congr h h1 hw ho (fun j n hn => hagree j (hst j n hn))
      (fun j n hn => hb j (hst j n hn))

theorem Store.Ordered_nothing {K V : Type} [DecidableEq K] (s : Store K V) (h : History K)
    (hw : s.WF) (ho : s.Ordered h) : s.Ordered (h.record Access.nothing) :=
  s.Ordered_congr _ h hw ho (fun _ _ => ⟨rfl, rfl⟩)
    (fun j hj => Nat.le_succ_of_le (s.Ordered_bound h ho j hj))

theorem Store.Ordered_policyGet_hit {K V : Type} [DecidableEq K] (s : Store K V)
    (h : History K) (k : K) (e : Entry K V) (hw : s.WF) (ho : s.Ordered h)
    (hp : s.peek k = some e) : (s.policyGet k).2.Ordered (h.record (Access.hit k)) := by
  cases s with
  | lru p => exact p.lru_Ordered_get_hit h k e ho hp
  | lfu p => exact p.lfu_Ordered_get_hit h k e hw ho hp

theorem Store.Ordered_Delete {K V : Type} [DecidableEq K] (s : Store K V) (h : History K)
    (k : K) (ho : s.Ordered h) : (s.Delete k).Ordered h := by
  cases s with
  | lru p => exact p.lru_Ordered_delete h k ho
  | lfu p => exact p.lfu_Ordered_delete h k ho

theorem Store.Ordered_foldl_Delete {K V : Type} [DecidableEq K] (ks : List K)
    (s : Store K V) (h : History K) (ho : s.Ordered h) :
    (ks.foldl Store.Delete s).Ordered h := by
  induction ks generalizing s with
  | nil => exact ho
  | cons k t ih => exact ih (s.Delete k) (s.Ordered_Delete h k ho)

theorem Store.Ordered_policySet_hit {K V : Type} [DecidableEq K] (s : Store K V)
    (h : History K) (e e0 : Entry K V) (hw : s.WF) (ho : s.Ordered h)
    (hp : s.peek e.key = some e0) :
    (s.policySet e).Ordered (h.record (Access.hit e.key)) := by
  cases s with
  | lru p => exact p.lru_Ordered_set_hit h e e0 ho hp
  | lfu p =>
    have h1 : (p.node e.key).map LFUNode.entry = some e0 := hp
    cases hn : p.node e.key with
    | none => rw [hn] at h1; cases h1
    | some n => exact p.lfu_Ordered_set_hit h e n hw ho hn

theorem Store.Ordered_policySet_insert {K V : Type} [DecidableEq K] (s : Store K V)
    (h : History K) (e : Entry K V) (hw : s.WF) (ho : s.Ordered h)
    (hp : s.peek e.key = none) :
    (s.policySet e).Ordered (h.record (Access.insert e.key)) := by
  cases s with
  | lru p => exact p.lru_Ordered_set_insert h e ho hp
  | lfu p =>
    have h1 : (p.node e.key).map LFUNode.entry = none := hp
    cases hn : p.node e.key with
    | none => exact p.lfu_Ordered_set_insert h e hw ho hn
    | some n => rw [hn] at h1; cases h1

/-- The store after a lookup that reports not-found (a miss, or the discard of an expired
entry) agrees with the history before the lookup. -/
theorem Store.Ordered_Get_not_found {K V : Type} [DecidableEq K] [Inhabited V]
    (s : Store K V) (h : History K) (now : Time) (k : K) (hw : s.WF) (ho : s.Ordered h)
    (hnf : (s.Get now k).1.2 = false) : (s.Get now k).2.Ordered h := by
  cases hp : s.peek k with
  | none =>
    rw [s.Get_miss now k hp]
    exact ho
  | some e =>
    cases hx : e.expired now with
    | false =>
      rw [s.Get_hit now k e hp hx] at hnf
      cases hnf
    | true =>
      have ho1 := Store.Ordered_Delete _ _ k (s.Ordered_policyGet_hit h k e hw ho hp)
      have hw1 := Store.WF_Delete _ k (s.WF_policyGet k hw)
      have hpk : ∀ j, ((s.policyGet k).2.Delete k).peek j ≠ none → j ≠ k ∧ s.peek j ≠ none := by
        intro j hj
        rw [Store.peek_Delete] at hj
        by_cases hjk : j = k
        · rw [if_pos hjk] at hj
          exact absurd rfl hj
        · rw [if_neg hjk, s.peek_policyGet] at hj
          exact ⟨hjk, hj⟩
      rw [s.Get_expired now k e hp hx]
      refine Store.Ordered_congr _ h _ hw1 ho1 ?_ ?_
      · intro j hj
        have := h.record_hit_other k j (hpk j hj).1
        exact ⟨this.1.symm, this.2.symm⟩
      · intro j hj
        exact s.Ordered_bound h ho j (hpk j hj).2

/-- The access of `Get` and `GetIfPresent` on a stored entry that is not expired is a hit;
the access of `GetIfPresent` on any other key is nothing, that of `Get` is the access of the
load. -/
theorem Op.access_lookup {Ctx K V : Type} [DecidableEq K] [Inhabited V]
    (tc : Cache Ctx K V) (s : Store K V) (now : Time) (ctx : Ctx) (k : K)
    (hc : tc.c = some s) :
    ((s.Get now k).1.2 = true →
        (Op.get now ctx k).access tc = Access.hit k
          ∧ (Op.getIfPresent now ctx k).access tc = Access.hit k
          ∧ ∃ e, s.peek k = some e ∧ (s.Get now k).2 = (s.policyGet k).2)
      ∧ ((s.Get now k).1.2 = false →
        (Op.get now ctx k).access tc = tc.loadAccess ctx k
          ∧ (Op.getIfPresent now ctx k).access tc = Access.nothing) := by
  have hpk := Cache.peek_of_store tc s hc k
  cases hp : s.peek k with
  | none =>
    rw [hp] at hpk
    rw [s.Get_miss now k hp]
    constructor
    · intro h; cases h
    · intro _
      constructor
      · show (match tc.peek k with
          | none => tc.loadAccess ctx k
          | some e => if e.expired now then tc.loadAccess ctx k else Access.hit k) = _
        rw [hpk]
      · show (match tc.peek k with
          | none => Access.nothing
          | some e => if e.expired now then Access.nothing else Access.hit k) = _
        rw [hpk]
  | some e =>
    rw [hp] at hpk
    cases hx : e.expired now with
    | false =>
      rw [s.Get_hit now k e hp hx]
      constructor
      · intro _
        refine ⟨?_, ?_, e, rfl, rfl⟩
        · show (match tc.peek k with
            | none => tc.loadAccess ctx k
            | some e => if e.expired now then tc.loadAccess ctx k else Access.hit k) = _
          rw [hpk]
          simp only [hx, Bool.false_eq_true, if_false]
        · show (match tc.peek k with
            | none => Access.nothing
            | some e => if e.expired now then Access.nothing else Access.hit k) = _
          rw [hpk]
          simp only [hx, Bool.false_eq_true, if_false]
      · intro h; cases h
    | true =>
      rw [s.Get_expired now k e hp hx]
      constructor
      · intro h; cases h
      · intro _
        constructor
        · show (match tc.peek k with
            | none => tc.loadAccess ctx k
            | some e => if e.expired now then tc.loadAccess ctx k else Access.hit k) = _
          rw [hpk]
          simp only [hx, if_true]
        · show (match tc.peek k with
            | none => Access.nothing
            | some e => if e.expired now then Access.nothing else Access.hit k) = _
          rw [hpk]
          simp only [hx, if_true]

/-- What `Get` leaves in the cache, with the access it makes: a hit leaves the store of the
lookup; a lookup that reports not-found leaves that store when no load succeeds, and that
store after the library `Set` when the load succeeds, which is an insertion. -/
theorem Get_access_cases {Ctx K V : Type} [DecidableEq K] [Inhabited V]
    (tc : Cache Ctx K V) (s : Store K V) (now : Time) (ctx : Ctx) (k : K)
    (hc : tc.c = some s) :
    ∃ r, Get tc now ctx k = some r ∧
      (((s.Get now k).1.2 = true ∧ r.cache.c = some (s.Get now k).2
          ∧ (Op.get now ctx k).access tc = Access.hit k)
        ∨ ((s.Get now k).1.2 = false ∧ r.cache.c = some (s.Get now k).2
          ∧ (Op.get now ctx k).access tc = Access.nothing)
        ∨ ((s.Get now k).1.2 = false
          ∧ ∃ v, r.cache.c = some ((s.Get now k).2.Set now k v tc.exp)
            ∧ (Op.get now ctx k).access tc = Access.insert k)) := by
  have hacc := Op.access_lookup tc s now ctx k hc
  cases hb : (s.Get now k).1.2 with
  | true =>
    exact ⟨_, Get_of_found tc s now ctx k hc hb, Or.inl ⟨rfl, rfl, (hacc.1 hb).1⟩⟩
  | false =>
    have hget := Get_of_not_found tc s now ctx k hc hb
    have ha := (hacc.2 hb).1
    unfold Cache.loadAccess at ha
    obtain ⟨c, exp, lf⟩ := tc
    cases lf with
    | none => exact ⟨_, hget, Or.inr (Or.inl ⟨rfl, rfl, ha⟩)⟩
    | some lf =>
      simp only at hget ha
      rcases hl : lf ctx k with ⟨v, _ | err⟩
      · rw [hl] at hget ha
        exact ⟨_, hget, Or.inr (Or.inr ⟨rfl, v, rfl, ha⟩)⟩
      · rw [hl] at hget ha
        exact ⟨_, hget, Or.inr (Or.inl ⟨rfl, rfl, ha⟩)⟩

/-- What `Refresh` leaves in the cache, with the access it makes: the store as it is when
no load succeeds; the store after the library `Set` when the load succeeds, which is an
insertion or an overwrite. -/
theorem Refresh_access_cases {Ctx K V : Type} [DecidableEq K]
    (tc : Cache Ctx K V) (s : Store K V) (now : Time) (ctx : Ctx) (k : K)
    (hc : tc.c = some s) :
    ∃ r, Refresh tc now ctx k = some r ∧
      ((r.cache.c = some s ∧ (Op.refresh now ctx k).access tc = Access.nothing)
        ∨ ∃ v, r.cache.c = some (s.Set now k v tc.exp)
            ∧ (Op.refresh now ctx k).access tc = tc.storeAccess k) := by
  have ha : (Op.refresh now ctx k).access tc
      = (match tc.lf with
        | none => Access.nothing
        | some lf =>
          match (lf ctx k).2 with
          | none => tc.storeAccess k
          | some _ => Access.nothing) := rfl
  have hr : Refresh tc now ctx k
      = (match tc.lf with
        | none => some { err := none, cache := tc, loads := [] }
        | some lf =>
          match lf ctx k with
          | (_, some err) => some { err := some err, cache := tc, loads := [(ctx, k)] }
          | (v, none) =>
            match tc.c with
            | none => none
            | some s =>
              some { err := none, cache := { tc with c := some (s.Set now k v tc.exp) },
                     loads := [(ctx, k)] }) := rfl
  obtain ⟨c, exp, lf⟩ := tc
  simp only at hc
  subst hc
  cases lf with
  | none => exact ⟨_, hr, Or.inl ⟨rfl, ha⟩⟩
  | some lf =>
    simp only at hr ha
    rcases hl : lf ctx k with ⟨v, _ | err⟩
    · rw [hl] at hr ha
      exact ⟨_, hr, Or.inr ⟨v, rfl, ha⟩⟩
    · rw [hl] at hr ha
      exact ⟨_, hr, Or.inl ⟨rfl, ha⟩⟩

/-- Every call of the interface on a cache with a well-formed store that agrees with a
history succeeds and leaves a well-formed store of the same capacity that agrees with the
history after the call. -/
theorem Op.apply_ordered {Ctx K V : Type} [DecidableEq K] [Inhabited V]
    (tc : Cache Ctx K V) (s : Store K V) (h : History K) (op : Op Ctx K V)
    (hc : tc.c = some s) (hw : s.WF) (ho : s.Ordered h) :
    ∃ tc1 s1, op.apply tc = some tc1 ∧ tc1.c = some s1 ∧ s1.WF ∧ s1.cap = s.cap
      ∧ s1.Ordered (h.record (op.access tc)) := by
  have hstore : ∀ (now : Time) (k : K) (v : V),
      (s.Set now k v tc.exp).Ordered (h.record (tc.storeAccess k)) := by
    intro now k v
    have hpeq := Cache.peek_of_store tc s hc k
    unfold Cache.storeAccess
    cases hp : tc.peek k with
    | none =>
      rw [hp] at hpeq
      exact s.Ordered_policySet_insert h _ hw ho hpeq.symm
    | some e0 =>
      rw [hp] at hpeq
      exact s.Ordered_policySet_hit h _ e0 hw ho hpeq.symm
  cases op with
  | put now ctx key val =>
    refine ⟨{ tc with c := some (s.Set now key val tc.exp) }, _, ?_, rfl,
      s.WF_Set now key val tc.exp hw, s.cap_Set now key val tc.exp, hstore now key val⟩
    show Put tc now ctx key val = _
    unfold Put
    rw [hc]
  | get now ctx key =>
    obtain ⟨r, hr, hcase⟩ := Get_access_cases tc s now ctx key hc
    have happ : (Op.get now ctx key).apply tc = some r.cache := by
      show (Get tc now ctx key).map _ = _
      rw [hr]
      rfl
    have hw1 := s.WF_Get now key hw
    have hc1 := s.cap_Get now key
    rcases hcase with ⟨hb, hrc, ha⟩ | ⟨hb, hrc, ha⟩ | ⟨hb, v, hrc, ha⟩
    · obtain ⟨e, hp, hs⟩ := ((Op.access_lookup tc s now ctx key hc).1 hb).2.2
      refine ⟨r.cache, _, happ, hrc, hw1, hc1, ?_⟩
      rw [ha, hs]
      exact s.Ordered_policyGet_hit h key e hw ho hp
    · refine ⟨r.cache, _, happ, hrc, hw1, hc1, ?_⟩
      rw [ha]
      exact Store.Ordered_nothing _ h hw1 (s.Ordered_Get_not_found h now key hw ho hb)
    · refine ⟨r.cache, _, happ, hrc, Store.WF_Set _ now key v tc.exp hw1,
        (Store.cap_Set _ now key v tc.exp).trans hc1, ?_⟩
      rw [ha]
      exact Store.Ordered_policySet_insert _ h _ hw1
        (s.Ordered_Get_not_found h now key hw ho hb) (s.Get_not_found now key hb).2
  | refresh now ctx key =>
    obtain ⟨r, hr, hcase⟩ := Refresh_access_cases tc s now ctx key hc
    have happ : (Op.refresh now ctx key).apply tc = some r.cache := by
      show (Refresh tc now ctx key).map _ = _
      rw [hr]
      rfl
    rcases hcase with ⟨hrc, ha⟩ | ⟨v, hrc, ha⟩
    · refine ⟨r.cache, _, happ, hrc, hw, rfl, ?_⟩
      rw [ha]
      exact s.Ordered_nothing h hw ho
    · refine ⟨r.cache, _, happ, hrc, s.WF_Set now key v tc.exp hw,
        s.cap_Set now key v tc.exp, ?_⟩
      rw [ha]
      exact hstore now key v
  | getIfPresent now ctx key =>
    have happ : (Op.getIfPresent now ctx key).apply tc
        = some { tc with c := some (s.Get now key).2 } := by
      show (GetIfPresent tc now ctx key).map _ = _
      unfold GetIfPresent
      rw [hc]
      rfl
    refine ⟨_, _, happ, rfl, s.WF_Get now key hw, s.cap_Get now key, ?_⟩
    have hacc := Op.access_lookup tc s now ctx key hc
    cases hb : (s.Get now key).1.2 with
    | true =>
      obtain ⟨_, ha, e, hp, hs⟩ := hacc.1 hb
      rw [ha, hs]
      exact s.Ordered_policyGet_hit h key e hw ho hp
    | false =>
      rw [(hacc.2 hb).2]
      exact Store.Ordered_nothing _ h (s.WF_Get now key hw)
        (s.Ordered_Get_not_found h now key hw ho hb)
  | invalidate ctx key =>
    refine ⟨{ tc with c := some (s.Delete key) }, _, ?_, rfl, s.WF_Delete key hw,
      s.cap_Delete key, Store.Ordered_nothing _ h (s.WF_Delete key hw)
        (s.Ordered_Delete h key ho)⟩
    show Invalidate tc ctx key = _
    unfold Invalidate
    rw [hc]
  | invalidateAll ctx =>
    refine ⟨{ tc with c := some (s.Keys.foldl Store.Delete s) }, _, ?_, rfl,
      Store.WF_foldl_Delete s.Keys s hw, Store.cap_foldl_Delete s.Keys s,
      Store.Ordered_nothing _ h (Store.WF_foldl_Delete s.Keys s hw)
        (Store.Ordered_foldl_Delete s.Keys s h ho)⟩
    show InvalidateAll tc ctx = _
    unfold InvalidateAll
    rw [hc]
  | setLoader lf => exact ⟨SetLoader tc lf, s, rfl, hc, hw, rfl, s.Ordered_nothing h hw ho⟩

/-- Every sequence of calls on a cache with a well-formed store that agrees with a history
succeeds and leaves a well-formed store of the same capacity that agrees with the history
of the run. -/
theorem runTraced_ordered {Ctx K V : Type} [DecidableEq K] [Inhabited V]
    (ops : List (Op Ctx K V)) (tc : Cache Ctx K V) (s : Store K V) (h : History K)
    (hc : tc.c = some s) (hw : s.WF) (ho : s.Ordered h) :
    ∃ tc1 s1 h1, runTraced tc h ops = some (tc1, h1) ∧ tc1.c = some s1 ∧ s1.WF
      ∧ s1.cap = s.cap ∧ s1.Ordered h1 := by
  induction ops generalizing tc s h with
  | nil => exact ⟨tc, s, h, rfl, hc, hw, rfl, ho⟩
  | cons op t ih =>
    obtain ⟨tc1, s1, h1, hc1, hw1, hcap1, ho1⟩ := Op.apply_ordered tc s h op hc hw ho
    obtain ⟨tc2, s2, h2, hr2, hc2, hw2, hcap2, ho2⟩ := ih tc1 s1 _ hc1 hw1 ho1
    refine ⟨tc2, s2, h2, ?_, hc2, hw2, hcap2.trans hcap1, ho2⟩
    show (match op.apply tc with
      | none => none
      | some tc1 => runTraced tc1 (h.record (op.access tc)) t) = some (tc2, h2)
    rw [h1]
    exact hr2

/-- The traced run reaches the cache of the run. -/
theorem runTraced_fst {Ctx K V : Type} [DecidableEq K] [Inhabited V]
    (ops : List (Op Ctx K V)) (tc : Cache Ctx K V) (h : History K) :
    (runTraced tc h ops).map Prod.fst = run tc ops := by
  induction ops generalizing tc h with
  | nil => rfl
  | cons op t ih =>
    show ((match op.apply tc with
      | none => none
      | some tc1 => runTraced tc1 (h.record (op.access tc)) t)).map Prod.fst
      = (match op.apply tc with
      | none => none
      | some tc1 => run tc1 t)
    cases op.apply tc with
    | none => rfl
    | some tc1 => exact ih tc1 _

/-! ## Insertions and the kind of the policy -/

/-- A call whose access is the insertion of a key that is not stored succeeds and leaves
the store after the library `Set` of that key. -/
theorem Op.apply_insert {Ctx K V : Type} [DecidableEq K] [Inhabited V]
    (tc : Cache Ctx K V) (s : Store K V) (op : Op Ctx K V) (k : K)
    (hc : tc.c = some s) (hnew : tc.peek k = none) (hins : op.access tc = Access.insert k) :
    ∃ tc1 now v, op.apply tc = some tc1 ∧ tc1.c = some (s.Set now k v tc.exp) := by
  have hsk : s.peek k = none := by rw [← Cache.peek_of_store tc s hc]; exact hnew
  have hstore : ∀ key, tc.storeAccess key = Access.insert k → key = k := by
    intro key hk
    unfold Cache.storeAccess at hk
    cases hp : tc.peek key with
    | none =>
      rw [hp] at hk
      cases hk
      rfl
    | some e =>
      rw [hp] at hk
      cases hk
  cases op with
  | put now ctx key val =>
    have hk : key = k := hstore key hins
    subst hk
    refine ⟨{ tc with c := some (s.Set now key val tc.exp) }, now, val, ?_, rfl⟩
    show Put tc now ctx key val = _
    unfold Put
    rw [hc]
  | get now ctx key =>
    obtain ⟨r, hr, hcase⟩ := Get_access_cases tc s now ctx key hc
    have happ : (Op.get now ctx key).apply tc = some r.cache := by
      show (Get tc now ctx key).map _ = _
      rw [hr]
      rfl
    rcases hcase with ⟨_, _, ha⟩ | ⟨_, _, ha⟩ | ⟨_, v, hrc, ha⟩
    · rw [ha] at hins; cases hins
    · rw [ha] at hins; cases hins
    · rw [ha] at hins
      cases hins
      rw [s.Get_miss now k hsk] at hrc
      exact ⟨r.cache, now, v, happ, hrc⟩
  | refresh now ctx key =>
    obtain ⟨r, hr, hcase⟩ := Refresh_access_cases tc s now ctx key hc
    have happ : (Op.refresh now ctx key).apply tc = some r.cache := by
      show (Refresh tc now ctx key).map _ = _
      rw [hr]
      rfl
    rcases hcase with ⟨_, ha⟩ | ⟨v, hrc, ha⟩
    · rw [ha] at hins; cases hins
    · rw [ha] at hins
      have hk : key = k := hstore key hins
      subst hk
      exact ⟨r.cache, now, v, happ, hrc⟩
  | getIfPresent now ctx key =>
    have hacc := Op.access_lookup tc s now ctx key hc
    cases hb : (s.Get now key).1.2 with
    | true => rw [(hacc.1 hb).2.1] at hins; cases hins
    | false => rw [(hacc.2 hb).2] at hins; cases hins
  | invalidate ctx key => cases hins
  | invalidateAll ctx => cases hins
  | setLoader lf => cases hins

/-- The stores reached from an LRU store are LRU stores, those reached from an LFU store
are LFU stores. -/
theorem Store.Reach_kind {K V : Type} [DecidableEq K] [Inhabited V] (exp : Time)
    (s s1 : Store K V) (h : Store.Reach exp s s1) :
    ((∃ p, s = Store.lru p) → ∃ p1, s1 = Store.lru p1)
      ∧ ((∃ p, s = Store.lfu p) → ∃ p1, s1 = Store.lfu p1) := by
  have hdel : ∀ (s2 : Store K V) (k : K),
      ((∃ p, s2 = Store.lru p) → ∃ p1, s2.Delete k = Store.lru p1)
        ∧ ((∃ p, s2 = Store.lfu p) → ∃ p1, s2.Delete k = Store.lfu p1) := by
    intro s2 k
    cases s2 with
    | lru p => exact ⟨fun _ => ⟨_, rfl⟩, fun ⟨q, hq⟩ => (by cases hq)⟩
    | lfu p => exact ⟨fun ⟨q, hq⟩ => (by cases hq), fun _ => ⟨_, rfl⟩⟩
  have hget : ∀ (s2 : Store K V) (k : K),
      ((∃ p, s2 = Store.lru p) → ∃ p1, (s2.policyGet k).2 = Store.lru p1)
        ∧ ((∃ p, s2 = Store.lfu p) → ∃ p1, (s2.policyGet k).2 = Store.lfu p1) := by
    intro s2 k
    cases s2 with
    | lru p => exact ⟨fun _ => ⟨_, rfl⟩, fun ⟨q, hq⟩ => (by cases hq)⟩
    | lfu p => exact ⟨fun ⟨q, hq⟩ => (by cases hq), fun _ => ⟨_, rfl⟩⟩
  have hset : ∀ (s2 : Store K V) (e : Entry K V),
      ((∃ p, s2 = Store.lru p) → ∃ p1, s2.policySet e = Store.lru p1)
        ∧ ((∃ p, s2 = Store.lfu p) → ∃ p1, s2.policySet e = Store.lfu p1) := by
    intro s2 e
    cases s2 with
    | lru p => exact ⟨fun _ => ⟨_, rfl⟩, fun ⟨q, hq⟩ => (by cases hq)⟩
    | lfu p => exact ⟨fun ⟨q, hq⟩ => (by cases hq), fun _ => ⟨_, rfl⟩⟩
  have hlook : ∀ (s2 : Store K V) (now : Time) (k : K),
      ((∃ p, s2 = Store.lru p) → ∃ p1, (s2.Get now k).2 = Store.lru p1)
        ∧ ((∃ p, s2 = Store.lfu p) → ∃ p1, (s2.Get now k).2 = Store.lfu p1) := by
    intro s2 now k
    cases hp : s2.peek k with
    | none => rw [s2.Get_miss now k hp]; exact ⟨fun x => x, fun x => x⟩
    | some e =>
      cases hx : e.expired now with
      | false => rw [s2.Get_hit now k e hp hx]; exact hget s2 k
      | true =>
        rw [s2.Get_expired now k e hp hx]
        exact ⟨fun x => (hdel _ k).1 ((hget s2 k).1 x), fun x => (hdel _ k).2 ((hget s2 k).2 x)⟩
  induction h with
  | refl => exact ⟨fun x => x, fun x => x⟩
  | get s2 now k _ ih =>
    exact ⟨fun x => (hlook s2 now k).1 (ih.1 x), fun x => (hlook s2 now k).2 (ih.2 x)⟩
  | set s2 now k v _ ih =>
    exact ⟨fun x => (hset s2 _).1 (ih.1 x), fun x => (hset s2 _).2 (ih.2 x)⟩
  | delete s2 k _ ih =>
    exact ⟨fun x => (hdel s2 k).1 (ih.1 x), fun x => (hdel s2 k).2 (ih.2 x)⟩

/-- The state a traced run from `NewCache` reaches, for type LRU or LFU: a well-formed
store of the kind and capacity `NewCache` installs, which agrees with the history. -/
theorem runTraced_NewCache {Ctx K V : Type} [DecidableEq K] [Inhabited V]
    (params : CacheParams Ctx K V) (ops : List (Op Ctx K V)) (tc : Cache Ctx K V)
    (h : History K) (hT : params.Typ = LRU ∨ params.Typ = LFU)
    (hrun : runTraced (NewCache params) History.start ops = some (tc, h)) :
    ∃ s, tc.c = some s ∧ s.WF ∧ s.Ordered h
      ∧ s.cap = (if params.Size = 0 then 10000 else params.Size)
      ∧ (params.Typ = LRU → ∃ p, s = Store.lru p)
      ∧ (params.Typ = LFU → ∃ p, s = Store.lfu p) := by
  obtain ⟨s0, hc0, hw0, hsz0, hcap0⟩ := NewCache_store params hT
  have ho0 : s0.Ordered History.start := by
    cases s0 with
    | lru p =>
      have hl : p.list = [] := List.length_eq_zero.mp hsz0
      constructor
      · rw [hl]; exact List.Pairwise.nil
      · intro e he; rw [hl] at he; cases he
    | lfu p =>
      have hl : p.items = [] := List.length_eq_zero.mp hsz0
      have hnode : ∀ k, p.node k = none := by
        intro k
        show p.items.find? _ = none
        rw [hl]
        rfl
      constructor
      · intro f
        have hemp : bucketAt p.buckets f = [] := by
          rw [List.eq_nil_iff_forall_not_mem]
          intro a ha
          obtain ⟨n, hn, _⟩ := p.node_of_bucket hw0 a f ha
          rw [hnode a] at hn
          cases hn
        rw [hemp]
        exact List.Pairwise.nil
      · intro k n hn
        rw [hnode k] at hn
        cases hn
  obtain ⟨tc1, s1, h1, hr1, hc1, hw1, hcap1, ho1⟩ :=
    runTraced_ordered ops (NewCache params) s0 History.start hc0 hw0 ho0
  rw [hrun] at hr1
  cases hr1
  obtain ⟨tc2, s2, hr2, hc2, _, hreach⟩ := run_reach ops (NewCache params) s0 hc0
  have hfst := runTraced_fst ops (NewCache params) (History.start : History K)
  rw [hrun, hr2] at hfst
  have htc : tc = tc2 := Option.some.inj hfst
  subst htc
  rw [hc1] at hc2
  cases hc2
  have hkind := Store.Reach_kind _ s0 s1 hreach
  refine ⟨s1, hc1, hw1, ho1, hcap1.trans hcap0, ?_, ?_⟩
  · intro hL
    apply hkind.1
    rw [NewCache_c_LRU params hL] at hc0
    exact ⟨_, (Option.some.inj hc0).symm⟩
  · intro hL
    apply hkind.2
    rw [NewCache_c_LFU params hL] at hc0
    exact ⟨_, (Option.some.inj hc0).symm⟩

/-! ## C11: LRU eviction order -/

/-- A full LRU policy that takes a new key evicts the entry at the tail of the recency
list, the stored key whose most recent access is the oldest, and nothing else. -/
theorem LRUPolicy.lru_set_full_evicts {K V : Type} [DecidableEq K] (p : LRUPolicy K V)
    (h : History K) (e : Entry K V) (hw : p.WF) (ho : p.Ordered h)
    (hfull : (p.list.length : Int) = p.cap) (hne : p.list ≠ [])
    (hp : p.peek e.key = none) :
    ∃ ev, p.peek ev.key = some ev
      ∧ (p.set e).peek ev.key = none
      ∧ (p.set e).peek e.key = some e
      ∧ (∀ j, j ≠ ev.key → j ≠ e.key → (p.set e).peek j = p.peek j)
      ∧ (∀ j, j ≠ ev.key → p.peek j ≠ none → h.last ev.key < h.last j) := by
  have hl := List.dropLast_append_getLast hne
  have hev : p.list.getLast hne ∈ p.list := List.getLast_mem hne
  have hpev := p.peek_of_mem _ hw hev
  have hkne : e.key ≠ (p.list.getLast hne).key := by
    intro heq
    rw [heq, hpev] at hp
    cases hp
  have hnd : ((p.list.dropLast ++ [p.list.getLast hne]).map Entry.key).Nodup := by
    rw [hl]; exact hw.1
  rw [List.map_append, List.nodup_append] at hnd
  have hnotin : (p.list.getLast hne).key ∉ p.list.dropLast.map Entry.key := by
    intro hm
    exact hnd.2.2 hm (by simp)
  have hset : (p.set e).list = e :: p.list.dropLast := by
    unfold LRUPolicy.set
    rw [hp]
    have hlt : p.cap < (((e :: p.list).length : Nat) : Int) := by
      rw [List.length_cons]
      push_cast
      omega
    simp only [hlt, if_true]
    exact List.dropLast_cons_of_ne_nil hne
  have hfind : ∀ j, (p.set e).peek j
      = if j = e.key then some e
        else p.list.dropLast.find? (fun x => decide (x.key = j)) := by
    intro j
    show (p.set e).list.find? _ = _
    rw [hset, List.find?_cons]
    by_cases hj : j = e.key
    · subst hj; simp
    · have hd : decide (e.key = j) = false := by simpa using fun x : e.key = j => hj x.symm
      rw [hd, if_neg hj]
  have hold : ∀ j, j ≠ (p.list.getLast hne).key →
      p.peek j = p.list.dropLast.find? (fun x => decide (x.key = j)) := by
    intro j hj
    show p.list.find? _ = _
    have h1 := find_append_new Entry.key p.list.dropLast j (p.list.getLast hne)
    rw [hl] at h1
    rw [h1, if_neg (fun x => hj x.symm)]
    cases List.find? (fun x => decide (x.key = j)) p.list.dropLast <;> rfl
  refine ⟨p.list.getLast hne, hpev, ?_, ?_, ?_, ?_⟩
  · rw [hfind, if_neg (fun x => hkne x.symm)]
    exact (find_key_none Entry.key p.list.dropLast _).mpr hnotin
  · rw [hfind, if_pos rfl]
  · intro j hj1 hj2
    rw [hfind, if_neg hj2, hold j hj1]
  · intro j hj1 hj2
    cases hpj : p.peek j with
    | none => exact absurd hpj hj2
    | some ej =>
      rw [hold j hj1] at hpj
      obtain ⟨hk, hm⟩ := find_key_some Entry.key p.list.dropLast j ej hpj
      have hpw := ho.1
      rw [← hl, List.pairwise_append] at hpw
      have := hpw.2.2 ej hm (p.list.getLast hne) (by simp)
      rw [hk] at this
      exact this

/-- C11. In a cache created by `NewCache` with type LRU, after any sequence of calls, when
the cache is full (its size is its capacity) a call that inserts a key `k` that is not
stored (a `Put`, or a `Get` or `Refresh` whose load succeeds) succeeds and evicts exactly
one key, `victim`: it was stored and is not afterwards, `k` is stored afterwards, every
other key keeps its entry, and the most recent access of `victim` (its insertion, an
overwrite, or a hit by `GetIfPresent` or `Get`, as recorded by the history `h` of the run)
is older than that of every other stored key. -/
theorem LRU_evicts_least_recent {Ctx K V : Type} [DecidableEq K] [Inhabited V]
    (params : CacheParams Ctx K V) (ops : List (Op Ctx K V)) (tc : Cache Ctx K V)
    (h : History K) (op : Op Ctx K V) (k : K)
    (hT : params.Typ = LRU)
    (hrun : runTraced (NewCache params) History.start ops = some (tc, h))
    (hfull : tc.cap = some (tc.size : Int))
    (hnew : tc.peek k = none) (hins : op.access tc = Access.insert k) :
    ∃ tc1 victim, op.apply tc = some tc1
      ∧ tc.peek victim ≠ none
      ∧ tc1.peek victim = none
      ∧ tc1.peek k ≠ none
      ∧ (∀ j, j ≠ victim → j ≠ k → tc1.peek j = tc.peek j)
      ∧ (∀ j, j ≠ victim → tc.peek j ≠ none → h.last victim < h.last j) := by
  obtain ⟨s, hc, hw, ho, hcap, hkind, _⟩ := runTraced_NewCache params ops tc h (Or.inl hT) hrun
  obtain ⟨p, hs⟩ := hkind hT
  subst hs
  obtain ⟨tc1, now, v, happ, hc1⟩ := Op.apply_insert tc (Store.lru p) op k hc hnew hins
  have hcapne : p.cap ≠ 0 := by
    have h1 : p.cap = (if params.Size = 0 then 10000 else params.Size) := hcap
    rw [h1]
    split
    · decide
    · rename_i hne; exact hne
  have hfull1 : (p.list.length : Int) = p.cap := by
    unfold Cache.cap Cache.size at hfull
    rw [hc] at hfull
    exact (Option.some.inj hfull).symm
  have hne : p.list ≠ [] := by
    intro hnil
    rw [hnil] at hfull1
    exact hcapne hfull1.symm
  have hpk : p.peek k = none := by
    have := Cache.peek_of_store tc (Store.lru p) hc k
    rw [hnew] at this
    exact this.symm
  obtain ⟨ev, h1, h2, h3, h4, h5⟩ := p.lru_set_full_evicts h
    { key := k, value := v, expiresAt := Store.expiry now tc.exp } hw ho hfull1 hne hpk
  have hpeek : ∀ j, tc.peek j = p.peek j := Cache.peek_of_store tc (Store.lru p) hc
  have hpeek1 : ∀ j, tc1.peek j
      = (p.set { key := k, value := v, expiresAt := Store.expiry now tc.exp }).peek j :=
    Cache.peek_of_store tc1 _ hc1
  refine ⟨tc1, ev.key, happ, ?_, ?_, ?_, ?_, ?_⟩
  · rw [hpeek, h1]; exact Option.some_ne_none _
  · rw [hpeek1]; exact h2
  · rw [hpeek1, h3]; exact Option.some_ne_none _
  · intro j hj1 hj2
    rw [hpeek1, hpeek]
    exact h4 j hj1 hj2
  · intro j hj1 hj2
    rw [hpeek] at hj2
    exact h5 j hj1 hj2

/-- C11 at the example of the spec: capacity 2, `Put(1,1)`, `Put(2,2)`, `GetIfPresent(1)`,
then `Put(3,3)`: the theorem applies to the last call, and keys 1 and 3 are stored
afterwards while key 2 is not. -/
theorem LRU_evicts_least_recent_witness :
    (∃ tc h, runTraced (NewCache (lruParams 0)) History.start
        [Op.put 0 () 1 1, Op.put 1 () 2 2, Op.getIfPresent 2 () 1] = some (tc, h)
      ∧ ∃ tc1 victim, (Op.put 3 () 3 3).apply tc = some tc1
        ∧ tc.peek victim ≠ none
        ∧ tc1.peek victim = none
        ∧ tc1.peek 3 ≠ none
        ∧ (∀ j, j ≠ victim → j ≠ 3 → tc1.peek j = tc.peek j)
        ∧ (∀ j, j ≠ victim → tc.peek j ≠ none → h.last victim < h.last j))
    ∧ (run (NewCache (lruParams 0))
        [Op.put 0 () 1 1, Op.put 1 () 2 2, Op.getIfPresent 2 () 1, Op.put 3 () 3 3]).map
          (fun tc => ((tc.peek 1).map Entry.value, (tc.peek 2).map Entry.value,
            (tc.peek 3).map Entry.value))
        = some (some 1, none, some 3) :=
  ⟨⟨_, _, rfl, LRU_evicts_least_recent (lruParams 0)
      [Op.put 0 () 1 1, Op.put 1 () 2 2, Op.getIfPresent 2 () 1] _ _ (Op.put 3 () 3 3) 3
      rfl rfl (by decide) (by decide) (by decide)⟩, by decide⟩

/-! ## C12: LFU eviction order -/

/-- A full LFU policy of positive capacity that takes a new key evicts the key at the
front of the `minFreq` bucket and nothing else: its count of accesses is minimal among the
stored keys, and among the stored keys with that count its most recent access is the
oldest. -/
theorem LFUPolicy.lfu_set_full_evicts {K V : Type} [DecidableEq K] (p : LFUPolicy K V)
    (h : History K) (e : Entry K V) (hw : p.WF) (ho : p.Ordered h) (hcap : 0 < p.cap)
    (hfull : p.cap ≤ (p.items.length : Int)) (hn : p.node e.key = none) :
    ∃ v nv, p.node v = some nv
      ∧ (p.set e).node v = none
      ∧ (p.set e).node e.key = some { entry := e, freq := 1 }
      ∧ (∀ j, j ≠ v → j ≠ e.key → (p.set e).node j = p.node j)
      ∧ (∀ j n, p.node j = some n → h.count v ≤ h.count j)
      ∧ (∀ j n, j ≠ v → p.node j = some n → h.count j = h.count v → h.last v < h.last j) := by
  cases hm : p.minFreq with
  | none =>
    have := hw.min_defined hcap hm
    omega
  | some m =>
    have hnonempty := hw.min_nonempty m hm
    cases hb : bucketAt p.buckets m with
    | nil => exact absurd hb hnonempty
    | cons v t =>
      have hv : v ∈ bucketAt p.buckets m := by rw [hb]; exact List.mem_cons_self v t
      obtain ⟨nv, hnv, hfv⟩ := (hw.bucket_iff v m).mp hv
      have he : p.evict = p.delete v := by
        unfold LFUPolicy.evict
        rw [hm]
        simp only [hb]
      have hq : (if p.cap ≤ (p.items.length : Int) then p.evict else p) = p.delete v := by
        rw [if_pos hfull, he]
      have hvk : v ≠ e.key := by
        intro hve
        rw [hve, hn] at hnv
        cases hnv
      have hqn : (p.delete v).node e.key = none := by
        rw [LFUPolicy.node_delete]
        split
        · rfl
        · exact hn
      have hnode : ∀ j, (p.set e).node j
          = if j = e.key then some { entry := e, freq := 1 } else (p.delete v).node j := by
        intro j
        rw [← LFUPolicy.node_insert (p.delete v) e hqn j]
        unfold LFUPolicy.set
        rw [hn]
        simp only [hq]
      refine ⟨v, nv, hnv, ?_, ?_, ?_, ?_, ?_⟩
      · rw [hnode, if_neg hvk, LFUPolicy.node_delete, if_pos rfl]
      · rw [hnode, if_pos rfl]
      · intro j hj1 hj2
        rw [hnode, if_neg hj2, LFUPolicy.node_delete, if_neg hj1]
      · intro j n hj
        rw [← (ho.2 v nv hnv).1, ← (ho.2 j n hj).1, hfv]
        exact hw.min_le m hm j n hj
      · intro j n hj1 hj2 hj3
        have hfj : n.freq = m := by
          rw [(ho.2 j n hj2).1, hj3, ← (ho.2 v nv hnv).1, hfv]
        have hjb : j ∈ bucketAt p.buckets m := (hw.bucket_iff j m).mpr ⟨n, hj2, hfj⟩
        rw [hb] at hjb
        have hjt : j ∈ t := by
          rcases List.mem_cons.mp hjb with hjv | hjt
          · exact absurd hjv hj1
          · exact hjt
        have hpw := ho.1 m
        rw [hb, List.pairwise_cons] at hpw
        exact hpw.1 j hjt

/-- The claim C12 as stated fails: on an LFU cache of capacity 3, after `Put(1)`,
`Put(2)`, `GetIfPresent(2)`, `GetIfPresent(1)`, `Put(3)`, `GetIfPresent(3)` the cache is
full and keys 1, 2 and 3 tie at frequency 2; key 1 was inserted first, but `Put(4)` evicts
key 2 and keeps key 1. -/
theorem LFU_tie_break_counterexample :
    (run (NewCache (lfuParams 3))
        [Op.put 0 () 1 1, Op.put 1 () 2 2, Op.getIfPresent 2 () 2, Op.getIfPresent 3 () 1,
          Op.put 4 () 3 3, Op.getIfPresent 5 () 3]).map
          (fun tc => (tc.freq 1, tc.freq 2, tc.freq 3, tc.size))
        = some (some 2, some 2, some 2, 3)
    ∧ (run (NewCache (lfuParams 3))
        [Op.put 0 () 1 1, Op.put 1 () 2 2, Op.getIfPresent 2 () 2, Op.getIfPresent 3 () 1,
          Op.put 4 () 3 3, Op.getIfPresent 5 () 3, Op.put 6 () 4 4]).map
          (fun tc => ((tc.peek 1).isSome, (tc.peek 2).isSome, (tc.peek 3).isSome,
            (tc.peek 4).isSome))
        = some (true, false, true, true) := by
  constructor <;> decide

theorem Cache.freq_of_lfu {Ctx K V : Type} [DecidableEq K] (tc : Cache Ctx K V)
    (p : LFUPolicy K V) (hc : tc.c = some (Store.lfu p)) (j : K) :
    tc.freq j = (p.node j).map LFUNode.freq := by
  unfold Cache.freq
  rw [hc]

/-- C12, amended. In a cache created by `NewCache` with type LFU, after any sequence of
calls, the frequency the policy holds for a stored key is its count of accesses in the
history `h` of the run (1 at the insertion, plus 1 for every hit or overwrite since). When
the cache is full, a call that inserts a key `k` that is not stored succeeds and evicts
exactly one key, `victim`: it was stored and is not afterwards, `k` is stored afterwards
with frequency 1, every other key keeps its entry and frequency, the count of `victim` is
minimal among the stored keys, and among the stored keys that tie with it the most recent
access of `victim` is the oldest. -/
theorem LFU_evicts_least_frequent {Ctx K V : Type} [DecidableEq K] [Inhabited V]
    (params : CacheParams Ctx K V) (ops : List (Op Ctx K V)) (tc : Cache Ctx K V)
    (h : History K) (op : Op Ctx K V) (k : K)
    (hT : params.Typ = LFU)
    (hrun : runTraced (NewCache params) History.start ops = some (tc, h))
    (hfull : tc.cap = some (tc.size : Int))
    (hnew : tc.peek k = none) (hins : op.access tc = Access.insert k) :
    (∀ j f, tc.freq j = some f → f = h.count j)
      ∧ ∃ tc1 victim, op.apply tc = some tc1
        ∧ tc.peek victim ≠ none
        ∧ tc1.peek victim = none
        ∧ tc1.peek k ≠ none
        ∧ tc1.freq k = some 1
        ∧ (∀ j, j ≠ victim → j ≠ k → tc1.peek j = tc.peek j ∧ tc1.freq j = tc.freq j)
        ∧ (∀ j, tc.peek j ≠ none → h.count victim ≤ h.count j)
        ∧ (∀ j, j ≠ victim → tc.peek j ≠ none → h.count j = h.count victim →
            h.last victim < h.last j) := by
  obtain ⟨s, hc, hw, ho, hcap, _, hkind⟩ := runTraced_NewCache params ops tc h (Or.inr hT) hrun
  obtain ⟨p, hs⟩ := hkind hT
  subst hs
  obtain ⟨tc1, now, v, happ, hc1⟩ := Op.apply_insert tc (Store.lfu p) op k hc hnew hins
  have hcapne : p.cap ≠ 0 := by
    have h1 : p.cap = (if params.Size = 0 then 10000 else params.Size) := hcap
    rw [h1]
    split
    · decide
    · rename_i hne; exact hne
  have hfull1 : (p.items.length : Int) = p.cap := by
    unfold Cache.cap Cache.size at hfull
    rw [hc] at hfull
    exact (Option.some.inj hfull).symm
  have hpos : 0 < p.cap := by omega
  have hpeek : ∀ j, tc.peek j = (p.node j).map LFUNode.entry :=
    Cache.peek_of_store tc (Store.lfu p) hc
  have hstored : ∀ j, tc.peek j ≠ none → ∃ n, p.node j = some n := by
    intro j hj
    rw [hpeek] at hj
    cases hn : p.node j with
    | none => rw [hn] at hj; exact absurd rfl hj
    | some n => exact ⟨n, rfl⟩
  have hpk : p.node k = none := by
    have := hpeek k
    rw [hnew] at this
    cases hn : p.node k with
    | none => rfl
    | some n => rw [hn] at this; cases this
  obtain ⟨vk, nv, h1, h2, h3, h4, h5, h6⟩ := p.lfu_set_full_evicts h
    { key := k, value := v, expiresAt := Store.expiry now tc.exp } hw ho hpos
    (le_of_eq hfull1.symm) hpk
  have hc1' : tc1.c = some (Store.lfu
      (p.set { key := k, value := v, expiresAt := Store.expiry now tc.exp })) := hc1
  have hpeek1 : ∀ j, tc1.peek j
      = ((p.set { key := k, value := v, expiresAt := Store.expiry now tc.exp }).node j).map
          LFUNode.entry := Cache.peek_of_store tc1 _ hc1'
  constructor
  · intro j f hj
    rw [Cache.freq_of_lfu tc p hc] at hj
    cases hn : p.node j with
    | none => rw [hn] at hj; cases hj
    | some n =>
      rw [hn] at hj
      cases hj
      exact (ho.2 j n hn).1
  · refine ⟨tc1, vk, happ, ?_, ?_, ?_, ?_, ?_, ?_, ?_⟩
    · rw [hpeek, h1]; exact Option.some_ne_none _
    · rw [hpeek1, h2]; rfl
    · rw [hpeek1, h3]; exact Option.some_ne_none _
    · rw [Cache.freq_of_lfu tc1 _ hc1', h3]; rfl
    · intro j hj1 hj2
      rw [hpeek1, hpeek, Cache.freq_of_lfu tc1 _ hc1', Cache.freq_of_lfu tc p hc,
        h4 j hj1 hj2]
      exact ⟨rfl, rfl⟩
    · intro j hj
      obtain ⟨n, hn⟩ := hstored j hj
      exact h5 j n hn
    · intro j hj1 hj2 hj3
      obtain ⟨n, hn⟩ := hstored j hj2
      exact h6 j n hj1 hn hj3

/-- C12 at the example of the spec: capacity 2, `Put(1,1)`, `Put(2,2)`, `GetIfPresent(1)`
twice, then `Put(3,3)`: the theorem applies to the last call, and keys 1 and 3 are stored
afterwards while key 2 is not. -/
theorem LFU_evicts_least_frequent_witness :
    (∃ tc h, runTraced (NewCache (lfuParams 2)) History.start
        [Op.put 0 () 1 1, Op.put 1 () 2 2, Op.getIfPresent 2 () 1, Op.getIfPresent 3 () 1]
          = some (tc, h)
      ∧ (∀ j f, tc.freq j = some f → f = h.count j)
      ∧ ∃ tc1 victim, (Op.put 4 () 3 3).apply tc = some tc1
        ∧ tc.peek victim ≠ none
        ∧ tc1.peek victim = none
        ∧ tc1.peek 3 ≠ none
        ∧ tc1.freq 3 = some 1
        ∧ (∀ j, j ≠ victim → j ≠ 3 → tc1.peek j = tc.peek j ∧ tc1.freq j = tc.freq j)
        ∧ (∀ j, tc.peek j ≠ none → h.count victim ≤ h.count j)
        ∧ (∀ j, j ≠ victim → tc.peek j ≠ none → h.count j = h.count victim →
            h.last victim < h.last j))
    ∧ (run (NewCache (lfuParams 2))
        [Op.put 0 () 1 1, Op.put 1 () 2 2, Op.getIfPresent 2 () 1, Op.getIfPresent 3 () 1,
          Op.put 4 () 3 3]).map
          (fun tc => ((tc.peek 1).map Entry.value, (tc.peek 2).map Entry.value,
            (tc.peek 3).map Entry.value, tc.freq 1, tc.freq 3))
        = some (some 1, none, some 3, some 3, some 1) :=
  ⟨⟨_, _, rfl, LFU_evicts_least_frequent (lfuParams 2)
      [Op.put 0 () 1 1, Op.put 1 () 2 2, Op.getIfPresent 2 () 1, Op.getIfPresent 3 () 1]
      _ _ (Op.put 4 () 3 3) 3 rfl rfl (by decide) (by decide) (by decide)⟩, by decide⟩

end ldcache
